import Mathlib

/-!
# tftpd-go: a shallow embedding of the TFTP read-request server

The Go program `tftpd-go.go` is embedded as Lean functions.

* A Go `[]byte` / `string` is a `List Byte` with `Byte = Fin 256`; every slice the
  program makes comes from `make`, so its capacity equals its length.
* A run-time panic (slice bounds out of range) is `none` / `Outcome.panic`.
* `os.Exit` (reached through `CheckError`) is `Outcome.exit`.
* The socket is a script of what successive `ReadFromUDP` calls deliver
  (`Net.inbox`) and of which `WriteToUDP` call fails, if any (`Net.sendFail`).
  A `ReadFromUDP` on an exhausted script never returns: `Outcome.block`.
* An open file is the script of what successive `Read` calls deliver.
* Every function returns the list of events it performed, in order.
-/

namespace Tftpd

/-! ## Bytes, slices, `encoding/binary` -/

abbrev Byte := Fin 256
abbrev Bytes := List Byte

/-- Go conversion `byte(v)`: keeps the low 8 bits. -/
def byte (v : Nat) : Byte := ⟨v % 256, Nat.mod_lt _ (by decide)⟩

/-- Go `make([]byte, n)`: `n` zero bytes. -/
def make (n : Nat) : Bytes := List.replicate n 0

/-- Go `buf[lo:hi]`; panics (`none`) unless `lo ≤ hi ≤ len(buf)`. -/
def slice (buf : Bytes) (lo hi : Nat) : Option Bytes :=
  if lo ≤ hi ∧ hi ≤ buf.length then some ((buf.drop lo).take (hi - lo)) else none

/-- Go `buf[lo:]`; panics (`none`) unless `lo ≤ len(buf)`. -/
def sliceFrom (buf : Bytes) (lo : Nat) : Option Bytes :=
  if lo ≤ buf.length then some (buf.drop lo) else none

/-- Go `buf[:hi]`; panics (`none`) unless `hi ≤ len(buf)`. -/
def sliceTo (buf : Bytes) (hi : Nat) : Option Bytes :=
  if hi ≤ buf.length then some (buf.take hi) else none

/-- Go `binary.BigEndian.Uint16(b)`: `b[1] | b[0]<<8`; panics when `len(b) < 2`. -/
def Uint16 : Bytes → Option Nat
  | b0 :: b1 :: _ => some (b0.val * 256 + b1.val)
  | _ => none

/-- Go conversion `uint16(v)` of a non-negative `int`: keeps the low 16 bits. -/
def uint16 (v : Nat) : Nat := v % 65536

/-- Go `binary.BigEndian.PutUint16(b, v)` on `b = make([]byte, 2)`:
`b[0] = byte(v >> 8)`, `b[1] = byte(v)`. -/
def PutUint16 (v : Nat) : Bytes := [byte (v / 256), byte v]

/-! ## Opcodes and packet types -/

def RRQ : Nat := 1
def WRQ : Nat := 2
def DATA : Nat := 3
def ACK : Nat := 4
def ERROR : Nat := 5

/-- Go `type Initial struct`. -/
structure Initial where
  Opcode : Nat
  Filename : Bytes
  Mode : Bytes
  deriving DecidableEq

/-- Go `type DataPacket struct`. -/
structure DataPacket where
  Opcode : Bytes
  Block : Bytes
  Data : Bytes
  deriving DecidableEq

/-- Go `type ACKPacket struct`. -/
structure ACKPacket where
  Opcode : Nat
  Blocknum : Nat
  deriving DecidableEq

/-! ## The environment: socket and file scripts, events, outcomes -/

/-- What one `ReadFromUDP` call delivers: a datagram, or a transport error. -/
inductive Recv where
  | dgram (d : Bytes)
  | error
  deriving DecidableEq

/-- The socket as seen by the program: the results of the `ReadFromUDP` calls still
to come, and the number of `WriteToUDP` calls that succeed before one fails
(`none`: no send fails). -/
structure Net where
  inbox : List Recv
  sendFail : Option Nat
  deriving DecidableEq

/-- The error a `file.Read(buf)` may return: `io.EOF` or another one. -/
inductive ReadErr where
  | eof
  | other
  deriving DecidableEq

/-- The outcome of one `file.Read` call. -/
structure ReadResult where
  data : Bytes
  err : Option ReadErr
  deriving DecidableEq

/-- An open file: the results of the `Read` calls still to come.  Once the script is
used up every `Read` returns `0, io.EOF`. -/
abbrev File := List ReadResult

/-- Observable events, each tagged with the statement that produced it. -/
inductive Event where
  /-- The call `ReadFromUDP` in `Initialize` returned. -/
  | request (r : Recv)
  /-- The call `os.OpenFile(name, ...)`, and whether it succeeded. -/
  | opened (name : Bytes) (ok : Bool)
  /-- The call `file.Read(buf)` returned `numbytes`. -/
  | read (numbytes : Nat)
  /-- The call `WriteToUDP(payload, remote)` after the file read, block counter `blocknum`. -/
  | sent (blocknum : Nat) (payload : Bytes)
  /-- The call `WriteToUDP(payload, remote)` inside the acknowledgment loop. -/
  | resent (blocknum : Nat) (payload : Bytes)
  /-- A `WriteToUDP` call returned an error. -/
  | sendFailed
  /-- The call `ReadFromUDP` in `ListenForTransferACK` returned. -/
  | received (r : Recv)
  /-- A record written by `Info.Printf`. -/
  | logInfo
  /-- A record written by `Error.Println`. -/
  | logError
  /-- The call `os.Exit(0)`. -/
  | exited
  /-- Deferred `file.Close()`. -/
  | closed
  deriving DecidableEq

/-- How a call ends. -/
inductive Outcome (α : Type) where
  /-- The function returned. -/
  | ret (a : α)
  /-- The process ended through `os.Exit`. -/
  | exit
  /-- A run-time panic: the process is gone. -/
  | panic
  /-- The call waits for a datagram that never comes. -/
  | block
  deriving DecidableEq

/-- A finished (or stuck) call: events performed, outcome, socket left over. -/
structure Run where
  trace : List Event
  out : Outcome Unit
  net : Net
  deriving DecidableEq

/-- Put events in front of a run. -/
def Run.after (es : List Event) (r : Run) : Run :=
  { r with trace := es ++ r.trace }

/-- Go `ReadFromUDP(buf)`: copies the datagram into `buf` (what does not fit is dropped)
and reports whether an error occurred. -/
def ReadFromUDP (r : Recv) (buf : Bytes) : Bytes × Bool :=
  match r with
  | .dgram d => (d.take buf.length ++ buf.drop d.length, false)
  | .error => (buf, true)

/-- Go `WriteToUDP`: `true` when this call fails; also the socket afterwards. -/
def WriteToUDP (sendFail : Option Nat) : Bool × Option Nat :=
  match sendFail with
  | none => (false, none)
  | some 0 => (true, some 0)
  | some (k + 1) => (false, some k)

/-- Go `bufio.Reader.ReadString(delim)` over a `bytes.Buffer`: the bytes up to and
including the first `delim`; when there is none, all the bytes, and `err = io.EOF`
(second component `true`). -/
def ReadString (delim : Byte) : Bytes → Bytes × Bool
  | [] => ([], true)
  | b :: rest =>
    if b = delim then ([b], false)
    else ((b :: (ReadString delim rest).1), (ReadString delim rest).2)

/-! ## The program -/

/-- Go `ListenForTransferACK`, given what its `ReadFromUDP` delivers. -/
def ListenForTransferACK (r : Recv) (_blocknum : Nat) : Outcome ACKPacket :=
  let buf := make 512
  let rd := ReadFromUDP r buf
  let buf := rd.1
  let err := rd.2
  if err then .exit
  else
    match (slice buf 0 2).bind Uint16, (slice buf 2 4).bind Uint16 with
    | some opcode, some blockret => .ret { Opcode := opcode, Blocknum := blockret }
    | _, _ => .panic

/-- Go `decodeRRQWRQ`; `none` is a run-time panic. -/
def decodeRRQWRQ (buf : Bytes) : Option Initial := do
  let opcode ← (slice buf 0 2).bind Uint16
  let readbuffer ← sliceFrom buf 2
  let s1 := (ReadString 0 readbuffer).1
  let modeindex := s1.length + 2
  let readbuffer ← sliceFrom buf modeindex
  let s2 := (ReadString 0 readbuffer).1
  pure { Opcode := opcode, Filename := s1, Mode := s2 }

/-- Go `file.Read(buf)`: copies at most `len(buf)` bytes into `buf` and returns how many. -/
def fileRead (r : ReadResult) (buf : Bytes) : Nat × Bytes :=
  let d := r.data.take buf.length
  (d.length, d ++ buf.drop d.length)

/-- The result of a `Read` at end of file: `0, io.EOF`. -/
def eofRead : ReadResult := { data := [], err := some .eof }

/-- Go `CheckError(err)` with `err != nil`: log the error, then `os.Exit(0)`. -/
def checkErrorEvents : List Event := [.logError, .exited]

/-- The acknowledgment loop of `ProcessRRQRequest` (the inner `for`): listen; on a
block number other than `blocknum` send `payload` again and listen again. -/
def ackLoop (payload : Bytes) (blocknum : Nat) : List Recv → Option Nat → Run
  | [], sf => { trace := [], out := .block, net := { inbox := [], sendFail := sf } }
  | r :: inbox, sf =>
    match ListenForTransferACK r blocknum with
    | .ret ack =>
      let n := ack.Blocknum
      if n ≠ blocknum then
        let wr := WriteToUDP sf
        if wr.1 then
          { trace := [.received r, .sendFailed] ++ checkErrorEvents, out := .exit,
            net := { inbox := inbox, sendFail := wr.2 } }
        else (ackLoop payload blocknum inbox wr.2).after [.received r, .resent blocknum payload]
      else { trace := [.received r], out := .ret (), net := { inbox := inbox, sendFail := sf } }
    | .exit =>
      { trace := .received r :: checkErrorEvents, out := .exit,
        net := { inbox := inbox, sendFail := sf } }
    | .panic => { trace := [.received r], out := .panic, net := { inbox := inbox, sendFail := sf } }
    | .block => { trace := [], out := .block, net := { inbox := r :: inbox, sendFail := sf } }

/-- One pass through the body of the block loop of `ProcessRRQRequest`, from the file
read to the end of the acknowledgment loop, with `blocknum` already incremented and
`r` what `file.Read` delivers. -/
def sendBlock (opcode : Bytes) (blocknum : Nat) (r : ReadResult) (net : Net) : Run :=
  let buf := make 512
  let rd := fileRead r buf
  let numbytes := rd.1
  let buf := rd.2
  let block := PutUint16 (uint16 blocknum)
  let pkt : DataPacket := { Opcode := opcode, Block := block, Data := buf }
  let payload := pkt.Opcode ++ pkt.Block
  match sliceTo pkt.Data numbytes with
  | none => { trace := [.read numbytes], out := .panic, net := net }
  | some data =>
    let payload := payload ++ data
    let wr := WriteToUDP net.sendFail
    if wr.1 then
      { trace := [.read numbytes, .sendFailed] ++ checkErrorEvents, out := .exit,
        net := { inbox := net.inbox, sendFail := wr.2 } }
    else (ackLoop payload blocknum net.inbox wr.2).after [.read numbytes, .sent blocknum payload]

/-- The block loop of `ProcessRRQRequest` (the outer `for`; its guard
`fileerr != io.EOF` is always true, `fileerr` being `nil` there), entered with block
counter `blocknum` and the open file `file`.  A `Read` on a used-up script returns
`0, io.EOF`, so that pass ends with `return`. -/
def blockLoop (opcode : Bytes) : File → Nat → Net → Run
  | [], blocknum, net => sendBlock opcode (blocknum + 1) eofRead net
  | r :: file, blocknum, net =>
    let blocknum := blocknum + 1
    let run := sendBlock opcode blocknum r net
    match run.out with
    | .ret _ =>
      if (fileRead r (make 512)).1 < 512 then run
      else (blockLoop opcode file blocknum run.net).after run.trace
    | _ => run

/-- Go `ProcessRRQRequest`; `fs` tells what `os.OpenFile` does with a name.  The
deferred `file.Close()` runs when the function returns. -/
def ProcessRRQRequest (fs : Bytes → Option File) (filename : Bytes) (net : Net) : Run :=
  if filename.length = 0 then { trace := [], out := .panic, net := net }
  else
    let name := filename.take (filename.length - 1)
    match fs name with
    | none => { trace := .opened name false :: checkErrorEvents, out := .exit, net := net }
    | some file =>
      let blocknum := 0
      let opcode := PutUint16 DATA
      let run := (blockLoop opcode file blocknum net).after [.opened name true, .logInfo]
      match run.out with
      | .ret _ => { run with trace := run.trace ++ [.closed] }
      | _ => run

/-- Go `Initialize`, the socket taken as bound.  The request is decoded before the
receive error is checked. -/
def Initialize (fs : Bytes → Option File) (net : Net) : Run :=
  match net.inbox with
  | [] => { trace := [], out := .block, net := net }
  | r :: inbox =>
    let net := { net with inbox := inbox }
    let buf := make 1024
    let rd := ReadFromUDP r buf
    let buf := rd.1
    let err := rd.2
    match decodeRRQWRQ buf with
    | none => { trace := [.request r], out := .panic, net := net }
    | some i1 =>
      if err then { trace := .request r :: checkErrorEvents, out := .exit, net := net }
      else if i1.Opcode = RRQ then (ProcessRRQRequest fs i1.Filename net).after [.request r]
      else if i1.Opcode = WRQ then { trace := [.request r], out := .ret (), net := net }
      else { trace := [.request r, .logError], out := .ret (), net := net }

/-- The first `n` passes of the endless loop of `main`: `for \x7b Initialize() \x7d`. -/
def mainLoop (fs : Bytes → Option File) : Nat → Net → Run
  | 0, net => { trace := [], out := .ret (), net := net }
  | n + 1, net =>
    let run := Initialize fs net
    match run.out with
    | .ret _ => (mainLoop fs n run.net).after run.trace
    | _ => run

/-! ## Notions used to state the properties -/

/-- The block number a datagram carries: bytes 2 and 3, big-endian; a missing byte
counts as zero. -/
def wireBlock (d : Bytes) : Nat := (d.getD 2 0).val * 256 + (d.getD 3 0).val

/-- The opcode a datagram carries: bytes 0 and 1, big-endian; a missing byte counts
as zero. -/
def wireOpcode (d : Bytes) : Nat := (d.getD 0 0).val * 256 + (d.getD 1 0).val

/-- The wire encoding of a request (RFC 1350): 2-byte big-endian opcode, filename,
NUL, mode, NUL. -/
def encodeRRQWRQ (opcode : Nat) (filename mode : Bytes) : Bytes :=
  PutUint16 (uint16 opcode) ++ filename ++ [0] ++ mode ++ [0]

/-- The bytes that the file read for one block puts into the Data packet. -/
def readData (r : ReadResult) : Bytes := r.data.take 512

/-- The datagram `ProcessRRQRequest` builds for block counter `blocknum` and bytes
`data`. -/
def dataPayload (opcode : Bytes) (blocknum : Nat) (data : Bytes) : Bytes :=
  opcode ++ PutUint16 (uint16 blocknum) ++ data

/-- The Data packets sent for the first time, each with the block counter it was
sent under. -/
def sentOf : List Event → List (Nat × Bytes)
  | [] => []
  | .sent k p :: t => (k, p) :: sentOf t
  | _ :: t => sentOf t

/-- The events of one round of "receive a datagram, send the packet again" per
datagram of `ds`. -/
def retransmissions (blocknum : Nat) (payload : Bytes) (ds : List Bytes) : List Event :=
  ds.flatMap fun d => [.received (.dgram d), .resent blocknum payload]

/-- A run whose inbox is followed by further datagrams it never looks at. -/
def Run.addInbox (r : Run) (ext : List Recv) : Run :=
  { r with net := { r.net with inbox := r.net.inbox ++ ext } }

/-- The datagrams put on the wire, in order, first transmissions and retransmissions
alike, each with the block counter it was sent under. -/
def sendsOf : List Event → List (Nat × Bytes)
  | [] => []
  | .sent k p :: t => (k, p) :: sendsOf t
  | .resent k p :: t => (k, p) :: sendsOf t
  | _ :: t => sendsOf t

/-- The first `n` reads of a file of content `c` when every `Read` delivers
`min(512, remaining)` bytes; a read at end of file delivers `0, io.EOF`. -/
def chunkReads : Nat → Bytes → File
  | 0, _ => []
  | n + 1, c =>
    { data := c.take 512, err := if c = [] then some .eof else none } ::
      chunkReads n (c.drop 512)

/-- The reads of a file of content `c` up to and including the first short one. -/
def fullReads (c : Bytes) : File := chunkReads (c.length / 512 + 1) c

/-- The client answers blocks `b`, `b + 1`, ... in turn: for each block some datagrams
carrying another block number, then one carrying the number of that block as it is on
the wire. -/
def Acknowledges : Nat → List (List Bytes × Bytes) → Prop
  | _, [] => True
  | b, (skips, ack) :: rest =>
    (∀ d ∈ skips, wireBlock d ≠ uint16 b) ∧ wireBlock ack = uint16 b ∧ Acknowledges (b + 1) rest

/-- The datagrams of such answers, in the order they arrive. -/
def ackInbox (segs : List (List Bytes × Bytes)) : List Recv :=
  segs.flatMap fun s => (s.1 ++ [s.2]).map .dgram

/-- The Data packets of `n` consecutive full reads of `c`, from block counter `b` on. -/
def dataPackets (opcode : Bytes) : Nat → Nat → Bytes → List (Nat × Bytes)
  | 0, _, _ => []
  | n + 1, b, c => (b, dataPayload opcode b (c.take 512)) :: dataPackets opcode n (b + 1) (c.drop 512)

/-- The payload of a Data packet: what follows the 4-byte header. -/
def dataOf (p : Bytes) : Bytes := p.drop 4

/-- The datagrams going out and coming in during a transfer, in order: `true` for a
datagram sent, `false` for a datagram received while waiting for an acknowledgment. -/
def ioOf : List Event → List Bool
  | [] => []
  | .sent _ _ :: t => true :: ioOf t
  | .resent _ _ :: t => true :: ioOf t
  | .received (.dgram _) :: t => false :: ioOf t
  | _ :: t => ioOf t

/-- Whose turn it is after `l` when the two sides take turns and `e` begins; `none`
when `l` does not alternate. -/
def turnAfter : Bool → List Bool → Option Bool
  | e, [] => some e
  | e, x :: xs => if x = e then turnAfter (!e) xs else none

/-! ## Concrete inputs -/

/-- A file system in which no file can be opened. -/
def noFiles : Bytes → Option File := fun _ => none

/-- The datagram of the request `RRQ "a" "o"`. -/
def rrqA : Bytes := [0, 1, 97, 0, 111, 0]

/-- A file system in which every name opens a file of content `c`, read in full
reads. -/
def oneFile (c : Bytes) : Bytes → Option File := fun _ => some (fullReads c)

/-- The datagram of the request `WRQ "a" "o"`. -/
def wrqA : Bytes := [0, 2, 97, 0, 111, 0]

/-- A `Read` that fails with an error other than `io.EOF` and delivers no bytes. -/
def failedRead : ReadResult := { data := [], err := some .other }

/-- The well-formed acknowledgment (opcode 4) that carries the block number of `d`. -/
def ackOnly (d : Bytes) : Bytes := PutUint16 ACK ++ PutUint16 (wireBlock d)

/-- A receive, the datagram replaced by the well-formed acknowledgment of its block
number. -/
def ackOnlyRecv : Recv → Recv
  | .dgram d => .dgram (ackOnly d)
  | .error => .error

/-- An event, the datagram of an acknowledgment receive replaced by the well-formed
acknowledgment of its block number. -/
def ackOnlyEvent : Event → Event
  | .received r => .received (ackOnlyRecv r)
  | e => e

/-- A run, every datagram received or still to come replaced by the well-formed
acknowledgment of its block number. -/
def Run.ackOnly (r : Run) : Run :=
  { trace := r.trace.map ackOnlyEvent, out := r.out,
    net := { inbox := r.net.inbox.map ackOnlyRecv, sendFail := r.net.sendFail } }

/-- The events of the passes of the block loop for the reads `rs`, from block counter `b`
on, when the client answers as `segs` says: per block the read, the send, one
retransmission per stray datagram, the acknowledgment. -/
def ackedBlocks (op : Bytes) : Nat → List ReadResult → List (List Bytes × Bytes) → List Event
  | b, r :: rs, s :: segs =>
    .read (readData r).length :: .sent b (dataPayload op b (readData r)) ::
      (retransmissions b (dataPayload op b (readData r)) s.1 ++
        .received (.dgram s.2) :: ackedBlocks op (b + 1) rs segs)
  | _, _, _ => []

/-- The Data packets of the reads `rs`, from block counter `b` on. -/
def readPackets (op : Bytes) : Nat → List ReadResult → List (Nat × Bytes)
  | _, [] => []
  | b, r :: rs => (b, dataPayload op b (readData r)) :: readPackets op (b + 1) rs

/-- The byte counts of the file reads, in order. -/
def readsOf : List Event → List Nat
  | [] => []
  | .read n :: t => n :: readsOf t
  | _ :: t => readsOf t

/-- The acknowledgment of block `k` as a client encodes it: opcode 4, then the block
number on 16 bits. -/
def ackPacket (k : Nat) : Bytes := PutUint16 ACK ++ PutUint16 (uint16 k)

/-- A client that acknowledges the `n` blocks from `b` on, each once. -/
def ackAll (b n : Nat) : List (List Bytes × Bytes) :=
  (List.range' b n).map fun k => ([], ackPacket k)

/-! ## Basic facts -/

theorem make_length (n : Nat) : (make n).length = n := by simp [make]

theorem slice_uint16_head (buf : Bytes) (h : 4 ≤ buf.length) :
    (slice buf 0 2).bind Uint16 = some ((buf.getD 0 0).val * 256 + (buf.getD 1 0).val) ∧
    (slice buf 2 4).bind Uint16 = some ((buf.getD 2 0).val * 256 + (buf.getD 3 0).val) := by
  match buf, h with
  | a :: b :: c :: e :: rest, _ =>
    constructor
    · simp [slice, Uint16]
    · simp [slice, Uint16]

theorem recvBuf_length (d : Bytes) (n : Nat) :
    (ReadFromUDP (.dgram d) (make n)).1.length = n := by
  simp [ReadFromUDP, make]
  omega

theorem recvBuf_getD (d : Bytes) (n i : Nat) :
    (ReadFromUDP (.dgram d) (make n)).1.getD i 0 = if i < n then d.getD i 0 else 0 := by
  simp only [ReadFromUDP, make, List.length_replicate, List.getD_eq_getElem?_getD]
  rw [List.getElem?_append]
  simp only [List.length_take, List.drop_replicate]
  by_cases h1 : i < n
  · by_cases h2 : i < d.length
    · simp [h1, h2, List.getElem?_take]
    · have : ¬ i < min n d.length := by omega
      simp only [this, if_false, h1, if_true]
      rw [List.getElem?_replicate]
      have h3 : d[i]? = none := by simp; omega
      simp only [h3, Option.getD_none]
      split <;> simp
  · have : ¬ i < min n d.length := by omega
    simp only [this, if_false, h1]
    rw [List.getElem?_replicate]
    split <;> simp

theorem listen_dgram (d : Bytes) (b : Nat) :
    ListenForTransferACK (.dgram d) b =
      .ret { Opcode := wireOpcode d, Blocknum := wireBlock d } := by
  have hl := recvBuf_length d 512
  have h := slice_uint16_head (ReadFromUDP (.dgram d) (make 512)).1 (by omega)
  have e0 := recvBuf_getD d 512 0
  have e1 := recvBuf_getD d 512 1
  have e2 := recvBuf_getD d 512 2
  have e3 := recvBuf_getD d 512 3
  simp only [show (0:Nat) < 512 by decide, show (1:Nat) < 512 by decide,
    show (2:Nat) < 512 by decide, show (3:Nat) < 512 by decide, if_true] at e0 e1 e2 e3
  rw [e0, e1, e2, e3] at h
  unfold ListenForTransferACK
  have herr : (ReadFromUDP (.dgram d) (make 512)).2 = false := rfl
  simp only [herr, h.1, h.2]
  simp [wireOpcode, wireBlock]

theorem listen_error (b : Nat) : ListenForTransferACK .error b = .exit := by
  simp [ListenForTransferACK, ReadFromUDP]

theorem readString_terminated (s rest : Bytes) (h : (0 : Byte) ∉ s) :
    ReadString 0 (s ++ 0 :: rest) = (s ++ [0], false) := by
  induction s with
  | nil => simp [ReadString]
  | cons a s ih =>
    have ha : a ≠ 0 := fun e => h (by simp [e])
    have hs : (0 : Byte) ∉ s := fun e => h (by simp [e])
    simp [ReadString, ha, ih hs]

theorem readString_length_le (delim : Byte) (s : Bytes) :
    (ReadString delim s).1.length ≤ s.length := by
  induction s with
  | nil => simp [ReadString]
  | cons a s ih =>
    simp only [ReadString]
    split
    · simp
    · simp; exact ih

theorem uint16_putUint16 (v : Nat) (h : v < 65536) (rest : Bytes) :
    Uint16 (PutUint16 v ++ rest) = some v := by
  simp only [PutUint16, Uint16, byte, List.cons_append, List.nil_append, Option.some.injEq]
  omega

/-- What `decodeRRQWRQ` returns on a buffer of at least two bytes. -/
theorem decode_eq (b0 b1 : Byte) (body : Bytes) :
    decodeRRQWRQ (b0 :: b1 :: body) = some
      { Opcode := b0.val * 256 + b1.val,
        Filename := (ReadString 0 body).1,
        Mode := (ReadString 0 (body.drop (ReadString 0 body).1.length)).1 } := by
  have hl := readString_length_le 0 body
  simp [decodeRRQWRQ, slice, sliceFrom, Uint16, hl]

theorem decode_encode (opcode : Nat) (filename mode rest : Bytes) (hop : opcode < 65536)
    (hf : (0 : Byte) ∉ filename) (hm : (0 : Byte) ∉ mode) :
    decodeRRQWRQ (encodeRRQWRQ opcode filename mode ++ rest) = some
      { Opcode := opcode, Filename := filename ++ [0], Mode := mode ++ [0] } := by
  have hu : uint16 opcode = opcode := Nat.mod_eq_of_lt hop
  have e : encodeRRQWRQ opcode filename mode ++ rest =
      byte (opcode / 256) :: byte opcode :: (filename ++ 0 :: (mode ++ 0 :: rest)) := by
    simp [encodeRRQWRQ, PutUint16, hu]
  rw [e, decode_eq, readString_terminated filename _ hf]
  have : List.drop (filename ++ [0]).length (filename ++ 0 :: (mode ++ 0 :: rest))
      = mode ++ 0 :: rest := by
    have : filename ++ 0 :: (mode ++ 0 :: rest) = (filename ++ [0]) ++ (mode ++ 0 :: rest) := by simp
    rw [this, List.drop_left]
  simp only [this, readString_terminated mode _ hm]
  simp [byte]
  omega

@[simp] theorem after_trace (es : List Event) (r : Run) : (r.after es).trace = es ++ r.trace := rfl
@[simp] theorem after_out (es : List Event) (r : Run) : (r.after es).out = r.out := rfl
@[simp] theorem after_net (es : List Event) (r : Run) : (r.after es).net = r.net := rfl
theorem after_after (es fs : List Event) (r : Run) :
    (r.after es).after fs = r.after (fs ++ es) := by
  simp [Run.after]
theorem after_nil (r : Run) : r.after [] = r := by simp [Run.after]

theorem ackLoop_dgram (p : Bytes) (b : Nat) (d : Bytes) (inbox : List Recv) :
    ackLoop p b (.dgram d :: inbox) none =
      if wireBlock d ≠ b then
        (ackLoop p b inbox none).after [.received (.dgram d), .resent b p]
      else { trace := [.received (.dgram d)], out := .ret (),
             net := { inbox := inbox, sendFail := none } } := by
  rw [ackLoop, listen_dgram]
  simp [WriteToUDP]

theorem ackLoop_error (p : Bytes) (b : Nat) (inbox : List Recv) (sf : Option Nat) :
    ackLoop p b (.error :: inbox) sf =
      { trace := .received .error :: checkErrorEvents, out := .exit,
        net := { inbox := inbox, sendFail := sf } } := by
  rw [ackLoop, listen_error]

theorem fileRead_eq (r : ReadResult) :
    fileRead r (make 512) =
      ((readData r).length, readData r ++ (make 512).drop (readData r).length) := by
  simp only [fileRead, readData, make_length]

theorem sliceTo_append_left (d rest : Bytes) : sliceTo (d ++ rest) d.length = some d := by
  simp [sliceTo]

theorem readData_length_le (r : ReadResult) : (readData r).length ≤ 512 := by
  simp [readData]

theorem sendBlock_eq (op : Bytes) (b : Nat) (r : ReadResult) (inbox : List Recv) :
    sendBlock op b r { inbox := inbox, sendFail := none } =
      (ackLoop (dataPayload op b (readData r)) b inbox none).after
        [.read (readData r).length, .sent b (dataPayload op b (readData r))] := by
  unfold sendBlock
  simp only [fileRead_eq]
  simp only [sliceTo_append_left, WriteToUDP]
  simp [dataPayload]

theorem sentOf_append (s t : List Event) : sentOf (s ++ t) = sentOf s ++ sentOf t := by
  induction s with
  | nil => rfl
  | cons e s ih => cases e <;> simp [sentOf, ih]

theorem sentOf_retransmissions (b : Nat) (p : Bytes) (ds : List Bytes) :
    sentOf (retransmissions b p ds) = [] := by
  induction ds with
  | nil => rfl
  | cons d ds ih =>
    have : retransmissions b p (d :: ds) =
        .received (.dgram d) :: .resent b p :: retransmissions b p ds := by
      simp [retransmissions]
    rw [this]
    simpa [sentOf] using ih

/-- General unfolding of the acknowledgment loop on a datagram. -/
theorem ackLoop_dgram_gen (p : Bytes) (b : Nat) (d : Bytes) (inbox : List Recv)
    (sf : Option Nat) :
    ackLoop p b (.dgram d :: inbox) sf =
      if wireBlock d ≠ b then
        if (WriteToUDP sf).1 then
          { trace := [.received (.dgram d), .sendFailed] ++ checkErrorEvents, out := .exit,
            net := { inbox := inbox, sendFail := (WriteToUDP sf).2 } }
        else (ackLoop p b inbox (WriteToUDP sf).2).after [.received (.dgram d), .resent b p]
      else { trace := [.received (.dgram d)], out := .ret (),
             net := { inbox := inbox, sendFail := sf } } := by
  rw [ackLoop, listen_dgram]

theorem sendBlock_eq_gen (op : Bytes) (b : Nat) (r : ReadResult) (net : Net) :
    sendBlock op b r net =
      if (WriteToUDP net.sendFail).1 then
        { trace := [.read (readData r).length, .sendFailed] ++ checkErrorEvents, out := .exit,
          net := { inbox := net.inbox, sendFail := (WriteToUDP net.sendFail).2 } }
      else (ackLoop (dataPayload op b (readData r)) b net.inbox (WriteToUDP net.sendFail).2).after
        [.read (readData r).length, .sent b (dataPayload op b (readData r))] := by
  unfold sendBlock
  simp only [fileRead_eq]
  simp only [sliceTo_append_left]
  simp [dataPayload]

theorem ackLoop_skip (p : Bytes) (b : Nat) (ds : List Bytes) (rest : List Recv)
    (h : ∀ d ∈ ds, wireBlock d ≠ b) :
    ackLoop p b (ds.map .dgram ++ rest) none =
      (ackLoop p b rest none).after (retransmissions b p ds) := by
  induction ds with
  | nil => simp [retransmissions, after_nil]
  | cons d ds ih =>
    have hd : wireBlock d ≠ b := h d (by simp)
    have hds : ∀ x ∈ ds, wireBlock x ≠ b := fun x hx => h x (by simp [hx])
    simp only [List.map_cons, List.cons_append]
    rw [ackLoop_dgram, if_pos hd, ih hds, after_after]
    simp [retransmissions]

theorem ackLoop_sentOf (p : Bytes) (b : Nat) (inbox : List Recv) (sf : Option Nat) :
    sentOf (ackLoop p b inbox sf).trace = [] := by
  induction inbox generalizing sf with
  | nil => simp [ackLoop, sentOf]
  | cons r inbox ih =>
    cases r with
    | error => simp [ackLoop_error, checkErrorEvents, sentOf]
    | dgram d =>
      rw [ackLoop_dgram_gen]
      split
      · split
        · simp [checkErrorEvents, sentOf]
        · simp [sentOf, ih]
      · simp [sentOf]

/-- While the acknowledgment loop is blocked, it has used up its inbox. -/
theorem ackLoop_block_net (p : Bytes) (b : Nat) (inbox : List Recv)
    (h : (ackLoop p b inbox none).out = .block) :
    (ackLoop p b inbox none).net = { inbox := [], sendFail := none } := by
  induction inbox with
  | nil => simp [ackLoop]
  | cons r inbox ih =>
    cases r with
    | error => simp [ackLoop_error] at h
    | dgram d =>
      rw [ackLoop_dgram] at h ⊢
      split at h
      · rename_i hd
        rw [if_pos hd]
        simpa using ih (by simpa using h)
      · simp at h

theorem ackLoop_block_skip (p : Bytes) (b : Nat) (pre : List Recv) (ds : List Bytes)
    (h : (ackLoop p b pre none).out = .block) (hds : ∀ d ∈ ds, wireBlock d ≠ b) :
    ackLoop p b (pre ++ ds.map .dgram) none =
      { trace := (ackLoop p b pre none).trace ++ retransmissions b p ds, out := .block,
        net := { inbox := [], sendFail := none } } := by
  induction pre with
  | nil =>
    have := ackLoop_skip p b ds [] hds
    simp only [List.append_nil] at this
    simp [this, ackLoop, Run.after]
  | cons r pre ih =>
    cases r with
    | error => simp [ackLoop_error] at h
    | dgram d =>
      simp only [List.cons_append]
      rw [ackLoop_dgram] at h ⊢
      rw [ackLoop_dgram]
      split at h
      · rename_i hd
        rw [if_pos hd, if_pos hd, ih (by simpa using h)]
        simp [Run.after]
      · simp at h

theorem ackLoop_ret_append (p : Bytes) (b : Nat) (pre ext : List Recv)
    (h : (ackLoop p b pre none).out = .ret ()) :
    ackLoop p b (pre ++ ext) none = (ackLoop p b pre none).addInbox ext := by
  induction pre with
  | nil => simp [ackLoop] at h
  | cons r pre ih =>
    cases r with
    | error => simp [ackLoop_error] at h
    | dgram d =>
      simp only [List.cons_append]
      rw [ackLoop_dgram] at h ⊢
      rw [ackLoop_dgram]
      split at h
      · rename_i hd
        rw [if_pos hd, if_pos hd, ih (by simpa using h)]
        simp [Run.after, Run.addInbox]
      · rename_i hd
        rw [if_neg hd, if_neg hd]
        simp [Run.addInbox]

theorem blockLoop_nil (op : Bytes) (b : Nat) (net : Net) :
    blockLoop op [] b net = sendBlock op (b + 1) eofRead net := rfl

theorem fileRead_fst (r : ReadResult) : (fileRead r (make 512)).1 = (readData r).length := by
  rw [fileRead_eq]

set_option maxRecDepth 8192 in
theorem blockLoop_cons_ret (op : Bytes) (r : ReadResult) (f : File) (b : Nat) (net : Net)
    (h : (sendBlock op (b + 1) r net).out = .ret ()) :
    blockLoop op (r :: f) b net =
      if (readData r).length < 512 then sendBlock op (b + 1) r net
      else (blockLoop op f (b + 1) (sendBlock op (b + 1) r net).net).after
        (sendBlock op (b + 1) r net).trace := by
  simp only [blockLoop, fileRead_fst, h]

set_option maxRecDepth 8192 in
theorem blockLoop_cons_stop (op : Bytes) (r : ReadResult) (f : File) (b : Nat) (net : Net)
    (h : (sendBlock op (b + 1) r net).out ≠ .ret ()) :
    blockLoop op (r :: f) b net = sendBlock op (b + 1) r net := by
  simp only [blockLoop]
  split
  · rename_i u hu
    cases u
    exact absurd hu h
  · rfl

theorem ackLoop_sendFail_none (p : Bytes) (b : Nat) (inbox : List Recv) :
    (ackLoop p b inbox none).net.sendFail = none := by
  induction inbox with
  | nil => simp [ackLoop]
  | cons r inbox ih =>
    cases r with
    | error => simp [ackLoop_error]
    | dgram d =>
      rw [ackLoop_dgram]
      split
      · simpa using ih
      · simp

theorem sendBlock_sendFail_none (op : Bytes) (b : Nat) (r : ReadResult) (inbox : List Recv) :
    (sendBlock op b r { inbox := inbox, sendFail := none }).net.sendFail = none := by
  rw [sendBlock_eq]
  simpa using ackLoop_sendFail_none _ _ _

theorem sendBlock_sentOf (op : Bytes) (b : Nat) (r : ReadResult) (inbox : List Recv) :
    sentOf (sendBlock op b r { inbox := inbox, sendFail := none }).trace =
      [(b, dataPayload op b (readData r))] := by
  rw [sendBlock_eq]
  simp [sentOf, ackLoop_sentOf]

theorem sendBlock_block_skip (op : Bytes) (b : Nat) (r : ReadResult) (pre : List Recv)
    (ds : List Bytes)
    (h : (sendBlock op b r { inbox := pre, sendFail := none }).out = .block)
    (hds : ∀ d ∈ ds, wireBlock d ≠ b) :
    sendBlock op b r { inbox := pre ++ ds.map .dgram, sendFail := none } =
      { trace := (sendBlock op b r { inbox := pre, sendFail := none }).trace ++
          retransmissions b (dataPayload op b (readData r)) ds,
        out := .block, net := { inbox := [], sendFail := none } } := by
  rw [sendBlock_eq] at h ⊢
  rw [sendBlock_eq, ackLoop_block_skip _ _ _ _ (by simpa using h) hds]
  simp [Run.after]

theorem sendBlock_ret_append (op : Bytes) (b : Nat) (r : ReadResult) (pre ext : List Recv)
    (h : (sendBlock op b r { inbox := pre, sendFail := none }).out = .ret ()) :
    sendBlock op b r { inbox := pre ++ ext, sendFail := none } =
      (sendBlock op b r { inbox := pre, sendFail := none }).addInbox ext := by
  rw [sendBlock_eq] at h ⊢
  rw [sendBlock_eq, ackLoop_ret_append _ _ _ _ (by simpa using h)]
  simp [Run.after, Run.addInbox]

theorem blockLoop_block_skip (op : Bytes) (f : File) (b : Nat) (pre : List Recv)
    (h : (blockLoop op f b { inbox := pre, sendFail := none }).out = .block) :
    ∃ k p, (sentOf (blockLoop op f b { inbox := pre, sendFail := none }).trace).getLast?
        = some (k, p) ∧
      ∀ ds : List Bytes, (∀ d ∈ ds, wireBlock d ≠ k) →
        blockLoop op f b { inbox := pre ++ ds.map .dgram, sendFail := none } =
          { trace := (blockLoop op f b { inbox := pre, sendFail := none }).trace ++
              retransmissions k p ds,
            out := .block, net := { inbox := [], sendFail := none } } := by
  induction f generalizing b pre with
  | nil =>
    rw [blockLoop_nil] at h ⊢
    refine ⟨b + 1, dataPayload op (b + 1) (readData eofRead), by simp [sendBlock_sentOf], ?_⟩
    intro ds hds
    rw [blockLoop_nil, sendBlock_block_skip op (b + 1) eofRead pre ds h hds]
  | cons r f ih =>
    by_cases hout : (sendBlock op (b + 1) r { inbox := pre, sendFail := none }).out = .ret ()
    · rw [blockLoop_cons_ret _ _ _ _ _ hout] at h ⊢
      by_cases hlt : (readData r).length < 512
      · rw [if_pos hlt, hout] at h
        cases h
      · rw [if_neg hlt] at h ⊢
        have hnet : (sendBlock op (b + 1) r { inbox := pre, sendFail := none }).net =
            { inbox := (sendBlock op (b + 1) r { inbox := pre, sendFail := none }).net.inbox,
              sendFail := none } := by
          have := sendBlock_sendFail_none op (b + 1) r pre
          cases hn : (sendBlock op (b + 1) r { inbox := pre, sendFail := none }).net
          rw [hn] at this
          simp at this
          simp [this]
        rw [hnet] at h ⊢
        obtain ⟨k, p, hlast, hext⟩ := ih (b + 1) _ (by simpa using h)
        refine ⟨k, p, ?_, ?_⟩
        · simp only [after_trace, sentOf_append, sendBlock_sentOf]
          rw [List.getLast?_append, hlast]
          rfl
        · intro ds hds
          have ho : (sendBlock op (b + 1) r
              { inbox := pre ++ ds.map .dgram, sendFail := none }).out = .ret () := by
            rw [sendBlock_ret_append op (b + 1) r pre _ hout]
            simpa [Run.addInbox] using hout
          rw [blockLoop_cons_ret _ _ _ _ _ ho, if_neg hlt,
            sendBlock_ret_append op (b + 1) r pre _ hout]
          have hn2 : ((sendBlock op (b + 1) r { inbox := pre, sendFail := none }).addInbox
              (ds.map .dgram)).net =
              { inbox := (sendBlock op (b + 1) r { inbox := pre, sendFail := none }).net.inbox
                  ++ ds.map .dgram, sendFail := none } := by
            rw [Run.addInbox]
            simp only
            rw [hnet]
          rw [hn2, hext ds hds]
          simp [Run.after, Run.addInbox]
    · rw [blockLoop_cons_stop _ _ _ _ _ hout] at h ⊢
      refine ⟨b + 1, dataPayload op (b + 1) (readData r), by simp [sendBlock_sentOf], ?_⟩
      intro ds hds
      have hb := sendBlock_block_skip op (b + 1) r pre ds h hds
      have ho : (sendBlock op (b + 1) r
          { inbox := pre ++ ds.map .dgram, sendFail := none }).out ≠ .ret () := by
        rw [hb]; simp
      rw [blockLoop_cons_stop _ _ _ _ _ ho, hb]

theorem putUint16_DATA : PutUint16 DATA = [0, 3] := by decide

/-- What `ProcessRRQRequest` does once the file is open. -/
theorem processRRQ_open (fs : Bytes → Option File) (filename : Bytes) (net : Net) (file : File)
    (hne : filename ≠ [])
    (hopen : fs (filename.take (filename.length - 1)) = some file) :
    ProcessRRQRequest fs filename net =
      if (blockLoop [0, 3] file 0 net).out = .ret () then
        { trace := [.opened (filename.take (filename.length - 1)) true, .logInfo] ++
            (blockLoop [0, 3] file 0 net).trace ++ [.closed],
          out := .ret (), net := (blockLoop [0, 3] file 0 net).net }
      else (blockLoop [0, 3] file 0 net).after
        [.opened (filename.take (filename.length - 1)) true, .logInfo] := by
  have hl : filename.length ≠ 0 := by
    intro h; exact hne (List.length_eq_zero.mp h)
  unfold ProcessRRQRequest
  rw [if_neg hl]
  simp only [hopen, putUint16_DATA]
  cases ho : (blockLoop [0, 3] file 0 net).out with
  | ret u => cases u; simp [Run.after, ho]
  | exit => simp [Run.after, ho]
  | panic => simp [Run.after, ho]
  | block => simp [Run.after, ho]

/-- A blocked `ProcessRRQRequest` has opened its file and is blocked in the block loop. -/
theorem processRRQ_block (fs : Bytes → Option File) (filename : Bytes) (net : Net)
    (h : (ProcessRRQRequest fs filename net).out = .block) :
    filename ≠ [] ∧ ∃ file, fs (filename.take (filename.length - 1)) = some file ∧
      (blockLoop [0, 3] file 0 net).out = .block := by
  by_cases hne : filename = []
  · subst hne
    simp [ProcessRRQRequest] at h
  · refine ⟨hne, ?_⟩
    cases hopen : fs (filename.take (filename.length - 1)) with
    | none =>
      have hl : filename.length ≠ 0 := fun h => hne (List.length_eq_zero.mp h)
      simp [ProcessRRQRequest, hl, hopen] at h
    | some file =>
      refine ⟨file, rfl, ?_⟩
      rw [processRRQ_open fs filename net file hne hopen] at h
      split at h
      · simp at h
      · simpa using h

theorem sendsOf_append (s t : List Event) : sendsOf (s ++ t) = sendsOf s ++ sendsOf t := by
  induction s with
  | nil => rfl
  | cons e s ih => cases e <;> simp [sendsOf, ih]

@[simp] theorem sendsOf_nil : sendsOf [] = [] := rfl
@[simp] theorem sendsOf_sent (k : Nat) (p : Bytes) (t : List Event) :
    sendsOf (.sent k p :: t) = (k, p) :: sendsOf t := rfl
@[simp] theorem sendsOf_resent (k : Nat) (p : Bytes) (t : List Event) :
    sendsOf (.resent k p :: t) = (k, p) :: sendsOf t := rfl
@[simp] theorem sendsOf_received (r : Recv) (t : List Event) :
    sendsOf (.received r :: t) = sendsOf t := rfl
@[simp] theorem sendsOf_read (n : Nat) (t : List Event) :
    sendsOf (.read n :: t) = sendsOf t := rfl
@[simp] theorem sendsOf_sendFailed (t : List Event) :
    sendsOf (.sendFailed :: t) = sendsOf t := rfl
@[simp] theorem sendsOf_logError (t : List Event) :
    sendsOf (.logError :: t) = sendsOf t := rfl
@[simp] theorem sendsOf_exited (t : List Event) :
    sendsOf (.exited :: t) = sendsOf t := rfl

theorem sendsOf_retransmissions (b : Nat) (p : Bytes) (ds : List Bytes) :
    ∀ x ∈ sendsOf (retransmissions b p ds), x = (b, p) := by
  induction ds with
  | nil => simp [retransmissions, sendsOf]
  | cons d ds ih =>
    have : retransmissions b p (d :: ds) =
        .received (.dgram d) :: .resent b p :: retransmissions b p ds := by
      simp [retransmissions]
    rw [this]
    intro x hx
    simp only [sendsOf, List.mem_cons] at hx
    rcases hx with h | h
    · exact h
    · exact ih x h

/-- One block whose acknowledgment arrives after some datagrams with other numbers. -/
theorem sendBlock_acked (op : Bytes) (b : Nat) (r : ReadResult) (skips : List Bytes)
    (ack : Bytes) (rest : List Recv)
    (hs : ∀ d ∈ skips, wireBlock d ≠ b) (ha : wireBlock ack = b) :
    sendBlock op b r { inbox := (skips ++ [ack]).map .dgram ++ rest, sendFail := none } =
      { trace := [.read (readData r).length, .sent b (dataPayload op b (readData r))] ++
          retransmissions b (dataPayload op b (readData r)) skips ++ [.received (.dgram ack)],
        out := .ret (), net := { inbox := rest, sendFail := none } } := by
  rw [sendBlock_eq]
  have : (skips ++ [ack]).map Recv.dgram ++ rest =
      skips.map Recv.dgram ++ (Recv.dgram ack :: rest) := by simp
  rw [this, ackLoop_skip _ _ _ _ hs, ackLoop_dgram]
  simp [ha, Run.after]

theorem blockLoop_full (op : Bytes) (n : Nat) :
    ∀ (c : Bytes) (b : Nat) (segs : List (List Bytes × Bytes)) (rest : List Recv),
      c.length / 512 = n → segs.length = n + 1 → Acknowledges (b + 1) segs →
      b + n + 1 ≤ 65535 →
      (blockLoop op (chunkReads (n + 1) c) b
          { inbox := ackInbox segs ++ rest, sendFail := none }).out = .ret () ∧
      (blockLoop op (chunkReads (n + 1) c) b
          { inbox := ackInbox segs ++ rest, sendFail := none }).net
          = { inbox := rest, sendFail := none } ∧
      sentOf (blockLoop op (chunkReads (n + 1) c) b
          { inbox := ackInbox segs ++ rest, sendFail := none }).trace
          = dataPackets op (n + 1) (b + 1) c ∧
      ∀ x ∈ sendsOf (blockLoop op (chunkReads (n + 1) c) b
          { inbox := ackInbox segs ++ rest, sendFail := none }).trace,
        x ∈ dataPackets op (n + 1) (b + 1) c := by
  induction n with
  | zero =>
    intro c b segs rest hc hlen hack hb
    match segs, hlen with
    | [(skips, ack)], _ =>
      obtain ⟨hs, ha, -⟩ := hack
      have hu : uint16 (b + 1) = b + 1 := Nat.mod_eq_of_lt (by omega)
      rw [hu] at hs ha
      have hclt : c.length < 512 := by omega
      have hsb := sendBlock_acked op (b + 1)
        { data := c.take 512, err := if c = [] then some .eof else none } skips ack rest hs ha
      have hin : ackInbox [(skips, ack)] ++ rest = (skips ++ [ack]).map .dgram ++ rest := by
        simp [ackInbox]
      have hrd : (readData { data := c.take 512, err := if c = [] then some .eof else none }) =
          c.take 512 := by simp [readData, List.take_take]
      rw [hin]
      simp only [chunkReads]
      have hret : (sendBlock op (b + 1)
          { data := c.take 512, err := if c = [] then some .eof else none }
          { inbox := (skips ++ [ack]).map .dgram ++ rest, sendFail := none }).out = .ret () := by
        rw [hsb]
      rw [blockLoop_cons_ret _ _ _ _ _ hret, hrd]
      have hl : (c.take 512).length < 512 := by simp; omega
      rw [if_pos hl, hsb, hrd]
      refine ⟨rfl, rfl, ?_, ?_⟩
      · simp [sentOf_append, sentOf, sentOf_retransmissions, dataPackets]
      · intro x hx
        simp only [sendsOf_append, List.cons_append, List.nil_append, sendsOf_read,
          sendsOf_sent, sendsOf_received, sendsOf_nil, List.append_nil, List.mem_cons] at hx
        simp only [dataPackets, List.mem_singleton]
        rcases hx with h | h
        · exact h
        · exact sendsOf_retransmissions _ _ _ x h
  | succ n ih =>
    intro c b segs rest hc hlen hack hb
    match segs, hlen with
    | (skips, ack) :: segs, hlen =>
      obtain ⟨hs, ha, hrest⟩ := hack
      have hu : uint16 (b + 1) = b + 1 := Nat.mod_eq_of_lt (by omega)
      rw [hu] at hs ha
      have hcge : 512 ≤ c.length := by
        by_contra hlt
        have : c.length / 512 = 0 := Nat.div_eq_of_lt (by omega)
        omega
      have hin : ackInbox ((skips, ack) :: segs) ++ rest =
          (skips ++ [ack]).map .dgram ++ (ackInbox segs ++ rest) := by
        simp [ackInbox]
      have hsb := sendBlock_acked op (b + 1)
        { data := c.take 512, err := if c = [] then some .eof else none } skips ack
        (ackInbox segs ++ rest) hs ha
      have hrd : (readData { data := c.take 512, err := if c = [] then some .eof else none }) =
          c.take 512 := by simp [readData, List.take_take]
      rw [hin]
      simp only [chunkReads]
      have hret : (sendBlock op (b + 1)
          { data := c.take 512, err := if c = [] then some .eof else none }
          { inbox := (skips ++ [ack]).map .dgram ++ (ackInbox segs ++ rest),
            sendFail := none }).out = .ret () := by
        rw [hsb]
      rw [blockLoop_cons_ret _ _ _ _ _ hret, hrd]
      have hl : ¬ (c.take 512).length < 512 := by simp; omega
      rw [if_neg hl, hsb, hrd]
      have hc' : (c.drop 512).length / 512 = n := by
        simp only [List.length_drop]
        omega
      obtain ⟨h1, h2, h3, h4⟩ := ih (c.drop 512) (b + 1) segs rest hc'
        (by simpa using hlen) hrest (by omega)
      have e := chunkReads (n + 1) (c.drop 512)
      simp only [chunkReads] at h1 h2 h3 h4
      refine ⟨by simpa using h1, by simpa using h2, ?_, ?_⟩
      · simp only [after_trace, sentOf_append, h3]
        simp [sentOf, sentOf_retransmissions, dataPackets]
      · intro x hx
        simp only [after_trace, sendsOf_append, List.cons_append, List.nil_append, sendsOf_read,
          sendsOf_sent, sendsOf_received, sendsOf_nil, List.append_nil, List.mem_cons,
          List.mem_append] at hx
        rw [show dataPackets op (n + 1 + 1) (b + 1) c =
          (b + 1, dataPayload op (b + 1) (c.take 512)) ::
            dataPackets op (n + 1) (b + 1 + 1) (c.drop 512) from rfl]
        rcases hx with h | h | h
        · exact h ▸ List.mem_cons_self _ _
        · exact (sendsOf_retransmissions _ _ _ x h) ▸ List.mem_cons_self _ _
        · exact List.mem_cons_of_mem _ (h4 x h)

theorem dataOf_dataPayload (k : Nat) (data : Bytes) :
    dataOf (dataPayload [0, 3] k data) = data := by
  simp [dataOf, dataPayload, PutUint16]

theorem wireBlock_dataPayload (k : Nat) (data : Bytes) :
    wireBlock (dataPayload [0, 3] k data) = uint16 k := by
  simp only [wireBlock, dataPayload, PutUint16, byte, uint16]
  simp
  omega

theorem dataPayload_length (k : Nat) (data : Bytes) :
    (dataPayload [0, 3] k data).length = 4 + data.length := by
  simp [dataPayload, PutUint16]
  omega

theorem dataPackets_length (op : Bytes) (n b : Nat) (c : Bytes) :
    (dataPackets op n b c).length = n := by
  induction n generalizing b c with
  | zero => rfl
  | succ n ih => simp [dataPackets, ih]

theorem dataPackets_fst (op : Bytes) (n b : Nat) (c : Bytes) :
    (dataPackets op n b c).map Prod.fst = List.range' b n := by
  induction n generalizing b c with
  | zero => rfl
  | succ n ih => simp [dataPackets, ih, List.range'_succ]

theorem dataPackets_data (n b : Nat) (c : Bytes) :
    ((dataPackets [0, 3] n b c).map fun x => dataOf x.2).flatten = c.take (512 * n) := by
  induction n generalizing b c with
  | zero => simp [dataPackets]
  | succ n ih =>
    simp only [dataPackets, List.map_cons, List.flatten_cons, dataOf_dataPayload, ih]
    rw [show 512 * (n + 1) = 512 + 512 * n by ring, List.take_add]

theorem dataPackets_dropLast (n b : Nat) (c : Bytes) (h : 512 * n ≤ c.length) :
    ∀ x ∈ (dataPackets [0, 3] (n + 1) b c).dropLast, (dataOf x.2).length = 512 := by
  induction n generalizing b c with
  | zero => simp [dataPackets]
  | succ n ih =>
    intro x hx
    rw [show dataPackets [0, 3] (n + 1 + 1) b c =
      (b, dataPayload [0, 3] b (c.take 512)) ::
        dataPackets [0, 3] (n + 1) (b + 1) (c.drop 512) from rfl] at hx
    rw [show dataPackets [0, 3] (n + 1) (b + 1) (c.drop 512) =
      (b + 1, dataPayload [0, 3] (b + 1) ((c.drop 512).take 512)) ::
        dataPackets [0, 3] n (b + 1 + 1) ((c.drop 512).drop 512) from rfl] at hx
    rw [List.dropLast_cons₂] at hx
    rcases List.mem_cons.mp hx with h1 | h1
    · subst h1
      simp only [dataOf_dataPayload, List.length_take]
      omega
    · exact ih (b + 1) (c.drop 512) (by simp only [List.length_drop]; omega) x h1

theorem dataPackets_getLast (n b : Nat) (c : Bytes) :
    (dataPackets [0, 3] (n + 1) b c).getLast? =
      some (b + n, dataPayload [0, 3] (b + n) ((c.drop (512 * n)).take 512)) := by
  induction n generalizing b c with
  | zero => simp [dataPackets]
  | succ n ih =>
    rw [show dataPackets [0, 3] (n + 1 + 1) b c =
      (b, dataPayload [0, 3] b (c.take 512)) ::
        dataPackets [0, 3] (n + 1) (b + 1) (c.drop 512) from rfl]
    have hne : dataPackets [0, 3] (n + 1) (b + 1) (c.drop 512) ≠ [] := by
      intro h
      have := dataPackets_length [0, 3] (n + 1) (b + 1) (c.drop 512)
      rw [h] at this
      simp at this
    obtain ⟨y, l, hyl⟩ := List.exists_cons_of_ne_nil hne
    rw [hyl, List.getLast?_cons_cons, ← hyl, ih]
    simp only [List.drop_drop, Option.some.injEq, Prod.mk.injEq]
    constructor
    · omega
    · rw [show b + 1 + n = b + (n + 1) by omega, show 512 + 512 * n = 512 * (n + 1) by ring]

theorem dataPackets_mem (op : Bytes) (n b : Nat) (c : Bytes) :
    ∀ x ∈ dataPackets op n b c, b ≤ x.1 ∧ x.1 < b + n ∧ ∃ data, x.2 = dataPayload op x.1 data := by
  induction n generalizing b c with
  | zero => simp [dataPackets]
  | succ n ih =>
    intro x hx
    simp only [dataPackets, List.mem_cons] at hx
    rcases hx with h | h
    · subst h
      exact ⟨le_refl _, by simp, _, rfl⟩
    · obtain ⟨h1, h2, h3⟩ := ih (b + 1) (c.drop 512) x h
      exact ⟨by omega, by omega, h3⟩

theorem dataPackets_wireBlock (n b : Nat) (c : Bytes) (h : b + n ≤ 65536) :
    (dataPackets [0, 3] n b c).map (fun x => wireBlock x.2) = List.range' b n := by
  rw [← dataPackets_fst [0, 3] n b c]
  apply List.map_congr_left
  intro x hx
  obtain ⟨h1, h2, data, h3⟩ := dataPackets_mem [0, 3] n b c x hx
  rw [h3, wireBlock_dataPayload]
  exact Nat.mod_eq_of_lt (by omega)

theorem dataPackets_nodup (n b : Nat) (c : Bytes) (h : b + n ≤ 65536) :
    ((dataPackets [0, 3] n b c).map Prod.snd).Nodup := by
  apply List.Nodup.of_map wireBlock
  rw [List.map_map]
  have := dataPackets_wireBlock n b c h
  simp only [Function.comp_def]
  rw [this]
  exact List.nodup_range' _ _

@[simp] theorem sentOf_nil : sentOf [] = [] := rfl
@[simp] theorem sentOf_sent (k : Nat) (p : Bytes) (t : List Event) :
    sentOf (.sent k p :: t) = (k, p) :: sentOf t := rfl
@[simp] theorem sentOf_resent (k : Nat) (p : Bytes) (t : List Event) :
    sentOf (.resent k p :: t) = sentOf t := rfl
@[simp] theorem sentOf_received (r : Recv) (t : List Event) :
    sentOf (.received r :: t) = sentOf t := rfl
@[simp] theorem sentOf_read (n : Nat) (t : List Event) :
    sentOf (.read n :: t) = sentOf t := rfl
@[simp] theorem sentOf_sendFailed (t : List Event) :
    sentOf (.sendFailed :: t) = sentOf t := rfl
@[simp] theorem sentOf_logError (t : List Event) :
    sentOf (.logError :: t) = sentOf t := rfl
@[simp] theorem sentOf_exited (t : List Event) :
    sentOf (.exited :: t) = sentOf t := rfl
@[simp] theorem sentOf_opened (n : Bytes) (ok : Bool) (t : List Event) :
    sentOf (.opened n ok :: t) = sentOf t := rfl
@[simp] theorem sentOf_logInfo (t : List Event) :
    sentOf (.logInfo :: t) = sentOf t := rfl
@[simp] theorem sentOf_closed (t : List Event) :
    sentOf (.closed :: t) = sentOf t := rfl
@[simp] theorem sentOf_request (r : Recv) (t : List Event) :
    sentOf (.request r :: t) = sentOf t := rfl
@[simp] theorem sendsOf_opened (n : Bytes) (ok : Bool) (t : List Event) :
    sendsOf (.opened n ok :: t) = sendsOf t := rfl
@[simp] theorem sendsOf_logInfo (t : List Event) :
    sendsOf (.logInfo :: t) = sendsOf t := rfl
@[simp] theorem sendsOf_closed (t : List Event) :
    sendsOf (.closed :: t) = sendsOf t := rfl
@[simp] theorem sendsOf_request (r : Recv) (t : List Event) :
    sendsOf (.request r :: t) = sendsOf t := rfl

/-- The events of `ProcessRRQRequest` around those of the block loop change neither the
packets sent nor the datagrams on the wire. -/
theorem processRRQ_open_sentOf (fs : Bytes → Option File) (filename : Bytes) (net : Net)
    (file : File) (hne : filename ≠ [])
    (hopen : fs (filename.take (filename.length - 1)) = some file) :
    sentOf (ProcessRRQRequest fs filename net).trace = sentOf (blockLoop [0, 3] file 0 net).trace ∧
    sendsOf (ProcessRRQRequest fs filename net).trace =
      sendsOf (blockLoop [0, 3] file 0 net).trace ∧
    (ProcessRRQRequest fs filename net).out = (blockLoop [0, 3] file 0 net).out ∧
    (ProcessRRQRequest fs filename net).net = (blockLoop [0, 3] file 0 net).net := by
  rw [processRRQ_open fs filename net file hne hopen]
  split
  · rename_i h
    simp [sentOf_append, sendsOf_append, h]
  · simp [sentOf_append, sendsOf_append]

theorem processRRQ_full (fs : Bytes → Option File) (filename c : Bytes)
    (segs : List (List Bytes × Bytes)) (rest : List Recv)
    (hname : filename ≠ [])
    (hopen : fs (filename.take (filename.length - 1)) = some (fullReads c))
    (hL : c.length < 65535 * 512)
    (hsegs : segs.length = c.length / 512 + 1)
    (hack : Acknowledges 1 segs) :
    (ProcessRRQRequest fs filename { inbox := ackInbox segs ++ rest, sendFail := none }).out
      = .ret () ∧
    (ProcessRRQRequest fs filename { inbox := ackInbox segs ++ rest, sendFail := none }).net
      = { inbox := rest, sendFail := none } ∧
    sentOf (ProcessRRQRequest fs filename
      { inbox := ackInbox segs ++ rest, sendFail := none }).trace
      = dataPackets [0, 3] (c.length / 512 + 1) 1 c ∧
    ∀ x ∈ sendsOf (ProcessRRQRequest fs filename
      { inbox := ackInbox segs ++ rest, sendFail := none }).trace,
      x ∈ dataPackets [0, 3] (c.length / 512 + 1) 1 c := by
  obtain ⟨e1, e2, e3, e4⟩ := processRRQ_open_sentOf fs filename
    { inbox := ackInbox segs ++ rest, sendFail := none } (fullReads c) hname hopen
  have hn : c.length / 512 + 1 ≤ 65535 := by omega
  obtain ⟨h1, h2, h3, h4⟩ := blockLoop_full [0, 3] (c.length / 512) c 0 segs rest rfl hsegs
    hack (by omega)
  rw [e1, e2, e3, e4]
  exact ⟨h1, h2, h3, h4⟩

theorem ackLoop_sendsOf (p : Bytes) (b : Nat) (inbox : List Recv) (sf : Option Nat) :
    ∀ x ∈ sendsOf (ackLoop p b inbox sf).trace, x = (b, p) := by
  induction inbox generalizing sf with
  | nil => simp [ackLoop]
  | cons r inbox ih =>
    cases r with
    | error => simp [ackLoop_error, checkErrorEvents]
    | dgram d =>
      rw [ackLoop_dgram_gen]
      split
      · split
        · simp [checkErrorEvents]
        · intro x hx
          simp only [after_trace, List.cons_append, List.nil_append, sendsOf_received,
            sendsOf_resent, List.mem_cons] at hx
          rcases hx with h | h
          · exact h
          · exact ih _ x h
      · simp

theorem sendBlock_sendsOf (op : Bytes) (b : Nat) (r : ReadResult) (net : Net) :
    ∀ x ∈ sendsOf (sendBlock op b r net).trace, x = (b, dataPayload op b (readData r)) := by
  rw [sendBlock_eq_gen]
  split
  · simp [checkErrorEvents]
  · intro x hx
    simp only [after_trace, List.cons_append, List.nil_append, sendsOf_read,
      sendsOf_sent, List.mem_cons] at hx
    rcases hx with h | h
    · exact h
    · exact ackLoop_sendsOf _ _ _ _ x h

theorem blockLoop_sendsOf (op : Bytes) (f : File) (b0 : Nat) (net : Net) :
    ∀ x ∈ sendsOf (blockLoop op f b0 net).trace,
      b0 < x.1 ∧ x.2 = dataPayload op x.1 (readData (f.getD (x.1 - b0 - 1) eofRead)) := by
  induction f generalizing b0 net with
  | nil =>
    intro x hx
    rw [blockLoop_nil] at hx
    have := sendBlock_sendsOf op (b0 + 1) eofRead net x hx
    subst this
    simp
  | cons r f ih =>
    intro x hx
    by_cases hout : (sendBlock op (b0 + 1) r net).out = .ret ()
    · rw [blockLoop_cons_ret _ _ _ _ _ hout] at hx
      split at hx
      · have := sendBlock_sendsOf op (b0 + 1) r net x hx
        subst this
        simp
      · simp only [after_trace, sendsOf_append, List.mem_append] at hx
        rcases hx with h | h
        · have := sendBlock_sendsOf op (b0 + 1) r net x h
          subst this
          simp
        · obtain ⟨h1, h2⟩ := ih (b0 + 1) _ x h
          refine ⟨by omega, ?_⟩
          rw [h2]
          have : x.1 - b0 - 1 = (x.1 - (b0 + 1) - 1) + 1 := by omega
          rw [this, List.getD_cons_succ]
    · rw [blockLoop_cons_stop _ _ _ _ _ hout] at hx
      have := sendBlock_sendsOf op (b0 + 1) r net x hx
      subst this
      simp

theorem dataPayload_vals (k : Nat) (data : Bytes) :
    (dataPayload [0, 3] k data).map Fin.val =
      [0, 3, (k % 65536) / 256, (k % 65536) % 256] ++ data.map Fin.val := by
  simp only [dataPayload, PutUint16, byte, uint16, List.cons_append, List.nil_append,
    List.map_cons, List.append_eq]
  simp
  omega

/-- Either the file could not be opened (or the name was empty) and nothing was sent, or
the datagrams are those of the block loop on the opened file. -/
theorem processRRQ_sends (fs : Bytes → Option File) (filename : Bytes) (net : Net) :
    (sentOf (ProcessRRQRequest fs filename net).trace = [] ∧
      sendsOf (ProcessRRQRequest fs filename net).trace = []) ∨
    ∃ file, fs (filename.take (filename.length - 1)) = some file ∧
      sentOf (ProcessRRQRequest fs filename net).trace =
        sentOf (blockLoop [0, 3] file 0 net).trace ∧
      sendsOf (ProcessRRQRequest fs filename net).trace =
        sendsOf (blockLoop [0, 3] file 0 net).trace := by
  by_cases hne : filename = []
  · left
    subst hne
    simp [ProcessRRQRequest]
  · cases hopen : fs (filename.take (filename.length - 1)) with
    | none =>
      left
      have hl : filename.length ≠ 0 := fun h => hne (List.length_eq_zero.mp h)
      simp [ProcessRRQRequest, hl, hopen, checkErrorEvents]
    | some file =>
      right
      obtain ⟨e1, e2, -, -⟩ := processRRQ_open_sentOf fs filename net file hne hopen
      exact ⟨file, rfl, e1, e2⟩

theorem sendBlock_shape (op : Bytes) (b : Nat) (r : ReadResult) (net : Net) :
    (sentOf (sendBlock op b r net).trace = [] ∧ sendsOf (sendBlock op b r net).trace = [] ∧
      (sendBlock op b r net).out = .exit) ∨
    (sentOf (sendBlock op b r net).trace = [(b, dataPayload op b (readData r))] ∧
      ∃ k, sendsOf (sendBlock op b r net).trace =
        List.replicate (k + 1) (b, dataPayload op b (readData r))) := by
  rw [sendBlock_eq_gen]
  split
  · left
    simp [checkErrorEvents]
  · right
    constructor
    · simp [ackLoop_sentOf]
    · refine ⟨(sendsOf (ackLoop (dataPayload op b (readData r)) b net.inbox
        (WriteToUDP net.sendFail).2).trace).length, ?_⟩
      simp only [after_trace, List.cons_append, List.nil_append, sendsOf_read, sendsOf_sent,
        List.replicate_succ, List.cons.injEq, true_and]
      exact List.eq_replicate_of_mem (ackLoop_sendsOf _ _ _ _)

theorem chain_replicate_append (R : Nat → Nat → Prop) (c : Nat) (k : Nat) (l : List Nat)
    (hc : R c c) (hl : List.Chain' R l) (hh : ∀ y ∈ l.head?, R c y) :
    List.Chain' R (List.replicate k c ++ l) := by
  induction k with
  | zero => simpa using hl
  | succ k ih =>
    rw [List.replicate_succ, List.cons_append, List.chain'_cons']
    refine ⟨?_, ih⟩
    intro y hy
    cases k with
    | zero => exact hh y (by simpa using hy)
    | succ k =>
      simp only [List.replicate_succ, List.cons_append, List.head?_cons, Option.mem_def,
        Option.some.injEq] at hy
      exact hy ▸ hc

theorem sendBlock_counters (op : Bytes) (b0 : Nat) (r : ReadResult) (net : Net) :
    (sentOf (sendBlock op (b0 + 1) r net).trace).map Prod.fst =
      List.range' (b0 + 1) (sentOf (sendBlock op (b0 + 1) r net).trace).length ∧
    (∀ x ∈ sendsOf (sendBlock op (b0 + 1) r net).trace,
      x.1 ≤ b0 + (sentOf (sendBlock op (b0 + 1) r net).trace).length) ∧
    List.Chain' (fun x y => y = x ∨ y = x + 1)
      ((sendsOf (sendBlock op (b0 + 1) r net).trace).map Prod.fst) ∧
    ∀ y ∈ ((sendsOf (sendBlock op (b0 + 1) r net).trace).map Prod.fst).head?,
      y = b0 + 1 := by
  rcases sendBlock_shape op (b0 + 1) r net with ⟨h1, h2, -⟩ | ⟨h1, k, h2⟩
  · rw [h1, h2]; simp
  · rw [h1, h2]
    refine ⟨by simp [List.range'], ?_, ?_, ?_⟩
    · intro x hx
      rw [List.eq_of_mem_replicate hx]
      simp
    · have := chain_replicate_append (fun x y => y = x ∨ y = x + 1) (b0 + 1) (k + 1) []
        (Or.inl rfl) List.chain'_nil (by simp)
      simpa using this
    · simp [List.replicate_succ]

/-- The block counters of the block loop: new packets count up from `b0 + 1`, and the
counters of all datagrams sent never decrease and never skip a value. -/
theorem blockLoop_counters (op : Bytes) (f : File) (b0 : Nat) (net : Net) :
    (sentOf (blockLoop op f b0 net).trace).map Prod.fst =
      List.range' (b0 + 1) (sentOf (blockLoop op f b0 net).trace).length ∧
    (∀ x ∈ sendsOf (blockLoop op f b0 net).trace,
      x.1 ≤ b0 + (sentOf (blockLoop op f b0 net).trace).length) ∧
    List.Chain' (fun x y => y = x ∨ y = x + 1)
      ((sendsOf (blockLoop op f b0 net).trace).map Prod.fst) ∧
    ∀ y ∈ ((sendsOf (blockLoop op f b0 net).trace).map Prod.fst).head?, y = b0 + 1 := by
  induction f generalizing b0 net with
  | nil => rw [blockLoop_nil]; exact sendBlock_counters op b0 eofRead net
  | cons r f ih =>
    by_cases hout : (sendBlock op (b0 + 1) r net).out = .ret ()
    · rw [blockLoop_cons_ret _ _ _ _ _ hout]
      split
      · exact sendBlock_counters op b0 r net
      · rcases sendBlock_shape op (b0 + 1) r net with ⟨-, -, h3⟩ | ⟨h1, k, h2⟩
        · rw [hout] at h3; cases h3
        · obtain ⟨i1, i2, i3, i4⟩ := ih (b0 + 1) (sendBlock op (b0 + 1) r net).net
          simp only [after_trace, sentOf_append, sendsOf_append, h1, h2, List.map_append,
            List.map_cons, List.map_nil, List.length_append, List.length_cons, List.length_nil,
            List.map_replicate]
          refine ⟨?_, ?_, ?_, ?_⟩
          · rw [i1]
            simp only [List.singleton_append, List.length_range']
            rw [show 0 + 1 + (sentOf (blockLoop op f (b0 + 1)
              (sendBlock op (b0 + 1) r net).net).trace).length =
              (sentOf (blockLoop op f (b0 + 1)
                (sendBlock op (b0 + 1) r net).net).trace).length + 1 by omega,
              List.range'_succ]
          · intro x hx
            rcases List.mem_append.mp hx with h | h
            · rw [List.eq_of_mem_replicate h]
              simp
            · have := i2 x h
              omega
          · exact chain_replicate_append _ _ _ _ (Or.inl rfl) i3
              (fun y hy => Or.inr (i4 y hy))
          · simp [List.replicate_succ]
    · rw [blockLoop_cons_stop _ _ _ _ _ hout]
      exact sendBlock_counters op b0 r net

theorem sentOf_subset_sendsOf (t : List Event) : ∀ x ∈ sentOf t, x ∈ sendsOf t := by
  induction t with
  | nil => simp
  | cons e t ih =>
    intro x hx
    cases e <;> simp only [sentOf_request, sentOf_opened, sentOf_read, sentOf_sent,
      sentOf_resent, sentOf_sendFailed, sentOf_received, sentOf_logInfo, sentOf_logError,
      sentOf_exited, sentOf_closed, sendsOf_request, sendsOf_opened, sendsOf_read,
      sendsOf_sent, sendsOf_resent, sendsOf_sendFailed, sendsOf_received, sendsOf_logInfo,
      sendsOf_logError, sendsOf_exited, sendsOf_closed, List.mem_cons] at hx ⊢
    all_goals first
      | exact ih x hx
      | exact Or.inr (ih x hx)
      | (rcases hx with h | h
         · exact Or.inl h
         · exact Or.inr (ih x h))

theorem ioOf_append (s t : List Event) : ioOf (s ++ t) = ioOf s ++ ioOf t := by
  induction s with
  | nil => rfl
  | cons e s ih =>
    cases e with
    | received r => cases r <;> simp [ioOf, ih]
    | _ => simp [ioOf, ih]

theorem turnAfter_append (e : Bool) (l1 l2 : List Bool) :
    turnAfter e (l1 ++ l2) = (turnAfter e l1).bind fun e' => turnAfter e' l2 := by
  induction l1 generalizing e with
  | nil => simp [turnAfter]
  | cons x xs ih =>
    simp only [List.cons_append, turnAfter]
    split
    · exact ih _
    · rfl

theorem turnAfter_count (e e' : Bool) (l : List Bool) (h : turnAfter e l = some e') :
    l.count e = l.count (!e) + if e' = e then 0 else 1 := by
  induction l generalizing e with
  | nil =>
    simp only [turnAfter, Option.some.injEq] at h
    simp [h]
  | cons x xs ih =>
    simp only [turnAfter] at h
    split at h
    · rename_i hx
      subst hx
      have := ih (!x) h
      simp only [Bool.not_not] at this
      rw [List.count_cons_self, List.count_cons_of_ne (by cases x <;> simp)]
      cases x <;> cases e' <;> simp at this ⊢ <;> omega
    · cases h

theorem turnAfter_of_append (e : Bool) (l1 l2 : List Bool)
    (h : (turnAfter e (l1 ++ l2)).isSome) : (turnAfter e l1).isSome := by
  rw [turnAfter_append] at h
  cases h1 : turnAfter e l1 with
  | none => rw [h1] at h; simp at h
  | some _ => rfl

@[simp] theorem ioOf_nil : ioOf [] = [] := rfl
@[simp] theorem ioOf_sent (k : Nat) (p : Bytes) (t : List Event) :
    ioOf (.sent k p :: t) = true :: ioOf t := rfl
@[simp] theorem ioOf_resent (k : Nat) (p : Bytes) (t : List Event) :
    ioOf (.resent k p :: t) = true :: ioOf t := rfl
@[simp] theorem ioOf_received_dgram (d : Bytes) (t : List Event) :
    ioOf (.received (.dgram d) :: t) = false :: ioOf t := rfl
@[simp] theorem ioOf_received_error (t : List Event) :
    ioOf (.received .error :: t) = ioOf t := rfl
@[simp] theorem ioOf_read (n : Nat) (t : List Event) : ioOf (.read n :: t) = ioOf t := rfl
@[simp] theorem ioOf_sendFailed (t : List Event) : ioOf (.sendFailed :: t) = ioOf t := rfl
@[simp] theorem ioOf_logError (t : List Event) : ioOf (.logError :: t) = ioOf t := rfl
@[simp] theorem ioOf_exited (t : List Event) : ioOf (.exited :: t) = ioOf t := rfl
@[simp] theorem ioOf_opened (n : Bytes) (ok : Bool) (t : List Event) :
    ioOf (.opened n ok :: t) = ioOf t := rfl
@[simp] theorem ioOf_logInfo (t : List Event) : ioOf (.logInfo :: t) = ioOf t := rfl
@[simp] theorem ioOf_closed (t : List Event) : ioOf (.closed :: t) = ioOf t := rfl
@[simp] theorem ioOf_request (r : Recv) (t : List Event) : ioOf (.request r :: t) = ioOf t := rfl

/-- The acknowledgment loop takes turns, beginning with a receive; it returns after a
receive and blocks after a send. -/
theorem ackLoop_turn (p : Bytes) (b : Nat) (inbox : List Recv) (sf : Option Nat) :
    ∃ e', turnAfter false (ioOf (ackLoop p b inbox sf).trace) = some e' ∧
      ((ackLoop p b inbox sf).out = .ret () → e' = true) ∧
      ((ackLoop p b inbox sf).out = .block → e' = false) := by
  induction inbox generalizing sf with
  | nil => exact ⟨false, by simp [ackLoop, turnAfter], by simp [ackLoop], fun _ => rfl⟩
  | cons r inbox ih =>
    cases r with
    | error =>
      rw [ackLoop_error]
      exact ⟨false, by simp [checkErrorEvents, turnAfter], by simp, fun _ => rfl⟩
    | dgram d =>
      rw [ackLoop_dgram_gen]
      split
      · split
        · exact ⟨true, by simp [checkErrorEvents, turnAfter], fun _ => rfl, by simp⟩
        · obtain ⟨e', h1, h2, h3⟩ := ih (WriteToUDP sf).2
          exact ⟨e', by simpa [turnAfter] using h1, by simpa using h2, by simpa using h3⟩
      · exact ⟨true, by simp [turnAfter], fun _ => rfl, by simp⟩

theorem sendBlock_turn (op : Bytes) (b : Nat) (r : ReadResult) (net : Net) :
    ∃ e', turnAfter true (ioOf (sendBlock op b r net).trace) = some e' ∧
      ((sendBlock op b r net).out = .ret () → e' = true) ∧
      ((sendBlock op b r net).out = .block → e' = false) := by
  rw [sendBlock_eq_gen]
  split
  · exact ⟨true, by simp [checkErrorEvents, turnAfter], fun _ => rfl, by simp⟩
  · obtain ⟨e', h1, h2, h3⟩ := ackLoop_turn (dataPayload op b (readData r)) b net.inbox
      (WriteToUDP net.sendFail).2
    exact ⟨e', by simpa [turnAfter] using h1, by simpa using h2, by simpa using h3⟩

theorem blockLoop_turn (op : Bytes) (f : File) (b0 : Nat) (net : Net) :
    ∃ e', turnAfter true (ioOf (blockLoop op f b0 net).trace) = some e' ∧
      ((blockLoop op f b0 net).out = .ret () → e' = true) ∧
      ((blockLoop op f b0 net).out = .block → e' = false) := by
  induction f generalizing b0 net with
  | nil => rw [blockLoop_nil]; exact sendBlock_turn _ _ _ _
  | cons r f ih =>
    by_cases hout : (sendBlock op (b0 + 1) r net).out = .ret ()
    · rw [blockLoop_cons_ret _ _ _ _ _ hout]
      split
      · exact sendBlock_turn _ _ _ _
      · obtain ⟨e1, h1, h2, -⟩ := sendBlock_turn op (b0 + 1) r net
        have := h2 hout
        subst this
        obtain ⟨e', i1, i2, i3⟩ := ih (b0 + 1) (sendBlock op (b0 + 1) r net).net
        refine ⟨e', ?_, by simpa using i2, by simpa using i3⟩
        simp only [after_trace, ioOf_append, turnAfter_append, h1, Option.some_bind, i1]
    · rw [blockLoop_cons_stop _ _ _ _ _ hout]
      exact sendBlock_turn _ _ _ _

theorem ackLoop_no_sent (p : Bytes) (b : Nat) (inbox : List Recv) (sf : Option Nat)
    (k : Nat) (q : Bytes) : Event.sent k q ∉ (ackLoop p b inbox sf).trace := by
  induction inbox generalizing sf with
  | nil => simp [ackLoop]
  | cons r inbox ih =>
    cases r with
    | error => simp [ackLoop_error, checkErrorEvents]
    | dgram d =>
      rw [ackLoop_dgram_gen]
      split
      · split
        · simp [checkErrorEvents]
        · simpa using ih _
      · simp

theorem ackLoop_ret_received (p : Bytes) (b : Nat) (inbox : List Recv) (sf : Option Nat)
    (h : (ackLoop p b inbox sf).out = .ret ()) :
    ∃ d, wireBlock d = b ∧ Event.received (.dgram d) ∈ (ackLoop p b inbox sf).trace := by
  induction inbox generalizing sf with
  | nil => simp [ackLoop] at h
  | cons r inbox ih =>
    cases r with
    | error => simp [ackLoop_error] at h
    | dgram d =>
      rw [ackLoop_dgram_gen] at h ⊢
      split at h
      · rename_i hd
        rw [if_pos hd]
        split at h
        · simp at h
        · rename_i hw
          rw [if_neg hw]
          obtain ⟨d', h1, h2⟩ := ih _ (by simpa using h)
          exact ⟨d', h1, by simp [h2]⟩
      · rename_i hd
        rw [if_neg hd]
        exact ⟨d, not_not.mp hd, by simp⟩

theorem sendBlock_sent_mem (op : Bytes) (b : Nat) (r : ReadResult) (net : Net)
    (k : Nat) (q : Bytes) (h : Event.sent k q ∈ (sendBlock op b r net).trace) : k = b := by
  rw [sendBlock_eq_gen] at h
  split at h
  · simp [checkErrorEvents] at h
  · simp only [after_trace, List.cons_append, List.nil_append, List.mem_cons,
      Event.sent.injEq, reduceCtorEq, false_or] at h
    rcases h with h | h
    · exact h.1
    · exact absurd h (ackLoop_no_sent _ _ _ _ _ _)

theorem sendBlock_ret_sublist (op : Bytes) (b : Nat) (r : ReadResult) (net : Net)
    (h : (sendBlock op b r net).out = .ret ()) :
    ∃ q d, wireBlock d = b ∧
      List.Sublist [Event.sent b q, Event.received (.dgram d)] (sendBlock op b r net).trace := by
  rw [sendBlock_eq_gen] at h ⊢
  split at h
  · simp at h
  · rename_i hw
    rw [if_neg hw]
    obtain ⟨d, h1, h2⟩ := ackLoop_ret_received _ _ _ _ (by simpa using h)
    refine ⟨dataPayload op b (readData r), d, h1, ?_⟩
    simp only [after_trace, List.cons_append, List.nil_append]
    exact List.Sublist.cons _ (List.Sublist.cons₂ _ (List.singleton_sublist.mpr h2))

/-- In the block loop a packet with counter `N + 1` is either the first one or comes
after packet `N` was sent and a datagram carrying `N` was then received. -/
theorem blockLoop_ordered (op : Bytes) (f : File) (b0 : Nat) (net : Net) :
    ∀ (pre post : List Event) (N : Nat) (p : Bytes),
      (blockLoop op f b0 net).trace = pre ++ Event.sent (N + 1) p :: post →
      N = b0 ∨ (b0 < N ∧ ∃ q d, wireBlock d = N ∧
        List.Sublist [Event.sent N q, Event.received (.dgram d)] pre) := by
  have one : ∀ (b0 : Nat) (r : ReadResult) (net : Net) (pre post : List Event) (N : Nat)
      (p : Bytes), (sendBlock op (b0 + 1) r net).trace = pre ++ Event.sent (N + 1) p :: post →
      N = b0 := by
    intro b0 r net pre post N p h
    have hm : Event.sent (N + 1) p ∈ (sendBlock op (b0 + 1) r net).trace := by
      rw [h]; simp
    have := sendBlock_sent_mem _ _ _ _ _ _ hm
    omega
  induction f generalizing b0 net with
  | nil =>
    intro pre post N p h
    rw [blockLoop_nil] at h
    exact Or.inl (one _ _ _ _ _ _ _ h)
  | cons r f ih =>
    intro pre post N p h
    by_cases hout : (sendBlock op (b0 + 1) r net).out = .ret ()
    · rw [blockLoop_cons_ret _ _ _ _ _ hout] at h
      split at h
      · exact Or.inl (one _ _ _ _ _ _ _ h)
      · simp only [after_trace] at h
        rcases List.append_eq_append_iff.mp h with ⟨a', h1, h2⟩ | ⟨c', h1, h2⟩
        · right
          obtain ⟨q, d, hd, hs⟩ := sendBlock_ret_sublist op (b0 + 1) r net hout
          rcases ih (b0 + 1) _ a' post N p h2 with hN | ⟨hN, q', d', hd', hs'⟩
          · subst hN
            refine ⟨by omega, q, d, hd, ?_⟩
            rw [h1]
            exact hs.trans (List.sublist_append_left _ _)
          · refine ⟨by omega, q', d', hd', ?_⟩
            rw [h1]
            exact hs'.trans (List.sublist_append_right _ _)
        · cases c' with
          | nil =>
            simp only [List.nil_append, List.append_nil] at h1 h2
            right
            obtain ⟨q, d, hd, hs⟩ := sendBlock_ret_sublist op (b0 + 1) r net hout
            rcases ih (b0 + 1) _ [] post N p (by simpa using h2.symm) with
              hN | ⟨hN, q', d', hd', hs'⟩
            · subst hN
              exact ⟨by omega, q, d, hd, by rw [← h1]; exact hs⟩
            · simp at hs'
          | cons x c2 =>
            simp only [List.cons_append, List.cons.injEq] at h2
            left
            exact one b0 r net pre c2 N p (by rw [h1, h2.1])
    · rw [blockLoop_cons_stop _ _ _ _ _ hout] at h
      exact Or.inl (one _ _ _ _ _ _ _ h)

theorem split_after_head (hd rest pre post : List Event) (k : Nat) (p : Bytes)
    (hhd : Event.sent k p ∉ hd) (h : hd ++ rest = pre ++ Event.sent k p :: post) :
    ∃ pre', pre = hd ++ pre' ∧ rest = pre' ++ Event.sent k p :: post := by
  induction hd generalizing pre with
  | nil => exact ⟨pre, by simp, by simpa using h⟩
  | cons x hd ih =>
    cases pre with
    | nil =>
      simp only [List.cons_append, List.nil_append, List.cons.injEq] at h
      exact absurd (by simp [h.1]) hhd
    | cons y pre =>
      simp only [List.cons_append, List.cons.injEq] at h
      obtain ⟨pre', h1, h2⟩ := ih pre (fun hm => hhd (List.mem_cons_of_mem _ hm)) h.2
      exact ⟨pre', by simp [h.1, h1], h2⟩

theorem split_before_tail (tl tail pre post : List Event) (k : Nat) (p : Bytes)
    (htail : Event.sent k p ∉ tail) (h : tl ++ tail = pre ++ Event.sent k p :: post) :
    ∃ post', tl = pre ++ Event.sent k p :: post' := by
  rcases List.append_eq_append_iff.mp h with ⟨a', -, h2⟩ | ⟨c', h1, h2⟩
  · exact absurd (by rw [h2]; simp) htail
  · cases c' with
    | nil =>
      simp only [List.nil_append] at h2
      exact absurd (by rw [← h2]; simp) htail
    | cons x c2 =>
      simp only [List.cons_append, List.cons.injEq] at h2
      exact ⟨c2, by rw [h1, h2.1]⟩

/-- The shape of the trace of `ProcessRRQRequest`: nothing on the wire, or the events of
the block loop between `opened`, `logInfo` and maybe `closed`. -/
theorem processRRQ_shape (fs : Bytes → Option File) (filename : Bytes) (net : Net) :
    ((∀ k p, Event.sent k p ∉ (ProcessRRQRequest fs filename net).trace) ∧
      ioOf (ProcessRRQRequest fs filename net).trace = [] ∧
      (ProcessRRQRequest fs filename net).out ≠ .ret () ∧
      (ProcessRRQRequest fs filename net).out ≠ .block) ∨
    ∃ file tail, (∀ k p, Event.sent k p ∉ tail) ∧ ioOf tail = [] ∧
      (ProcessRRQRequest fs filename net).trace =
        [.opened (filename.take (filename.length - 1)) true, .logInfo] ++
          ((blockLoop [0, 3] file 0 net).trace ++ tail) ∧
      (ProcessRRQRequest fs filename net).out = (blockLoop [0, 3] file 0 net).out := by
  by_cases hne : filename = []
  · left
    subst hne
    simp [ProcessRRQRequest]
  · cases hopen : fs (filename.take (filename.length - 1)) with
    | none =>
      left
      have hl : filename.length ≠ 0 := fun h => hne (List.length_eq_zero.mp h)
      simp [ProcessRRQRequest, hl, hopen, checkErrorEvents]
    | some file =>
      right
      rw [processRRQ_open fs filename net file hne hopen]
      split
      · rename_i h
        exact ⟨file, [.closed], by simp, rfl, by simp, h.symm⟩
      · exact ⟨file, [], by simp, rfl, by simp, rfl⟩

theorem wireOpcode_cons (b0 b1 : Byte) (body : Bytes) :
    wireOpcode (b0 :: b1 :: body) = b0.val * 256 + b1.val := by
  simp [wireOpcode]

/-- The request buffer of `Initialize` decodes, and its opcode is the one the datagram
carries. -/
theorem decode_requestBuf (d : Bytes) :
    ∃ fn mode, decodeRRQWRQ (ReadFromUDP (.dgram d) (make 1024)).1 =
      some { Opcode := wireOpcode d, Filename := fn, Mode := mode } := by
  have hl := recvBuf_length d 1024
  have e0 := recvBuf_getD d 1024 0
  have e1 := recvBuf_getD d 1024 1
  simp only [show (0:Nat) < 1024 by decide, show (1:Nat) < 1024 by decide, if_true] at e0 e1
  generalize (ReadFromUDP (.dgram d) (make 1024)).1 = buf at hl e0 e1
  match buf, hl with
  | b0 :: b1 :: body, _ =>
    rw [decode_eq]
    refine ⟨(ReadString 0 body).1,
      (ReadString 0 (body.drop (ReadString 0 body).1.length)).1, ?_⟩
    simp only [List.getD_cons_zero, List.getD_cons_succ] at e0 e1
    simp only [wireOpcode, ← e0, ← e1]

set_option maxRecDepth 8192 in
theorem initialize_dgram (fs : Bytes → Option File) (d : Bytes) (inbox : List Recv)
    (sf : Option Nat) (i : Initial)
    (hdec : decodeRRQWRQ (ReadFromUDP (.dgram d) (make 1024)).1 = some i) :
    Initialize fs { inbox := .dgram d :: inbox, sendFail := sf } =
      if i.Opcode = RRQ then
        (ProcessRRQRequest fs i.Filename { inbox := inbox, sendFail := sf }).after
          [.request (.dgram d)]
      else if i.Opcode = WRQ then
        { trace := [.request (.dgram d)], out := .ret (),
          net := { inbox := inbox, sendFail := sf } }
      else
        { trace := [.request (.dgram d), .logError], out := .ret (),
          net := { inbox := inbox, sendFail := sf } } := by
  have herr : (ReadFromUDP (.dgram d) (make 1024)).2 = false := rfl
  simp only [Initialize, hdec, herr]
  simp

set_option maxRecDepth 8192 in
theorem initialize_error (fs : Bytes → Option File) (inbox : List Recv) (sf : Option Nat) :
    Initialize fs { inbox := .error :: inbox, sendFail := sf } =
      { trace := .request .error :: checkErrorEvents, out := .exit,
        net := { inbox := inbox, sendFail := sf } } := by
  have hdec : decodeRRQWRQ (ReadFromUDP .error (make 1024)).1 =
      some { Opcode := 0, Filename := [0], Mode := [0] } := by decide
  have herr : (ReadFromUDP .error (make 1024)).2 = true := rfl
  simp only [Initialize, hdec, herr]
  simp

theorem mainLoop_stop (fs : Bytes → Option File) (n : Nat) (net : Net)
    (h : (Initialize fs net).out ≠ .ret ()) :
    mainLoop fs (n + 1) net = Initialize fs net := by
  simp only [mainLoop]
  split
  · rename_i u hu
    cases u
    exact absurd hu h
  · rfl

theorem mainLoop_next (fs : Bytes → Option File) (n : Nat) (net : Net)
    (h : (Initialize fs net).out = .ret ()) :
    mainLoop fs (n + 1) net =
      (mainLoop fs n (Initialize fs net).net).after (Initialize fs net).trace := by
  simp only [mainLoop, h]

theorem blockLoop_send_fails (op : Bytes) (f : File) (b : Nat) (inbox : List Recv) :
    (blockLoop op f b { inbox := inbox, sendFail := some 0 }).out = .exit ∧
    (blockLoop op f b { inbox := inbox, sendFail := some 0 }).net.inbox = inbox ∧
    sendsOf (blockLoop op f b { inbox := inbox, sendFail := some 0 }).trace = [] := by
  have one : ∀ r, (sendBlock op (b + 1) r { inbox := inbox, sendFail := some 0 }).out = .exit ∧
      (sendBlock op (b + 1) r { inbox := inbox, sendFail := some 0 }).net.inbox = inbox ∧
      sendsOf (sendBlock op (b + 1) r { inbox := inbox, sendFail := some 0 }).trace = [] := by
    intro r
    rw [sendBlock_eq_gen]
    simp [WriteToUDP, checkErrorEvents]
  cases f with
  | nil => rw [blockLoop_nil]; exact one _
  | cons r f =>
    rw [blockLoop_cons_stop _ _ _ _ _ (by rw [(one r).1]; simp)]
    exact one r

theorem blockLoop_recv_fails (op : Bytes) (f : File) (b : Nat) (rest : List Recv) :
    (blockLoop op f b { inbox := .error :: rest, sendFail := none }).out = .exit ∧
    (blockLoop op f b { inbox := .error :: rest, sendFail := none }).net.inbox = rest := by
  have one : ∀ r,
      (sendBlock op (b + 1) r { inbox := .error :: rest, sendFail := none }).out = .exit ∧
      (sendBlock op (b + 1) r { inbox := .error :: rest, sendFail := none }).net.inbox
        = rest := by
    intro r
    rw [sendBlock_eq, ackLoop_error]
    simp
  cases f with
  | nil => rw [blockLoop_nil]; exact one _
  | cons r f =>
    rw [blockLoop_cons_stop _ _ _ _ _ (by rw [(one r).1]; simp)]
    exact one r

theorem ackLoop_failure_exit (p : Bytes) (b : Nat) (inbox : List Recv) (sf : Option Nat)
    (h : Event.sendFailed ∈ (ackLoop p b inbox sf).trace ∨
      Event.received .error ∈ (ackLoop p b inbox sf).trace) :
    (ackLoop p b inbox sf).out = .exit := by
  induction inbox generalizing sf with
  | nil => simp [ackLoop] at h
  | cons r inbox ih =>
    cases r with
    | error => simp [ackLoop_error]
    | dgram d =>
      rw [ackLoop_dgram_gen] at h ⊢
      split
      · split
        · rfl
        · rename_i hd hw
          rw [if_pos hd, if_neg hw] at h
          simp only [after_out]
          apply ih
          simpa using h
      · rename_i hd
        rw [if_neg hd] at h
        simp at h

theorem sendBlock_failure_exit (op : Bytes) (b : Nat) (r : ReadResult) (net : Net)
    (h : Event.sendFailed ∈ (sendBlock op b r net).trace ∨
      Event.received .error ∈ (sendBlock op b r net).trace) :
    (sendBlock op b r net).out = .exit := by
  rw [sendBlock_eq_gen] at h ⊢
  split
  · rfl
  · rename_i hw
    rw [if_neg hw] at h
    simp only [after_out]
    apply ackLoop_failure_exit
    simpa using h

theorem blockLoop_failure_exit (op : Bytes) (f : File) (b : Nat) (net : Net)
    (h : Event.sendFailed ∈ (blockLoop op f b net).trace ∨
      Event.received .error ∈ (blockLoop op f b net).trace) :
    (blockLoop op f b net).out = .exit := by
  induction f generalizing b net with
  | nil => rw [blockLoop_nil] at h ⊢; exact sendBlock_failure_exit _ _ _ _ h
  | cons r f ih =>
    by_cases hout : (sendBlock op (b + 1) r net).out = .ret ()
    · rw [blockLoop_cons_ret _ _ _ _ _ hout] at h ⊢
      split
      · rename_i hlt
        rw [if_pos hlt] at h
        exact sendBlock_failure_exit _ _ _ _ h
      · rename_i hlt
        rw [if_neg hlt] at h
        simp only [after_trace, List.mem_append] at h
        simp only [after_out]
        apply ih
        rcases h with (h | h) | (h | h)
        · have := sendBlock_failure_exit op (b + 1) r net (Or.inl h)
          rw [hout] at this; cases this
        · exact Or.inl h
        · have := sendBlock_failure_exit op (b + 1) r net (Or.inr h)
          rw [hout] at this; cases this
        · exact Or.inr h
    · rw [blockLoop_cons_stop _ _ _ _ _ hout] at h ⊢
      exact sendBlock_failure_exit _ _ _ _ h

theorem processRRQ_failure_exit (fs : Bytes → Option File) (filename : Bytes) (net : Net)
    (h : Event.sendFailed ∈ (ProcessRRQRequest fs filename net).trace ∨
      Event.received .error ∈ (ProcessRRQRequest fs filename net).trace) :
    (ProcessRRQRequest fs filename net).out = .exit := by
  by_cases hne : filename = []
  · subst hne
    simp [ProcessRRQRequest] at h
  · have hl : filename.length ≠ 0 := fun h => hne (List.length_eq_zero.mp h)
    cases hopen : fs (filename.take (filename.length - 1)) with
    | none => simp [ProcessRRQRequest, hl, hopen]
    | some file =>
      rw [processRRQ_open fs filename net file hne hopen] at h ⊢
      have key : Event.sendFailed ∈ (blockLoop [0, 3] file 0 net).trace ∨
          Event.received .error ∈ (blockLoop [0, 3] file 0 net).trace := by
        split at h
        · simpa using h
        · simpa using h
      have := blockLoop_failure_exit _ _ _ _ key
      rw [if_neg (by rw [this]; simp)]
      simpa using this

theorem initialize_failure_exit (fs : Bytes → Option File) (net : Net)
    (h : Event.sendFailed ∈ (Initialize fs net).trace ∨
      Event.received .error ∈ (Initialize fs net).trace) :
    (Initialize fs net).out = .exit := by
  obtain ⟨inbox, sf⟩ := net
  cases inbox with
  | nil => simp [Initialize] at h
  | cons r inbox =>
    cases r with
    | error => rw [initialize_error]
    | dgram d =>
      obtain ⟨fn, mode, hdec⟩ := decode_requestBuf d
      rw [initialize_dgram fs d inbox sf _ hdec] at h ⊢
      split
      · rename_i hop
        rw [if_pos hop] at h
        simp only [after_out]
        apply processRRQ_failure_exit
        simpa using h
      · rename_i hop
        rw [if_neg hop] at h
        split at h <;> simp at h

theorem getD_append_zeros (d : Bytes) (n i : Nat) :
    (d ++ List.replicate n (0 : Byte)).getD i 0 = d.getD i 0 := by
  induction d generalizing i with
  | nil =>
    simp only [List.nil_append, List.getD_nil]
    by_cases h : i < n
    · simp [List.getD_eq_getElem?_getD, List.getElem?_replicate, h]
    · simp [List.getD_eq_getElem?_getD, List.getElem?_replicate, h]
  | cons a t ih =>
    cases i with
    | zero => simp
    | succ j => simpa using ih j

theorem readString_ne_nil (delim : Byte) (b : Byte) (s : Bytes) :
    (ReadString delim (b :: s)).1 ≠ [] := by
  unfold ReadString
  split <;> simp

theorem ackLoop_no_panic (p : Bytes) (b : Nat) (inbox : List Recv) (sf : Option Nat) :
    (ackLoop p b inbox sf).out ≠ .panic := by
  induction inbox generalizing sf with
  | nil => simp [ackLoop]
  | cons r inbox ih =>
    cases r with
    | error => rw [ackLoop_error]; simp
    | dgram d =>
      rw [ackLoop_dgram_gen]
      split
      · split
        · simp
        · simpa using ih _
      · simp

theorem sendBlock_no_panic (op : Bytes) (b : Nat) (r : ReadResult) (net : Net) :
    (sendBlock op b r net).out ≠ .panic := by
  rw [sendBlock_eq_gen]
  split
  · simp
  · simpa using ackLoop_no_panic _ _ _ _

theorem blockLoop_no_panic (op : Bytes) (f : File) (b : Nat) (net : Net) :
    (blockLoop op f b net).out ≠ .panic := by
  induction f generalizing b net with
  | nil => rw [blockLoop_nil]; exact sendBlock_no_panic _ _ _ _
  | cons r f ih =>
    by_cases hr : (sendBlock op (b + 1) r net).out = .ret ()
    · rw [blockLoop_cons_ret op r f b net hr]
      split
      · exact sendBlock_no_panic _ _ _ _
      · simpa using ih _ _
    · rw [blockLoop_cons_stop op r f b net hr]
      exact sendBlock_no_panic _ _ _ _

theorem processRRQ_no_panic (fs : Bytes → Option File) (filename : Bytes) (net : Net)
    (h : filename ≠ []) : (ProcessRRQRequest fs filename net).out ≠ .panic := by
  have hl : filename.length ≠ 0 := fun e => h (List.length_eq_zero.mp e)
  cases hfs : fs (filename.take (filename.length - 1)) with
  | none => simp [ProcessRRQRequest, hl, hfs]
  | some file =>
    rw [processRRQ_open fs filename net file h hfs]
    have := blockLoop_no_panic [0, 3] file 0 net
    split
    · simp_all
    · simpa using this


theorem decode_requestBuf_any (r : Recv) :
    ∃ i, decodeRRQWRQ (ReadFromUDP r (make 1024)).1 = some i ∧ i.Filename ≠ [] := by
  have hl : (ReadFromUDP r (make 1024)).1.length = 1024 := by
    cases r with
    | dgram d => exact recvBuf_length d 1024
    | error => exact make_length 1024
  generalize (ReadFromUDP r (make 1024)).1 = buf at hl
  match buf, hl with
  | b0 :: b1 :: b2 :: body, _ =>
    rw [decode_eq]
    exact ⟨_, rfl, readString_ne_nil 0 b2 body⟩

theorem initialize_no_panic (fs : Bytes → Option File) (net : Net) :
    (Initialize fs net).out ≠ .panic := by
  obtain ⟨inbox, sf⟩ := net
  cases inbox with
  | nil => simp [Initialize]
  | cons r inbox =>
    cases r with
    | error => rw [initialize_error]; simp
    | dgram d =>
      obtain ⟨i, hdec, hne⟩ := decode_requestBuf_any (.dgram d)
      rw [initialize_dgram fs d inbox sf i hdec]
      split
      · simpa using processRRQ_no_panic fs i.Filename _ hne
      · split <;> simp

theorem readString_append (x y : Bytes) (h : (0 : Byte) ∈ x ∨ y = []) :
    (ReadString 0 (x ++ y)).1 = (ReadString 0 x).1 := by
  induction x with
  | nil =>
    rcases h with h | h
    · simp at h
    · subst h; rfl
  | cons a x ih =>
    by_cases ha : a = 0
    · simp [ReadString, ha]
    · have h' : (0 : Byte) ∈ x ∨ y = [] := by
        rcases h with h | h
        · left
          rcases List.mem_cons.mp h with h | h
          · exact absurd h.symm ha
          · exact h
        · exact Or.inr h
      simp [ReadString, ha, ih h']

theorem recvBuf_cons_cons (b0 b1 : Byte) (x y : Bytes) :
    (ReadFromUDP (.dgram (b0 :: b1 :: (x ++ y))) (make 1024)).1 =
      b0 :: b1 :: (x.take 1022 ++ (y.take (1022 - x.length) ++
        (make 1024).drop (b0 :: b1 :: (x ++ y)).length)) := by
  have ht : ∀ l : Bytes, (b0 :: b1 :: l).take 1024 = b0 :: b1 :: l.take 1022 := fun _ => rfl
  rw [ReadFromUDP]
  simp only [make_length]
  rw [ht, List.take_append_eq_append_take]
  simp only [List.cons_append, List.append_assoc]

/-- The request buffer of `Initialize` for an encoded request: the decoded filename does
not depend on the mode. -/
theorem decode_requestBuf_encoded (opcode : Nat) (fn mode : Bytes) :
    ∃ m, decodeRRQWRQ (ReadFromUDP (.dgram (encodeRRQWRQ opcode fn mode)) (make 1024)).1 =
      some { Opcode := uint16 opcode,
             Filename := (ReadString 0 ((fn ++ [0]).take 1022)).1, Mode := m } := by
  have hu : uint16 opcode < 65536 := Nat.mod_lt _ (by decide)
  have e : encodeRRQWRQ opcode fn mode =
      byte (uint16 opcode / 256) :: byte (uint16 opcode) :: ((fn ++ [0]) ++ (mode ++ [0])) := by
    simp [encodeRRQWRQ, PutUint16]
  rw [e, recvBuf_cons_cons, decode_eq]
  have hor : (0 : Byte) ∈ (fn ++ [0]).take 1022 ∨
      ((mode ++ [0]).take (1022 - (fn ++ [0]).length) ++
          (make 1024).drop (byte (uint16 opcode / 256) :: byte (uint16 opcode) ::
            ((fn ++ [0]) ++ (mode ++ [0]))).length) = [] := by
    by_cases hl : (fn ++ [0]).length ≤ 1022
    · left
      rw [List.take_of_length_le hl]
      simp
    · right
      have h1 : 1022 - (fn ++ [0]).length = 0 := by omega
      have h2 : (make 1024).length ≤ (byte (uint16 opcode / 256) :: byte (uint16 opcode) ::
            ((fn ++ [0]) ++ (mode ++ [0]))).length := by
        rw [make_length]
        simp only [List.length_cons, List.length_append] at hl ⊢
        omega
      rw [h1, List.take_zero, List.nil_append, List.drop_eq_nil_iff]
      exact h2
  rw [readString_append _ _ hor]
  have hv : (byte (uint16 opcode / 256)).val * 256 + (byte (uint16 opcode)).val =
      uint16 opcode := by
    simp only [byte]
    omega
  rw [hv]
  exact ⟨_, rfl⟩

/-- The first events of `ProcessRRQRequest`: the file-open call on the filename without
its last byte. -/
theorem processRRQ_opened (fs : Bytes → Option File) (filename : Bytes) (net : Net)
    (hne : filename ≠ []) :
    ∃ tail, (ProcessRRQRequest fs filename net).trace =
      .opened (filename.take (filename.length - 1))
        (fs (filename.take (filename.length - 1))).isSome :: tail := by
  have hl : filename.length ≠ 0 := fun e => hne (List.length_eq_zero.mp e)
  cases hfs : fs (filename.take (filename.length - 1)) with
  | none => exact ⟨checkErrorEvents, by simp [ProcessRRQRequest, hl, hfs]⟩
  | some file =>
    rw [processRRQ_open fs filename net file hne hfs]
    split
    · exact ⟨_, rfl⟩
    · exact ⟨_, rfl⟩

theorem wireBlock_lt (d : Bytes) : wireBlock d < 65536 := by
  have h2 := (d.getD 2 0).isLt
  have h3 := (d.getD 3 0).isLt
  simp only [wireBlock]
  omega

theorem wireBlock_ackOnly (d : Bytes) : wireBlock (ackOnly d) = wireBlock d := by
  have h := wireBlock_lt d
  simp only [ackOnly, PutUint16, wireBlock, byte, List.cons_append, List.nil_append,
    List.getD_cons_succ, List.getD_cons_zero] at h ⊢
  omega

theorem wireOpcode_ackOnly (d : Bytes) : wireOpcode (ackOnly d) = ACK := by
  simp [ackOnly, PutUint16, wireOpcode, byte, ACK]
  rfl

theorem ackOnly_out (r : Run) : r.ackOnly.out = r.out := rfl

theorem ackOnly_after (es : List Event) (r : Run) :
    (r.after es).ackOnly = r.ackOnly.after (es.map ackOnlyEvent) := by
  simp [Run.ackOnly, Run.after]

theorem ackLoop_ackOnly (p : Bytes) (b : Nat) (inbox : List Recv) (sf : Option Nat) :
    ackLoop p b (inbox.map ackOnlyRecv) sf = (ackLoop p b inbox sf).ackOnly := by
  induction inbox generalizing sf with
  | nil => simp [ackLoop, Run.ackOnly]
  | cons r inbox ih =>
    cases r with
    | error =>
      simp only [List.map_cons, ackOnlyRecv, ackLoop_error]
      simp [Run.ackOnly, checkErrorEvents, ackOnlyEvent, ackOnlyRecv]
    | dgram d =>
      simp only [List.map_cons, ackOnlyRecv, ackLoop_dgram_gen, wireBlock_ackOnly]
      split
      · split
        · simp [Run.ackOnly, checkErrorEvents, ackOnlyEvent, ackOnlyRecv]
        · rw [ih, ackOnly_after]
          simp [ackOnlyEvent, ackOnlyRecv]
      · simp [Run.ackOnly, ackOnlyEvent, ackOnlyRecv]

theorem sendBlock_ackOnly (op : Bytes) (b : Nat) (r : ReadResult) (inbox : List Recv)
    (sf : Option Nat) :
    sendBlock op b r { inbox := inbox.map ackOnlyRecv, sendFail := sf } =
      (sendBlock op b r { inbox := inbox, sendFail := sf }).ackOnly := by
  simp only [sendBlock_eq_gen]
  split
  · simp [Run.ackOnly, checkErrorEvents, ackOnlyEvent]
  · rw [ackLoop_ackOnly, ackOnly_after]
    simp [ackOnlyEvent]

theorem blockLoop_ackOnly (op : Bytes) (f : File) (b : Nat) (inbox : List Recv)
    (sf : Option Nat) :
    blockLoop op f b { inbox := inbox.map ackOnlyRecv, sendFail := sf } =
      (blockLoop op f b { inbox := inbox, sendFail := sf }).ackOnly := by
  induction f generalizing b inbox sf with
  | nil => simp only [blockLoop_nil, sendBlock_ackOnly]
  | cons r f ih =>
    have hs := sendBlock_ackOnly op (b + 1) r inbox sf
    by_cases hr : (sendBlock op (b + 1) r { inbox := inbox, sendFail := sf }).out = .ret ()
    · have hr' : (sendBlock op (b + 1) r
          { inbox := inbox.map ackOnlyRecv, sendFail := sf }).out = .ret () := by
        rw [hs, ackOnly_out]; exact hr
      rw [blockLoop_cons_ret _ _ _ _ _ hr, blockLoop_cons_ret _ _ _ _ _ hr']
      split
      · exact hs
      · rw [ackOnly_after, hs]
        generalize sendBlock op (b + 1) r { inbox := inbox, sendFail := sf } = run
        obtain ⟨t, o, ⟨ib, sf2⟩⟩ := run
        exact congrArg (Run.after _) (ih (b + 1) ib sf2)
    · have hr' : (sendBlock op (b + 1) r
          { inbox := inbox.map ackOnlyRecv, sendFail := sf }).out ≠ .ret () := by
        rw [hs, ackOnly_out]; exact hr
      rw [blockLoop_cons_stop _ _ _ _ _ hr, blockLoop_cons_stop _ _ _ _ _ hr']
      exact hs

theorem processRRQ_ackOnly (fs : Bytes → Option File) (filename : Bytes) (inbox : List Recv)
    (sf : Option Nat) :
    ProcessRRQRequest fs filename { inbox := inbox.map ackOnlyRecv, sendFail := sf } =
      (ProcessRRQRequest fs filename { inbox := inbox, sendFail := sf }).ackOnly := by
  by_cases hne : filename = []
  · subst hne
    simp [ProcessRRQRequest, Run.ackOnly]
  · have hl : filename.length ≠ 0 := fun e => hne (List.length_eq_zero.mp e)
    cases hfs : fs (filename.take (filename.length - 1)) with
    | none =>
      simp [ProcessRRQRequest, hl, hfs, Run.ackOnly, checkErrorEvents, ackOnlyEvent]
    | some file =>
      rw [processRRQ_open fs filename _ file hne hfs, processRRQ_open fs filename _ file hne hfs,
        blockLoop_ackOnly]
      by_cases hr : (blockLoop [0, 3] file 0 { inbox := inbox, sendFail := sf }).out = .ret ()
      · have hr' : (blockLoop [0, 3] file 0
            { inbox := inbox, sendFail := sf }).ackOnly.out = .ret () := hr
        rw [if_pos hr, if_pos hr']
        simp [Run.ackOnly, ackOnlyEvent]
      · have hr' : (blockLoop [0, 3] file 0
            { inbox := inbox, sendFail := sf }).ackOnly.out ≠ .ret () := hr
        rw [if_neg hr, if_neg hr', ackOnly_after]
        simp [ackOnlyEvent]

theorem sendsOf_ackOnly (t : List Event) : sendsOf (t.map ackOnlyEvent) = sendsOf t := by
  induction t with
  | nil => rfl
  | cons e t ih =>
    cases e <;> simp [ackOnlyEvent, sendsOf, ih]

theorem ackLoop_block_ack (p : Bytes) (b : Nat) (pre : List Recv) (d : Bytes)
    (h : (ackLoop p b pre none).out = .block) (hd : wireBlock d = b) :
    ackLoop p b (pre ++ [.dgram d]) none =
      { trace := (ackLoop p b pre none).trace ++ [.received (.dgram d)], out := .ret (),
        net := { inbox := [], sendFail := none } } := by
  induction pre with
  | nil =>
    rw [List.nil_append, ackLoop_dgram, if_neg (by simpa using hd)]
    simp [ackLoop]
  | cons r pre ih =>
    cases r with
    | error => simp [ackLoop_error] at h
    | dgram x =>
      simp only [List.cons_append]
      rw [ackLoop_dgram] at h ⊢
      rw [ackLoop_dgram]
      split at h
      · rename_i hx
        rw [if_pos hx, if_pos hx, ih (by simpa using h)]
        simp [Run.after]
      · simp at h

theorem sendBlock_block_ack (op : Bytes) (b : Nat) (r : ReadResult) (pre : List Recv)
    (d : Bytes) (h : (sendBlock op b r { inbox := pre, sendFail := none }).out = .block)
    (hd : wireBlock d = b) :
    sendBlock op b r { inbox := pre ++ [.dgram d], sendFail := none } =
      { trace := (sendBlock op b r { inbox := pre, sendFail := none }).trace ++
          [.received (.dgram d)],
        out := .ret (), net := { inbox := [], sendFail := none } } := by
  rw [sendBlock_eq] at h ⊢
  rw [sendBlock_eq, ackLoop_block_ack _ _ _ _ (by simpa using h) hd]
  simp [Run.after]

/-- With nothing to receive, the block loop sends one Data packet and waits. -/
theorem blockLoop_empty (op : Bytes) (f : File) (b : Nat) :
    blockLoop op f b { inbox := [], sendFail := none } =
      { trace := [.read (readData (f.headD eofRead)).length,
          .sent (b + 1) (dataPayload op (b + 1) (readData (f.headD eofRead)))],
        out := .block, net := { inbox := [], sendFail := none } } := by
  have hs : ∀ r, sendBlock op (b + 1) r { inbox := [], sendFail := none } =
      { trace := [.read (readData r).length,
          .sent (b + 1) (dataPayload op (b + 1) (readData r))],
        out := .block, net := { inbox := [], sendFail := none } } := by
    intro r
    rw [sendBlock_eq]
    simp [ackLoop, Run.after]
  cases f with
  | nil => rw [blockLoop_nil, hs]; rfl
  | cons r f =>
    rw [blockLoop_cons_stop _ _ _ _ _ (by rw [hs]; simp), hs]
    rfl

/-- A blocked block loop waits for the acknowledgment of its last Data packet; a datagram
carrying that block number ends the transfer when the packet was short, and otherwise
makes the loop read and send the next block. -/
theorem blockLoop_block_ack (op : Bytes) (f : File) (b : Nat) (pre : List Recv)
    (h : (blockLoop op f b { inbox := pre, sendFail := none }).out = .block) :
    ∃ k data next, data.length ≤ 512 ∧
      (sentOf (blockLoop op f b { inbox := pre, sendFail := none }).trace).getLast?
        = some (k, dataPayload op k data) ∧
      ∀ d : Bytes, wireBlock d = k →
        blockLoop op f b { inbox := pre ++ [.dgram d], sendFail := none } =
          if data.length < 512 then
            { trace := (blockLoop op f b { inbox := pre, sendFail := none }).trace ++
                [.received (.dgram d)],
              out := .ret (), net := { inbox := [], sendFail := none } }
          else
            { trace := (blockLoop op f b { inbox := pre, sendFail := none }).trace ++
                [.received (.dgram d), .read next.length,
                  .sent (k + 1) (dataPayload op (k + 1) next)],
              out := .block, net := { inbox := [], sendFail := none } } := by
  induction f generalizing b pre with
  | nil =>
    rw [blockLoop_nil] at h ⊢
    refine ⟨b + 1, readData eofRead, [], readData_length_le _, by simp [sendBlock_sentOf], ?_⟩
    intro d hd
    rw [blockLoop_nil, sendBlock_block_ack op (b + 1) eofRead pre d h hd,
      if_pos (by simp [readData, eofRead])]
  | cons r f ih =>
    by_cases hout : (sendBlock op (b + 1) r { inbox := pre, sendFail := none }).out = .ret ()
    · rw [blockLoop_cons_ret _ _ _ _ _ hout] at h ⊢
      by_cases hlt : (readData r).length < 512
      · rw [if_pos hlt, hout] at h
        cases h
      · rw [if_neg hlt] at h ⊢
        have hnet : (sendBlock op (b + 1) r { inbox := pre, sendFail := none }).net =
            { inbox := (sendBlock op (b + 1) r { inbox := pre, sendFail := none }).net.inbox,
              sendFail := none } := by
          have := sendBlock_sendFail_none op (b + 1) r pre
          cases hn : (sendBlock op (b + 1) r { inbox := pre, sendFail := none }).net
          rw [hn] at this
          simp at this
          simp [this]
        rw [hnet] at h ⊢
        obtain ⟨k, data, next, hle, hlast, hext⟩ := ih (b + 1) _ (by simpa using h)
        refine ⟨k, data, next, hle, ?_, ?_⟩
        · simp only [after_trace, sentOf_append, sendBlock_sentOf]
          rw [List.getLast?_append, hlast]
          rfl
        · intro d hd
          have ho : (sendBlock op (b + 1) r
              { inbox := pre ++ [.dgram d], sendFail := none }).out = .ret () := by
            rw [sendBlock_ret_append op (b + 1) r pre _ hout]
            simpa [Run.addInbox] using hout
          rw [blockLoop_cons_ret _ _ _ _ _ ho, if_neg hlt,
            sendBlock_ret_append op (b + 1) r pre _ hout]
          have hn2 : ((sendBlock op (b + 1) r { inbox := pre, sendFail := none }).addInbox
              [.dgram d]).net =
              { inbox := (sendBlock op (b + 1) r { inbox := pre, sendFail := none }).net.inbox
                  ++ [.dgram d], sendFail := none } := by
            rw [Run.addInbox]
            simp only
            rw [hnet]
          rw [hn2, hext d hd]
          split <;> simp [Run.after, Run.addInbox]
    · rw [blockLoop_cons_stop _ _ _ _ _ hout] at h ⊢
      refine ⟨b + 1, readData r, readData (f.headD eofRead), readData_length_le _,
        by simp [sendBlock_sentOf], ?_⟩
      intro d hd
      have hb := sendBlock_block_ack op (b + 1) r pre d h hd
      have ho : (sendBlock op (b + 1) r
          { inbox := pre ++ [.dgram d], sendFail := none }).out = .ret () := by
        rw [hb]
      rw [blockLoop_cons_ret _ _ _ _ _ ho, hb]
      split
      · rfl
      · simp only [blockLoop_empty]
        simp [Run.after]

theorem readsOf_append (s t : List Event) : readsOf (s ++ t) = readsOf s ++ readsOf t := by
  induction s with
  | nil => rfl
  | cons e s ih => cases e <;> simp [readsOf, ih]

theorem readsOf_retransmissions (b : Nat) (p : Bytes) (ds : List Bytes) :
    readsOf (retransmissions b p ds) = [] := by
  induction ds with
  | nil => rfl
  | cons d ds ih =>
    have : retransmissions b p (d :: ds) =
        .received (.dgram d) :: .resent b p :: retransmissions b p ds := by
      simp [retransmissions]
    rw [this]
    simpa [readsOf] using ih

theorem sentOf_ackedBlocks (op : Bytes) (b : Nat) (rs : List ReadResult)
    (segs : List (List Bytes × Bytes)) (h : segs.length = rs.length) :
    sentOf (ackedBlocks op b rs segs) = readPackets op b rs := by
  induction rs generalizing b segs with
  | nil => cases segs <;> rfl
  | cons r rs ih =>
    match segs, h with
    | s :: segs, h =>
      simp only [ackedBlocks, readPackets, sentOf_read, sentOf_sent, sentOf_append,
        sentOf_retransmissions, sentOf_received, List.nil_append]
      rw [ih (b + 1) segs (by simpa using h)]

theorem readsOf_ackedBlocks (op : Bytes) (b : Nat) (rs : List ReadResult)
    (segs : List (List Bytes × Bytes)) (h : segs.length = rs.length) :
    readsOf (ackedBlocks op b rs segs) = rs.map fun r => (readData r).length := by
  induction rs generalizing b segs with
  | nil => cases segs <;> rfl
  | cons r rs ih =>
    match segs, h with
    | s :: segs, h =>
      simp only [ackedBlocks, readsOf, readsOf_append, readsOf_retransmissions,
        List.nil_append, List.map_cons]
      rw [ih (b + 1) segs (by simpa using h)]

theorem readPackets_length (op : Bytes) (b : Nat) (rs : List ReadResult) :
    (readPackets op b rs).length = rs.length := by
  induction rs generalizing b with
  | nil => rfl
  | cons r rs ih => simp [readPackets, ih]

theorem readPackets_fst (op : Bytes) (b : Nat) (rs : List ReadResult) :
    ∀ x ∈ readPackets op b rs, b ≤ x.1 ∧ x.1 < b + rs.length := by
  induction rs generalizing b with
  | nil => simp [readPackets]
  | cons r rs ih =>
    intro x hx
    simp only [readPackets, List.mem_cons] at hx
    rcases hx with h | h
    · subst h
      simp
    · have := ih (b + 1) x h
      simp only [List.length_cons]
      omega

/-- The reads `pre`, all of 512 bytes and all acknowledged, take the block loop to the
next read with the counter advanced by their number. -/
theorem blockLoop_acked_blocks (op : Bytes) (pre f : File) (b : Nat)
    (segs : List (List Bytes × Bytes)) (rest : List Recv)
    (hfull : ∀ x ∈ pre, (readData x).length = 512) (hlen : segs.length = pre.length)
    (hack : Acknowledges (b + 1) segs) (hb : b + pre.length ≤ 65535) :
    blockLoop op (pre ++ f) b { inbox := ackInbox segs ++ rest, sendFail := none } =
      (blockLoop op f (b + pre.length) { inbox := rest, sendFail := none }).after
        (ackedBlocks op (b + 1) pre segs) := by
  induction pre generalizing b segs with
  | nil =>
    match segs, hlen with
    | [], _ => simp [ackInbox, ackedBlocks, after_nil]
  | cons r pre ih =>
    match segs, hlen with
    | (skips, ack) :: segs, hlen =>
      obtain ⟨hs, ha, hrest⟩ := hack
      simp only [List.length_cons] at hb hlen
      have hu : uint16 (b + 1) = b + 1 := Nat.mod_eq_of_lt (by omega)
      rw [hu] at hs ha
      have hin : ackInbox ((skips, ack) :: segs) ++ rest =
          (skips ++ [ack]).map .dgram ++ (ackInbox segs ++ rest) := by
        simp [ackInbox]
      have hsb := sendBlock_acked op (b + 1) r skips ack (ackInbox segs ++ rest) hs ha
      have hret : (sendBlock op (b + 1) r
          { inbox := (skips ++ [ack]).map .dgram ++ (ackInbox segs ++ rest),
            sendFail := none }).out = .ret () := by
        rw [hsb]
      have hl : ¬ (readData r).length < 512 := by
        rw [hfull r (by simp)]
        decide
      rw [hin, List.cons_append, blockLoop_cons_ret _ _ _ _ _ hret, if_neg hl, hsb]
      simp only
      rw [ih (b + 1) segs (fun x hx => hfull x (by simp [hx])) (by omega) hrest (by omega),
        after_after]
      have e : b + 1 + pre.length = b + (pre.length + 1) := by omega
      rw [e]
      simp [ackedBlocks]

/-- The reads `pre`, all of 512 bytes, then a shorter read `r`, all acknowledged: the block
loop returns after the packet of `r`; what the file would deliver after it is never
read. -/
theorem blockLoop_acked_short (op : Bytes) (pre : File) (r : ReadResult) (rest : File)
    (b : Nat) (segs : List (List Bytes × Bytes)) (tail : List Recv)
    (hfull : ∀ x ∈ pre, (readData x).length = 512) (hshort : (readData r).length < 512)
    (hlen : segs.length = pre.length + 1)
    (hack : Acknowledges (b + 1) segs) (hb : b + pre.length + 1 ≤ 65535) :
    blockLoop op (pre ++ r :: rest) b { inbox := ackInbox segs ++ tail, sendFail := none } =
      { trace := ackedBlocks op (b + 1) (pre ++ [r]) segs, out := .ret (),
        net := { inbox := tail, sendFail := none } } := by
  induction pre generalizing b segs with
  | nil =>
    match segs, hlen with
    | [(skips, ack)], _ =>
      obtain ⟨hs, ha, -⟩ := hack
      simp only [List.length_nil] at hb
      have hu : uint16 (b + 1) = b + 1 := Nat.mod_eq_of_lt (by omega)
      rw [hu] at hs ha
      have hin : ackInbox [(skips, ack)] ++ tail = (skips ++ [ack]).map .dgram ++ tail := by
        simp [ackInbox]
      have hsb := sendBlock_acked op (b + 1) r skips ack tail hs ha
      have hret : (sendBlock op (b + 1) r
          { inbox := (skips ++ [ack]).map .dgram ++ tail, sendFail := none }).out = .ret () := by
        rw [hsb]
      rw [hin, List.nil_append, blockLoop_cons_ret _ _ _ _ _ hret, if_pos hshort, hsb]
      simp [ackedBlocks]
  | cons x pre ih =>
    match segs, hlen with
    | (skips, ack) :: segs, hlen =>
      obtain ⟨hs, ha, hrest⟩ := hack
      simp only [List.length_cons] at hb hlen
      have hu : uint16 (b + 1) = b + 1 := Nat.mod_eq_of_lt (by omega)
      rw [hu] at hs ha
      have hin : ackInbox ((skips, ack) :: segs) ++ tail =
          (skips ++ [ack]).map .dgram ++ (ackInbox segs ++ tail) := by
        simp [ackInbox]
      have hsb := sendBlock_acked op (b + 1) x skips ack (ackInbox segs ++ tail) hs ha
      have hret : (sendBlock op (b + 1) x
          { inbox := (skips ++ [ack]).map .dgram ++ (ackInbox segs ++ tail),
            sendFail := none }).out = .ret () := by
        rw [hsb]
      have hl : ¬ (readData x).length < 512 := by
        rw [hfull x (by simp)]
        decide
      rw [hin, List.cons_append, blockLoop_cons_ret _ _ _ _ _ hret, if_neg hl, hsb]
      simp only
      rw [ih (b + 1) segs (fun y hy => hfull y (by simp [hy])) (by omega) hrest (by omega)]
      simp [ackedBlocks, Run.after]

theorem ackLoop_ret_last (p : Bytes) (b : Nat) (inbox : List Recv) (sf : Option Nat)
    (h : (ackLoop p b inbox sf).out = .ret ()) :
    ∃ pre d, (ackLoop p b inbox sf).trace = pre ++ [.received (.dgram d)] ∧
      wireBlock d = b := by
  induction inbox generalizing sf with
  | nil => simp [ackLoop] at h
  | cons r inbox ih =>
    cases r with
    | error => simp [ackLoop_error] at h
    | dgram d =>
      rw [ackLoop_dgram_gen] at h ⊢
      by_cases hd : wireBlock d ≠ b
      · rw [if_pos hd] at h ⊢
        by_cases hw : (WriteToUDP sf).1 = true
        · rw [if_pos hw] at h
          simp at h
        · rw [if_neg hw] at h ⊢
          obtain ⟨pre, x, e, hx⟩ := ih _ (by simpa using h)
          exact ⟨[.received (.dgram d), .resent b p] ++ pre, x, by simp [e], hx⟩
      · rw [if_neg hd]
        exact ⟨[], d, rfl, by simpa using hd⟩

theorem sendBlock_ret_last (op : Bytes) (b : Nat) (r : ReadResult) (net : Net)
    (h : (sendBlock op b r net).out = .ret ()) :
    ∃ pre d, (sendBlock op b r net).trace = pre ++ [.received (.dgram d)] ∧ wireBlock d = b ∧
      sentOf (sendBlock op b r net).trace = [(b, dataPayload op b (readData r))] := by
  rw [sendBlock_eq_gen] at h ⊢
  by_cases hw : (WriteToUDP net.sendFail).1 = true
  · rw [if_pos hw] at h
    simp at h
  · rw [if_neg hw] at h ⊢
    obtain ⟨pre, d, e, hd⟩ := ackLoop_ret_last _ _ _ _ (by simpa using h)
    refine ⟨[.read (readData r).length, .sent b (dataPayload op b (readData r))] ++ pre, d,
      by simp [e], hd, ?_⟩
    simp [ackLoop_sentOf]

theorem sendBlock_sentOf_cases (op : Bytes) (b : Nat) (r : ReadResult) (net : Net) :
    sentOf (sendBlock op b r net).trace = [] ∨
    sentOf (sendBlock op b r net).trace = [(b, dataPayload op b (readData r))] := by
  rcases sendBlock_shape op b r net with h | h
  · exact Or.inl h.1
  · exact Or.inr h.1

theorem mem_dropLast_cons {α : Type} (x y : α) (l : List α) (h : y ∈ (x :: l).dropLast) :
    y = x ∨ y ∈ l.dropLast := by
  cases l with
  | nil => simp at h
  | cons a l =>
    rw [List.dropLast_cons₂] at h
    exact List.mem_cons.mp h

/-- The block loop sends no new packet after a short one, and returns only when the last
new packet is short and a datagram carrying its block number is the last event. -/
theorem blockLoop_ends_short (f : File) (b : Nat) (net : Net) :
    (∀ x ∈ (sentOf (blockLoop [0, 3] f b net).trace).dropLast, (dataOf x.2).length = 512) ∧
    ((blockLoop [0, 3] f b net).out = .ret () →
      ∃ pre d k p, (blockLoop [0, 3] f b net).trace = pre ++ [.received (.dgram d)] ∧
        (sentOf (blockLoop [0, 3] f b net).trace).getLast? = some (k, p) ∧
        wireBlock d = k ∧ (dataOf p).length < 512) := by
  have one : ∀ (r : ReadResult) (b : Nat) (net : Net),
      (∀ x ∈ (sentOf (sendBlock [0, 3] b r net).trace).dropLast,
        (dataOf x.2).length = 512) := by
    intro r b net x hx
    rcases sendBlock_sentOf_cases [0, 3] b r net with h | h <;> rw [h] at hx <;> simp at hx
  have two : ∀ (r : ReadResult) (b : Nat) (net : Net), (readData r).length < 512 →
      (sendBlock [0, 3] b r net).out = .ret () →
      ∃ pre d k p, (sendBlock [0, 3] b r net).trace = pre ++ [.received (.dgram d)] ∧
        (sentOf (sendBlock [0, 3] b r net).trace).getLast? = some (k, p) ∧
        wireBlock d = k ∧ (dataOf p).length < 512 := by
    intro r b net hlt h
    obtain ⟨pre, d, e, hd, hs⟩ := sendBlock_ret_last [0, 3] b r net h
    exact ⟨pre, d, b, _, e, by rw [hs]; rfl, hd, by rw [dataOf_dataPayload]; exact hlt⟩
  induction f generalizing b net with
  | nil =>
    rw [blockLoop_nil]
    exact ⟨one _ _ _, two _ _ _ (by simp [readData, eofRead])⟩
  | cons r f ih =>
    by_cases hout : (sendBlock [0, 3] (b + 1) r net).out = .ret ()
    · rw [blockLoop_cons_ret _ _ _ _ _ hout]
      by_cases hlt : (readData r).length < 512
      · rw [if_pos hlt]
        exact ⟨one _ _ _, two _ _ _ hlt⟩
      · rw [if_neg hlt]
        obtain ⟨pre0, d0, e0, hd0, hs0⟩ := sendBlock_ret_last [0, 3] (b + 1) r net hout
        obtain ⟨ih1, ih2⟩ := ih (b + 1) (sendBlock [0, 3] (b + 1) r net).net
        have h512 : (readData r).length = 512 := by
          have := readData_length_le r
          omega
        constructor
        · intro x hx
          simp only [after_trace, sentOf_append, hs0, List.singleton_append] at hx
          rcases mem_dropLast_cons _ _ _ hx with h | h
          · rw [h, dataOf_dataPayload]
            exact h512
          · exact ih1 x h
        · intro hret
          obtain ⟨pre, d, k, p, e, hl, hd, hp⟩ := ih2 (by simpa using hret)
          refine ⟨(sendBlock [0, 3] (b + 1) r net).trace ++ pre, d, k, p, ?_, ?_, hd, hp⟩
          · simp [e]
          · simp only [after_trace, sentOf_append, hs0]
            rw [List.getLast?_append, hl]
            rfl
    · rw [blockLoop_cons_stop _ _ _ _ _ hout]
      exact ⟨one _ _ _, fun h => absurd h hout⟩

/-- The same for `ProcessRRQRequest`, whose return adds the deferred close. -/
theorem processRRQ_ends_short (fs : Bytes → Option File) (filename : Bytes) (net : Net) :
    (∀ x ∈ (sentOf (ProcessRRQRequest fs filename net).trace).dropLast,
      (dataOf x.2).length = 512) ∧
    ((ProcessRRQRequest fs filename net).out = .ret () →
      ∃ pre d k p, (ProcessRRQRequest fs filename net).trace =
          pre ++ [.received (.dgram d), .closed] ∧
        (sentOf (ProcessRRQRequest fs filename net).trace).getLast? = some (k, p) ∧
        wireBlock d = k ∧ (dataOf p).length < 512) := by
  by_cases hne : filename = []
  · subst hne
    simp [ProcessRRQRequest, sentOf]
  · have hl : filename.length ≠ 0 := fun e => hne (List.length_eq_zero.mp e)
    cases hfs : fs (filename.take (filename.length - 1)) with
    | none => simp [ProcessRRQRequest, hl, hfs, checkErrorEvents, sentOf]
    | some file =>
      obtain ⟨e1, -, e3, -⟩ := processRRQ_open_sentOf fs filename net file hne hfs
      obtain ⟨h1, h2⟩ := blockLoop_ends_short file 0 net
      rw [e1, e3]
      refine ⟨h1, ?_⟩
      intro hret
      obtain ⟨pre, d, k, p, e, hl, hd, hp⟩ := h2 hret
      refine ⟨[.opened (filename.take (filename.length - 1)) true, .logInfo] ++ pre, d, k, p,
        ?_, hl, hd, hp⟩
      rw [processRRQ_open fs filename net file hne hfs, if_pos hret, e]
      simp

theorem chunkReads_add (n m : Nat) (c : Bytes) :
    chunkReads (n + m) c = chunkReads n c ++ chunkReads m (c.drop (512 * n)) := by
  induction n generalizing c with
  | zero => simp [chunkReads]
  | succ n ih =>
    have e : n + 1 + m = (n + m) + 1 := by omega
    rw [e]
    simp only [chunkReads, List.cons_append, ih, List.drop_drop]
    have e2 : 512 + 512 * n = 512 * (n + 1) := by omega
    rw [e2]

theorem chunkReads_full (n : Nat) (c : Bytes) (h : 512 * n ≤ c.length) :
    ∀ x ∈ chunkReads n c, (readData x).length = 512 := by
  induction n generalizing c with
  | zero => simp [chunkReads]
  | succ n ih =>
    intro x hx
    simp only [chunkReads, List.mem_cons] at hx
    rcases hx with hx | hx
    · subst hx
      simp only [readData, List.take_take, List.length_take]
      omega
    · exact ih (c.drop 512) (by simp only [List.length_drop]; omega) x hx

theorem chunkReads_length (n : Nat) (c : Bytes) : (chunkReads n c).length = n := by
  induction n generalizing c with
  | zero => rfl
  | succ n ih => simp [chunkReads, ih]

theorem wireBlock_ackPacket (k : Nat) : wireBlock (ackPacket k) = uint16 k := by
  have h : uint16 k < 65536 := Nat.mod_lt _ (by decide)
  simp only [ackPacket, PutUint16, wireBlock, byte, List.cons_append, List.nil_append,
    List.getD_cons_succ, List.getD_cons_zero]
  omega

theorem acknowledges_ackAll (b n : Nat) : Acknowledges b (ackAll b n) := by
  induction n generalizing b with
  | zero => simp [ackAll, Acknowledges]
  | succ n ih =>
    have e : ackAll b (n + 1) = ([], ackPacket b) :: ackAll (b + 1) n := by
      simp [ackAll, List.range'_succ]
    rw [e]
    exact ⟨by simp, wireBlock_ackPacket b, ih (b + 1)⟩

theorem ackAll_length (b n : Nat) : (ackAll b n).length = n := by
  simp [ackAll]

/-- After `N` full blocks, all acknowledged, the block loop sends block `N + 1`; datagrams
carrying another block number make it send that packet again and wait. -/
theorem processRRQ_stuck (fs : Bytes → Option File) (filename c : Bytes)
    (segs : List (List Bytes × Bytes)) (ds : List Bytes) (N : Nat)
    (hname : filename ≠ [])
    (hopen : fs (filename.take (filename.length - 1)) = some (fullReads c))
    (hL : N * 512 ≤ c.length) (hsegs : segs.length = N) (hack : Acknowledges 1 segs)
    (hN : N ≤ 65535) (hds : ∀ d ∈ ds, wireBlock d ≠ N + 1) :
    ProcessRRQRequest fs filename
        { inbox := ackInbox segs ++ ds.map .dgram, sendFail := none } =
      { trace := [.opened (filename.take (filename.length - 1)) true, .logInfo] ++
          ackedBlocks [0, 3] 1 (chunkReads N c) segs ++
          [.read ((c.drop (512 * N)).take 512).length,
            .sent (N + 1) (dataPayload [0, 3] (N + 1) ((c.drop (512 * N)).take 512))] ++
          retransmissions (N + 1) (dataPayload [0, 3] (N + 1) ((c.drop (512 * N)).take 512)) ds,
        out := .block, net := { inbox := [], sendFail := none } } := by
  have hdiv : N ≤ c.length / 512 := by
    rw [Nat.le_div_iff_mul_le (by decide)]
    exact hL
  have ef : fullReads c = chunkReads N c ++
      ({ data := (c.drop (512 * N)).take 512,
         err := if c.drop (512 * N) = [] then some .eof else none } ::
        chunkReads (c.length / 512 - N) ((c.drop (512 * N)).drop 512)) := by
    have e : c.length / 512 + 1 = N + ((c.length / 512 - N) + 1) := by omega
    rw [fullReads, e, chunkReads_add]
    rfl
  have hrd : ∀ (x : Bytes) (e : Option ReadErr),
      readData { data := x.take 512, err := e } = x.take 512 := by
    intro x e
    simp [readData, List.take_take]
  have hsb : sendBlock [0, 3] (N + 1)
      { data := (c.drop (512 * N)).take 512,
        err := if c.drop (512 * N) = [] then some .eof else none }
      { inbox := ds.map .dgram, sendFail := none } =
      { trace := [.read ((c.drop (512 * N)).take 512).length,
          .sent (N + 1) (dataPayload [0, 3] (N + 1) ((c.drop (512 * N)).take 512))] ++
          retransmissions (N + 1)
            (dataPayload [0, 3] (N + 1) ((c.drop (512 * N)).take 512)) ds,
        out := .block, net := { inbox := [], sendFail := none } } := by
    rw [sendBlock_eq, hrd]
    have := ackLoop_skip (dataPayload [0, 3] (N + 1) ((c.drop (512 * N)).take 512)) (N + 1)
      ds [] hds
    rw [List.append_nil] at this
    rw [this]
    simp [ackLoop, Run.after]
  have hbl := blockLoop_acked_blocks [0, 3] (chunkReads N c)
    ({ data := (c.drop (512 * N)).take 512,
       err := if c.drop (512 * N) = [] then some .eof else none } ::
      chunkReads (c.length / 512 - N) ((c.drop (512 * N)).drop 512)) 0 segs (ds.map .dgram)
    (chunkReads_full N c (by omega)) (by rw [chunkReads_length, hsegs]) hack
    (by rw [chunkReads_length]; omega)
  have hstop : (sendBlock [0, 3] (N + 1)
      { data := (c.drop (512 * N)).take 512,
        err := if c.drop (512 * N) = [] then some .eof else none }
      { inbox := ds.map .dgram, sendFail := none }).out ≠ .ret () := by
    rw [hsb]
    simp
  rw [chunkReads_length] at hbl
  simp only [Nat.zero_add] at hbl
  rw [blockLoop_cons_stop _ _ _ _ _ hstop, hsb] at hbl
  rw [processRRQ_open fs filename _ _ hname hopen, ef, hbl]
  simp [Run.after]

/-! ## The claims -/

/-- C1: a file of `L < 65535 * 512` bytes, read in full reads and with every block
acknowledged in turn, is sent as exactly `L / 512 + 1 = ceil((L + 1) / 512)` distinct
Data packets, blocks `1, 2, ...`; the last one carries `L mod 512` payload bytes; every
other datagram sent is a copy of one of them. -/
theorem rrq_sends_ceil_blocks (fs : Bytes → Option File) (filename c : Bytes)
    (segs : List (List Bytes × Bytes)) (rest : List Recv)
    (hname : filename ≠ [])
    (hopen : fs (filename.take (filename.length - 1)) = some (fullReads c))
    (hL : c.length < 65535 * 512)
    (hsegs : segs.length = c.length / 512 + 1)
    (hack : Acknowledges 1 segs) :
    (ProcessRRQRequest fs filename { inbox := ackInbox segs ++ rest, sendFail := none }).out
      = .ret () ∧
    sentOf (ProcessRRQRequest fs filename
      { inbox := ackInbox segs ++ rest, sendFail := none }).trace
      = dataPackets [0, 3] (c.length / 512 + 1) 1 c ∧
    (sentOf (ProcessRRQRequest fs filename
      { inbox := ackInbox segs ++ rest, sendFail := none }).trace).length
      = c.length / 512 + 1 ∧
    c.length / 512 + 1 = (c.length + 1 + 511) / 512 ∧
    ((sentOf (ProcessRRQRequest fs filename
      { inbox := ackInbox segs ++ rest, sendFail := none }).trace).map Prod.snd).Nodup ∧
    (∀ x ∈ sendsOf (ProcessRRQRequest fs filename
      { inbox := ackInbox segs ++ rest, sendFail := none }).trace,
      x ∈ sentOf (ProcessRRQRequest fs filename
        { inbox := ackInbox segs ++ rest, sendFail := none }).trace) ∧
    (∃ p, (sentOf (ProcessRRQRequest fs filename
        { inbox := ackInbox segs ++ rest, sendFail := none }).trace).head? = some (1, p)) ∧
    ∃ p, (sentOf (ProcessRRQRequest fs filename
        { inbox := ackInbox segs ++ rest, sendFail := none }).trace).getLast?
        = some (c.length / 512 + 1, p) ∧
      (dataOf p).length = c.length % 512 := by
  obtain ⟨h1, -, h3, h4⟩ := processRRQ_full fs filename c segs rest hname hopen hL hsegs hack
  rw [h3]
  refine ⟨h1, rfl, dataPackets_length _ _ _ _, by omega,
    dataPackets_nodup _ _ _ (by omega), h4, ⟨_, rfl⟩, ?_⟩
  refine ⟨dataPayload [0, 3] (1 + c.length / 512)
    ((c.drop (512 * (c.length / 512))).take 512), ?_, ?_⟩
  · rw [dataPackets_getLast, Nat.add_comm 1]
  · rw [dataOf_dataPayload]
    simp only [List.length_take, List.length_drop]
    have := Nat.div_add_mod c.length 512
    have := Nat.mod_lt c.length (show 0 < 512 by decide)
    omega

/-- C1 at a file of 512 bytes whose second block is acknowledged after a stray datagram. -/
theorem rrq_sends_ceil_blocks_witness :
    (ProcessRRQRequest (oneFile (List.replicate 512 7)) [97, 0]
      { inbox := ackInbox [([], [0, 4, 0, 1]), ([[0, 4, 0, 1]], [0, 4, 0, 2])] ++ [],
        sendFail := none }).out = .ret () ∧
    sentOf (ProcessRRQRequest (oneFile (List.replicate 512 7)) [97, 0]
      { inbox := ackInbox [([], [0, 4, 0, 1]), ([[0, 4, 0, 1]], [0, 4, 0, 2])] ++ [],
        sendFail := none }).trace =
      dataPackets [0, 3] ((List.replicate 512 (7 : Byte)).length / 512 + 1) 1
        (List.replicate 512 7) :=
  (fun w => ⟨w.1, w.2.1⟩)
    (rrq_sends_ceil_blocks (oneFile (List.replicate 512 7)) [97, 0] (List.replicate 512 7)
      [([], [0, 4, 0, 1]), ([[0, 4, 0, 1]], [0, 4, 0, 2])] [] (by decide) rfl
      (by rw [List.length_replicate]; decide) (by rw [List.length_replicate]; rfl)
      (by simp [Acknowledges, wireBlock, uint16]))

/-- C2: under the same assumptions the payloads of the Data packets, taken in the order
of their block numbers `1, 2, ...`, concatenate to the file; every packet but the last
carries 512 payload bytes and the last one carries fewer. -/
theorem rrq_payloads_reassemble_file (fs : Bytes → Option File) (filename c : Bytes)
    (segs : List (List Bytes × Bytes)) (rest : List Recv)
    (hname : filename ≠ [])
    (hopen : fs (filename.take (filename.length - 1)) = some (fullReads c))
    (hL : c.length < 65535 * 512)
    (hsegs : segs.length = c.length / 512 + 1)
    (hack : Acknowledges 1 segs) :
    ((sentOf (ProcessRRQRequest fs filename
      { inbox := ackInbox segs ++ rest, sendFail := none }).trace).map
        fun x => dataOf x.2).flatten = c ∧
    (sentOf (ProcessRRQRequest fs filename
      { inbox := ackInbox segs ++ rest, sendFail := none }).trace).map Prod.fst
      = List.range' 1 (c.length / 512 + 1) ∧
    (∀ x ∈ (sentOf (ProcessRRQRequest fs filename
      { inbox := ackInbox segs ++ rest, sendFail := none }).trace).dropLast,
      (dataOf x.2).length = 512) ∧
    ∀ x ∈ (sentOf (ProcessRRQRequest fs filename
      { inbox := ackInbox segs ++ rest, sendFail := none }).trace).getLast?,
      (dataOf x.2).length < 512 := by
  obtain ⟨-, -, h3, -⟩ := processRRQ_full fs filename c segs rest hname hopen hL hsegs hack
  rw [h3]
  have hdm := Nat.div_add_mod c.length 512
  have hml := Nat.mod_lt c.length (show 0 < 512 by decide)
  refine ⟨?_, dataPackets_fst _ _ _ _, dataPackets_dropLast _ _ _ (by omega), ?_⟩
  · rw [dataPackets_data]
    exact List.take_of_length_le (by omega)
  · intro x hx
    rw [dataPackets_getLast] at hx
    simp only [Option.mem_def, Option.some.injEq] at hx
    subst hx
    rw [dataOf_dataPayload]
    simp only [List.length_take, List.length_drop]
    omega

/-- C2 at a file of 3 bytes whose block is acknowledged after a stray datagram. -/
theorem rrq_payloads_reassemble_file_witness :
    ((sentOf (ProcessRRQRequest (oneFile [1, 2, 3]) [97, 0]
      { inbox := ackInbox [([[0, 4, 0, 0]], [0, 4, 0, 1])] ++ [],
        sendFail := none }).trace).map fun x => dataOf x.2).flatten = [1, 2, 3] :=
  (rrq_payloads_reassemble_file (oneFile [1, 2, 3]) [97, 0] [1, 2, 3]
    [([[0, 4, 0, 0]], [0, 4, 0, 1])] [] (by decide) rfl (by decide) (by decide)
    (by simp [Acknowledges, wireBlock, uint16])).1

/-- C3: every datagram `ProcessRRQRequest` sends under block counter `b` is the bytes
`0x00, 0x03, (b mod 65536) / 256, (b mod 65536) mod 256` followed by the bytes that the
`b`-th read of the file delivered (at most 512), so its length is 4 plus their number;
the opcode bytes are `0x00, 0x03` for every block. -/
theorem rrq_datagram_layout (fs : Bytes → Option File) (filename : Bytes) (net : Net)
    (file : File) (b : Nat) (p : Bytes)
    (hopen : fs (filename.take (filename.length - 1)) = some file)
    (hsent : (b, p) ∈ sendsOf (ProcessRRQRequest fs filename net).trace) :
    1 ≤ b ∧
    (readData (file.getD (b - 1) eofRead)).length ≤ 512 ∧
    p.map Fin.val = [0, 3, (b % 65536) / 256, (b % 65536) % 256] ++
      (readData (file.getD (b - 1) eofRead)).map Fin.val ∧
    p.length = 4 + (readData (file.getD (b - 1) eofRead)).length ∧
    p.take 2 = [0, 3] := by
  rcases processRRQ_sends fs filename net with ⟨-, h⟩ | ⟨file', hopen', -, h⟩
  · rw [h] at hsent; cases hsent
  · rw [hopen] at hopen'
    cases hopen'
    rw [h] at hsent
    obtain ⟨h1, h2⟩ := blockLoop_sendsOf [0, 3] file 0 net (b, p) hsent
    simp only [Nat.sub_zero] at h2
    refine ⟨h1, readData_length_le _, ?_, ?_, ?_⟩
    · rw [h2, dataPayload_vals]
    · rw [h2, dataPayload_length]
    · rw [h2]; simp [dataPayload]

set_option maxRecDepth 100000 in
/-- C3 at the first datagram of a file of 3 bytes. -/
theorem rrq_datagram_layout_witness :
    ([0, 3, 0, 1, 1, 2, 3] : Bytes).map Fin.val = [0, 3, (1 % 65536) / 256, (1 % 65536) % 256] ++
      (readData ((fullReads [1, 2, 3]).getD (1 - 1) eofRead)).map Fin.val :=
  (rrq_datagram_layout (oneFile [1, 2, 3]) [97, 0] { inbox := [], sendFail := none }
    (fullReads [1, 2, 3]) 1 [0, 3, 0, 1, 1, 2, 3] rfl (by decide)).2.2.1

/-- C4: whenever `ProcessRRQRequest` waits for the acknowledgment of block `b`, having
sent the Data packet `p` for it, and the next `k` datagrams carry a block number other
than `b`, it sends `p` again exactly once per datagram, byte for byte, reads nothing from
the file, and goes on waiting for block `b`; `k` is arbitrary. -/
theorem rrq_retransmits_unchanged (fs : Bytes → Option File) (filename : Bytes)
    (pre : List Recv) (ds : List Bytes) (b : Nat) (p : Bytes)
    (hwait : (ProcessRRQRequest fs filename { inbox := pre, sendFail := none }).out = .block)
    (hcur : (sentOf (ProcessRRQRequest fs filename
      { inbox := pre, sendFail := none }).trace).getLast? = some (b, p))
    (hds : ∀ d ∈ ds, wireBlock d ≠ b) :
    ProcessRRQRequest fs filename { inbox := pre ++ ds.map .dgram, sendFail := none } =
      { trace := (ProcessRRQRequest fs filename { inbox := pre, sendFail := none }).trace ++
          retransmissions b p ds,
        out := .block, net := { inbox := [], sendFail := none } } := by
  obtain ⟨hne, file, hopen, hb⟩ := processRRQ_block fs filename _ hwait
  obtain ⟨k, q, hlast, hext⟩ := blockLoop_block_skip [0, 3] file 0 pre hb
  have hnr : ¬ (blockLoop [0, 3] file 0 { inbox := pre, sendFail := none }).out = .ret () := by
    rw [hb]; simp
  have e1 := processRRQ_open fs filename { inbox := pre, sendFail := none } file hne hopen
  rw [if_neg hnr] at e1
  rw [e1] at hcur ⊢
  simp only [after_trace, sentOf_append] at hcur
  have h0 : sentOf [Event.opened (filename.take (filename.length - 1)) true, Event.logInfo]
      = [] := rfl
  rw [h0, List.nil_append, hlast] at hcur
  cases hcur
  rw [processRRQ_open fs filename _ file hne hopen, hext ds hds]
  simp [Run.after]

set_option maxRecDepth 100000 in
/-- C4 at two acknowledgments for block 0 arriving after Data block 1. -/
theorem rrq_retransmits_unchanged_witness :
    ProcessRRQRequest (oneFile [1, 2, 3]) [97, 0]
      { inbox := [] ++ [[0, 4, 0, 0], [0, 4, 0, 0]].map .dgram, sendFail := none } =
      { trace := (ProcessRRQRequest (oneFile [1, 2, 3]) [97, 0]
            { inbox := [], sendFail := none }).trace ++
          retransmissions 1 [0, 3, 0, 1, 1, 2, 3] [[0, 4, 0, 0], [0, 4, 0, 0]],
        out := .block, net := { inbox := [], sendFail := none } } :=
  rrq_retransmits_unchanged (oneFile [1, 2, 3]) [97, 0] [] [[0, 4, 0, 0], [0, 4, 0, 0]] 1
    [0, 3, 0, 1, 1, 2, 3] (by decide) (by decide) (by decide)

/-- C5: as long as the session has no more than 65535 blocks, the new Data packets carry
the wire block numbers 1, 2, 3, ... in this order, and over all datagrams sent (new and
repeated) the wire block number starts at 1, never decreases and never skips a value. -/
theorem rrq_block_numbers_consecutive (fs : Bytes → Option File) (filename : Bytes)
    (net : Net)
    (hblocks : (sentOf (ProcessRRQRequest fs filename net).trace).length ≤ 65535) :
    (sentOf (ProcessRRQRequest fs filename net).trace).map (fun x => wireBlock x.2) =
      List.range' 1 (sentOf (ProcessRRQRequest fs filename net).trace).length ∧
    List.Chain' (fun x y => y = x ∨ y = x + 1)
      ((sendsOf (ProcessRRQRequest fs filename net).trace).map fun x => wireBlock x.2) ∧
    ∀ y ∈ ((sendsOf (ProcessRRQRequest fs filename net).trace).map
      fun x => wireBlock x.2).head?, y = 1 := by
  rcases processRRQ_sends fs filename net with ⟨h1, h2⟩ | ⟨file, -, h1, h2⟩
  · rw [h1, h2]; simp
  · rw [h1] at hblocks ⊢
    rw [h2]
    obtain ⟨i1, i2, i3, i4⟩ := blockLoop_counters [0, 3] file 0 net
    have hw : ∀ x ∈ sendsOf (blockLoop [0, 3] file 0 net).trace, wireBlock x.2 = x.1 := by
      intro x hx
      obtain ⟨-, e⟩ := blockLoop_sendsOf [0, 3] file 0 net x hx
      have hb := i2 x hx
      rw [e, wireBlock_dataPayload]
      exact Nat.mod_eq_of_lt (by omega)
    have hsub : ∀ x ∈ sentOf (blockLoop [0, 3] file 0 net).trace,
        x ∈ sendsOf (blockLoop [0, 3] file 0 net).trace := by
      intro x hx
      exact sentOf_subset_sendsOf _ x hx
    have e1 : (sentOf (blockLoop [0, 3] file 0 net).trace).map (fun x => wireBlock x.2) =
        (sentOf (blockLoop [0, 3] file 0 net).trace).map Prod.fst :=
      List.map_congr_left fun x hx => hw x (hsub x hx)
    have e2 : (sendsOf (blockLoop [0, 3] file 0 net).trace).map (fun x => wireBlock x.2) =
        (sendsOf (blockLoop [0, 3] file 0 net).trace).map Prod.fst :=
      List.map_congr_left hw
    rw [e1, e2]
    exact ⟨by simpa using i1, i3, by simpa using i4⟩

set_option maxRecDepth 100000 in
/-- C5 at the transfer of a file of 3 bytes. -/
theorem rrq_block_numbers_consecutive_witness :
    (sentOf (ProcessRRQRequest (oneFile [1, 2, 3]) [97, 0]
      { inbox := [.dgram [0, 4, 0, 1]], sendFail := none }).trace).map
        (fun x => wireBlock x.2) =
      List.range' 1 (sentOf (ProcessRRQRequest (oneFile [1, 2, 3]) [97, 0]
        { inbox := [.dgram [0, 4, 0, 1]], sendFail := none }).trace).length :=
  (rrq_block_numbers_consecutive (oneFile [1, 2, 3]) [97, 0]
    { inbox := [.dgram [0, 4, 0, 1]], sendFail := none } (by decide)).1

/-- C6: stop-and-wait.  In every run of `ProcessRRQRequest` the datagrams sent and the
datagrams received take turns, a send coming first: at every point of the run the number
sent is the number received or one more, it is one more while the transfer waits for an
acknowledgment and equal when the transfer has returned; and a Data packet with block
counter `N + 1` is sent only after packet `N` was sent and a datagram carrying block
number `N` was received after that. -/
theorem rrq_stop_and_wait (fs : Bytes → Option File) (filename : Bytes) (net : Net) :
    (turnAfter true (ioOf (ProcessRRQRequest fs filename net).trace)).isSome ∧
    (∀ pre post, (ProcessRRQRequest fs filename net).trace = pre ++ post →
      (ioOf pre).count true = (ioOf pre).count false ∨
      (ioOf pre).count true = (ioOf pre).count false + 1) ∧
    ((ProcessRRQRequest fs filename net).out = .block →
      (ioOf (ProcessRRQRequest fs filename net).trace).count true =
        (ioOf (ProcessRRQRequest fs filename net).trace).count false + 1) ∧
    ((ProcessRRQRequest fs filename net).out = .ret () →
      (ioOf (ProcessRRQRequest fs filename net).trace).count true =
        (ioOf (ProcessRRQRequest fs filename net).trace).count false) ∧
    ∀ (pre post : List Event) (N : Nat) (p : Bytes),
      (ProcessRRQRequest fs filename net).trace = pre ++ Event.sent (N + 1) p :: post →
      N = 0 ∨ ∃ q d, wireBlock d = N ∧
        List.Sublist [Event.sent N q, Event.received (.dgram d)] pre := by
  have key : ∃ e', turnAfter true (ioOf (ProcessRRQRequest fs filename net).trace) = some e' ∧
      ((ProcessRRQRequest fs filename net).out = .ret () → e' = true) ∧
      ((ProcessRRQRequest fs filename net).out = .block → e' = false) := by
    rcases processRRQ_shape fs filename net with ⟨-, h2, h3, h4⟩ | ⟨file, tail, -, h2, h3, h4⟩
    · exact ⟨true, by rw [h2]; rfl, fun _ => rfl, fun h => absurd h h4⟩
    · obtain ⟨e', i1, i2, i3⟩ := blockLoop_turn [0, 3] file 0 net
      refine ⟨e', ?_, by rw [h4]; exact i2, by rw [h4]; exact i3⟩
      rw [h3]
      simp only [ioOf_append, h2, List.append_nil, List.cons_append, List.nil_append,
        ioOf_opened, ioOf_logInfo]
      exact i1
  obtain ⟨e', k1, k2, k3⟩ := key
  have cnt : ∀ l : List Bool, (turnAfter true l).isSome →
      l.count true = l.count false ∨ l.count true = l.count false + 1 := by
    intro l hl
    cases hl' : turnAfter true l with
    | none => rw [hl'] at hl; simp at hl
    | some e =>
      have := turnAfter_count true e l hl'
      cases e <;> simp at this <;> omega
  refine ⟨by rw [k1]; rfl, ?_, ?_, ?_, ?_⟩
  · intro pre post h
    apply cnt
    apply turnAfter_of_append true (ioOf pre) (ioOf post)
    rw [← ioOf_append, ← h, k1]
    rfl
  · intro h
    have := k3 h
    subst this
    have := turnAfter_count true false _ k1
    simpa using this
  · intro h
    have := k2 h
    subst this
    have := turnAfter_count true true _ k1
    simpa using this
  · intro pre post N p h
    rcases processRRQ_shape fs filename net with ⟨h1, -, -, -⟩ | ⟨file, tail, h1, -, h3, -⟩
    · exact absurd (by rw [h]; simp) (h1 (N + 1) p)
    · rw [h3] at h
      obtain ⟨pre', e1, e2⟩ := split_after_head _ _ pre post (N + 1) p (by simp) h
      obtain ⟨post', e3⟩ := split_before_tail _ tail pre' post (N + 1) p (h1 _ _) e2
      rcases blockLoop_ordered [0, 3] file 0 net pre' post' N p e3 with hN | ⟨-, q, d, hd, hs⟩
      · exact Or.inl hN
      · exact Or.inr ⟨q, d, hd, by rw [e1]; exact hs.trans (List.sublist_append_right _ _)⟩

/-- C7, as stated, fails: the decoded `Filename` of the request `RRQ "a" "o"` is not
`"a"`. -/
theorem roundtrip_filename_keeps_nul :
    ¬ ∃ i, decodeRRQWRQ (encodeRRQWRQ 1 [97] [111]) = some i ∧
      i.Opcode = 1 ∧ i.Filename = [97] ∧ i.Mode = [111] := by
  rintro ⟨i, h, -, hf, -⟩
  have e : decodeRRQWRQ (encodeRRQWRQ 1 [97] [111]) =
      some { Opcode := 1, Filename := [97, 0], Mode := [111, 0] } := by decide
  rw [e] at h
  cases h
  revert hf
  decide

/-- C7, amended: for an opcode in {1, 2} and a filename and mode without NUL byte,
`decodeRRQWRQ` of the wire encoding returns the opcode, and the filename and the mode each
still followed by its terminating NUL byte; dropping that last byte gives them back. -/
theorem decode_encode_roundtrip (opcode : Nat) (filename mode : Bytes)
    (hop : opcode = RRQ ∨ opcode = WRQ)
    (hf : (0 : Byte) ∉ filename) (hm : (0 : Byte) ∉ mode) :
    decodeRRQWRQ (encodeRRQWRQ opcode filename mode) =
      some { Opcode := opcode, Filename := filename ++ [0], Mode := mode ++ [0] } ∧
    (filename ++ [0]).dropLast = filename ∧ (mode ++ [0]).dropLast = mode := by
  have hlt : opcode < 65536 := by
    rcases hop with h | h <;> simp [h, RRQ, WRQ]
  have := decode_encode opcode filename mode [] hlt hf hm
  simp only [List.append_nil] at this
  exact ⟨this, by simp, by simp⟩

/-- C7, amended, at the request `RRQ "a" "o"`. -/
theorem decode_encode_roundtrip_witness :
    decodeRRQWRQ (encodeRRQWRQ 1 [97] [111]) =
      some { Opcode := 1, Filename := [97] ++ [0], Mode := [111] ++ [0] } ∧
    (([97] : Bytes) ++ [0]).dropLast = [97] ∧ (([111] : Bytes) ++ [0]).dropLast = [111] :=
  decode_encode_roundtrip 1 [97] [111] (Or.inl rfl) (by decide) (by decide)

/-- C8, as stated, fails: a request with opcode 7 is decoded to an `Initial`. -/
theorem decode_accepts_unknown_opcode :
    decodeRRQWRQ [0, 7, 97, 0, 111, 0] =
      some { Opcode := 7, Filename := [97, 0], Mode := [111, 0] } ∧
    (7 : Nat) ≠ RRQ ∧ (7 : Nat) ≠ WRQ := by
  decide

/-- C8, amended: `decodeRRQWRQ` rejects no opcode.  For a datagram of at least 2 bytes it
returns an `Initial` whose `Opcode` is the 16-bit big-endian value of the first two
bytes, whatever that value is; when it is neither 1 nor 2, it is `Initialize` that
rejects the request: it logs an error and returns. -/
theorem decode_leaves_opcode_unchecked (d : Bytes) (h : 2 ≤ d.length) :
    (∃ i, decodeRRQWRQ d = some i ∧ i.Opcode = wireOpcode d) ∧
    (wireOpcode d ≠ RRQ → wireOpcode d ≠ WRQ →
      ∀ (fs : Bytes → Option File) (inbox : List Recv) (sf : Option Nat),
        Initialize fs { inbox := .dgram d :: inbox, sendFail := sf } =
          { trace := [.request (.dgram d), .logError], out := .ret (),
            net := { inbox := inbox, sendFail := sf } }) := by
  constructor
  · match d, h with
    | b0 :: b1 :: body, _ =>
      rw [decode_eq]
      exact ⟨_, rfl, (wireOpcode_cons b0 b1 body).symm⟩
  · intro h1 h2 fs inbox sf
    obtain ⟨fn, mode, hdec⟩ := decode_requestBuf d
    rw [initialize_dgram fs d inbox sf _ hdec]
    simp only [if_neg h1, if_neg h2]

/-- C8, amended, at a request with opcode 7. -/
theorem decode_leaves_opcode_unchecked_witness :
    (∃ i, decodeRRQWRQ [0, 7, 97, 0, 111, 0] = some i ∧
      i.Opcode = wireOpcode [0, 7, 97, 0, 111, 0]) ∧
    (wireOpcode [0, 7, 97, 0, 111, 0] ≠ RRQ → wireOpcode [0, 7, 97, 0, 111, 0] ≠ WRQ →
      ∀ (fs : Bytes → Option File) (inbox : List Recv) (sf : Option Nat),
        Initialize fs { inbox := .dgram [0, 7, 97, 0, 111, 0] :: inbox, sendFail := sf } =
          { trace := [.request (.dgram [0, 7, 97, 0, 111, 0]), .logError], out := .ret (),
            net := { inbox := inbox, sendFail := sf } }) :=
  decode_leaves_opcode_unchecked [0, 7, 97, 0, 111, 0] (by decide)

/-- C9, as stated, fails: a 3-byte datagram is decoded to an `ACKPacket`. -/
theorem listen_short_datagram_accepted :
    ListenForTransferACK (.dgram [0, 4, 0]) 0 = .ret { Opcode := 4, Blocknum := 0 } := by
  rw [listen_dgram]
  decide

/-- C9, amended: for a datagram shorter than 4 bytes `ListenForTransferACK` does not
fail; it returns the `ACKPacket` read from the datagram's bytes followed by zeros. -/
theorem listen_short_datagram_zero_padded (d : Bytes) (blocknum : Nat) (h : d.length < 4) :
    ListenForTransferACK (.dgram d) blocknum =
      .ret { Opcode := ((d ++ [0, 0, 0, 0]).getD 0 0).val * 256 +
               ((d ++ [0, 0, 0, 0]).getD 1 0).val,
             Blocknum := ((d ++ [0, 0, 0, 0]).getD 2 0).val * 256 +
               ((d ++ [0, 0, 0, 0]).getD 3 0).val } := by
  rw [listen_dgram]
  match d, h with
  | [], _ => rfl
  | [_], _ => rfl
  | [_, _], _ => rfl
  | [_, _, _], _ => rfl

/-- C9, amended, at the 3-byte datagram `00 04 00`. -/
theorem listen_short_datagram_zero_padded_witness :
    ListenForTransferACK (.dgram [0, 4, 0]) 7 =
      .ret { Opcode := (([0, 4, 0] ++ [0, 0, 0, 0] : Bytes).getD 0 0).val * 256 +
               (([0, 4, 0] ++ [0, 0, 0, 0] : Bytes).getD 1 0).val,
             Blocknum := (([0, 4, 0] ++ [0, 0, 0, 0] : Bytes).getD 2 0).val * 256 +
               (([0, 4, 0] ++ [0, 0, 0, 0] : Bytes).getD 3 0).val } :=
  listen_short_datagram_zero_padded [0, 4, 0] 7 (by decide)

set_option maxRecDepth 100000 in
/-- C10, as stated, fails: the file of the first request cannot be opened, the process
exits, and the second request is never received. -/
theorem open_failure_ends_server :
    mainLoop noFiles 2 { inbox := [.dgram rrqA, .dgram rrqA], sendFail := none } =
      { trace := [.request (.dgram rrqA), .opened [97] false, .logError, .exited],
        out := .exit, net := { inbox := [.dgram rrqA], sendFail := none } } := by
  decide

/-- C10, amended: a failing session ends the server.  After a read request has been
received, if its file cannot be opened, or the file opens and the first send fails, or
the receive that waits for the first acknowledgment fails, or if the receive of the
request itself fails, then the process exits: the server loop makes no further pass, and
the datagrams still to come are never read.  The same holds whenever any send or any
receive of the transfer fails. -/
theorem session_failure_ends_server (fs : Bytes → Option File) (d : Bytes)
    (inbox : List Recv) (sf : Option Nat) (n : Nat) (i : Initial)
    (hdec : decodeRRQWRQ (ReadFromUDP (.dgram d) (make 1024)).1 = some i)
    (hop : i.Opcode = RRQ) (hname : i.Filename ≠ []) :
    (fs (i.Filename.take (i.Filename.length - 1)) = none →
      mainLoop fs (n + 1) { inbox := .dgram d :: inbox, sendFail := sf } =
        { trace := [.request (.dgram d),
            .opened (i.Filename.take (i.Filename.length - 1)) false, .logError, .exited],
          out := .exit, net := { inbox := inbox, sendFail := sf } }) ∧
    (∀ file, fs (i.Filename.take (i.Filename.length - 1)) = some file →
      (mainLoop fs (n + 1) { inbox := .dgram d :: inbox, sendFail := some 0 }).out = .exit ∧
      (mainLoop fs (n + 1) { inbox := .dgram d :: inbox, sendFail := some 0 }).net.inbox
        = inbox) ∧
    (∀ file rest, fs (i.Filename.take (i.Filename.length - 1)) = some file →
      (mainLoop fs (n + 1)
        { inbox := .dgram d :: .error :: rest, sendFail := none }).out = .exit ∧
      (mainLoop fs (n + 1)
        { inbox := .dgram d :: .error :: rest, sendFail := none }).net.inbox = rest) ∧
    mainLoop fs (n + 1) { inbox := .error :: inbox, sendFail := sf } =
      { trace := [.request .error, .logError, .exited], out := .exit,
        net := { inbox := inbox, sendFail := sf } } ∧
    ∀ net : Net, (Event.sendFailed ∈ (Initialize fs net).trace ∨
        Event.received .error ∈ (Initialize fs net).trace) →
      (Initialize fs net).out = .exit ∧ mainLoop fs (n + 1) net = Initialize fs net := by
  have hl : i.Filename.length ≠ 0 := fun h => hname (List.length_eq_zero.mp h)
  refine ⟨?_, ?_, ?_, ?_, ?_⟩
  · intro hno
    have e : Initialize fs { inbox := .dgram d :: inbox, sendFail := sf } =
        { trace := [.request (.dgram d),
            .opened (i.Filename.take (i.Filename.length - 1)) false, .logError, .exited],
          out := .exit, net := { inbox := inbox, sendFail := sf } } := by
      rw [initialize_dgram fs d inbox sf i hdec, if_pos hop]
      simp [ProcessRRQRequest, hl, hno, checkErrorEvents, Run.after]
    rw [mainLoop_stop fs n _ (by rw [e]; simp), e]
  · intro file hfile
    obtain ⟨h1, h2, -⟩ := blockLoop_send_fails [0, 3] file 0 inbox
    have e : Initialize fs { inbox := .dgram d :: inbox, sendFail := some 0 } =
        ((blockLoop [0, 3] file 0 { inbox := inbox, sendFail := some 0 }).after
          [.opened (i.Filename.take (i.Filename.length - 1)) true, .logInfo]).after
          [.request (.dgram d)] := by
      rw [initialize_dgram fs d inbox _ i hdec, if_pos hop,
        processRRQ_open fs _ _ file hname hfile, if_neg (by rw [h1]; simp)]
    rw [mainLoop_stop fs n _ (by rw [e]; simp [h1]), e]
    exact ⟨by simpa using h1, by simpa using h2⟩
  · intro file rest hfile
    obtain ⟨h1, h2⟩ := blockLoop_recv_fails [0, 3] file 0 rest
    have e : Initialize fs { inbox := .dgram d :: .error :: rest, sendFail := none } =
        ((blockLoop [0, 3] file 0 { inbox := .error :: rest, sendFail := none }).after
          [.opened (i.Filename.take (i.Filename.length - 1)) true, .logInfo]).after
          [.request (.dgram d)] := by
      rw [initialize_dgram fs d _ _ i hdec, if_pos hop,
        processRRQ_open fs _ _ file hname hfile, if_neg (by rw [h1]; simp)]
    rw [mainLoop_stop fs n _ (by rw [e]; simp [h1]), e]
    exact ⟨by simpa using h1, by simpa using h2⟩
  · have e := initialize_error fs inbox sf
    rw [mainLoop_stop fs n _ (by rw [e]; simp), e]
    rfl
  · intro net h
    have e := initialize_failure_exit fs net h
    exact ⟨e, mainLoop_stop fs n net (by rw [e]; simp)⟩

set_option maxRecDepth 100000 in
/-- C10, amended, at two requests for a file that cannot be opened. -/
theorem session_failure_ends_server_witness :
    mainLoop noFiles (1 + 1) { inbox := .dgram rrqA :: [.dgram rrqA], sendFail := none } =
      { trace := [.request (.dgram rrqA),
          .opened (([97, 0] : Bytes).take (([97, 0] : Bytes).length - 1)) false,
          .logError, .exited],
        out := .exit, net := { inbox := [.dgram rrqA], sendFail := none } } :=
  (session_failure_ends_server noFiles rrqA [.dgram rrqA] none 1
    { Opcode := 1, Filename := [97, 0], Mode := [111, 0] } (by decide) rfl (by decide)).1 rfl

set_option maxRecDepth 100000 in
/-- C11, as stated, fails: the run of `Initialize` on a write request is the receive of
the datagram followed by a plain return.  Nothing is reported: no log record, no
datagram, no exit. -/
theorem wrq_reports_nothing :
    Initialize noFiles { inbox := [.dgram wrqA], sendFail := none } =
      { trace := [.request (.dgram wrqA)], out := .ret (),
        net := { inbox := [], sendFail := none } } ∧
    wireOpcode wrqA = WRQ ∧
    Event.logError ∉
      (Initialize noFiles { inbox := [.dgram wrqA], sendFail := none }).trace := by
  have e : Initialize noFiles { inbox := [.dgram wrqA], sendFail := none } =
      { trace := [.request (.dgram wrqA)], out := .ret (),
        net := { inbox := [], sendFail := none } } := by
    rw [initialize_dgram noFiles wrqA [] none
      { Opcode := 2, Filename := [97, 0], Mode := [111, 0] } (by decide)]
    rfl
  rw [e]
  exact ⟨rfl, rfl, by decide⟩

/-- C11, amended: for a datagram that decodes to opcode 2 (WRQ), `Initialize` does
nothing and reports nothing.  Its run is the receive of the datagram followed by a plain
return: no log record, no file opened, no datagram sent, no exit; the server loop goes on
with the next datagram. -/
theorem wrq_silently_ignored (fs : Bytes → Option File) (d : Bytes) (inbox : List Recv)
    (sf : Option Nat) (n : Nat) (i : Initial)
    (hdec : decodeRRQWRQ (ReadFromUDP (.dgram d) (make 1024)).1 = some i)
    (hop : i.Opcode = WRQ) :
    Initialize fs { inbox := .dgram d :: inbox, sendFail := sf } =
      { trace := [.request (.dgram d)], out := .ret (),
        net := { inbox := inbox, sendFail := sf } } ∧
    sendsOf (Initialize fs { inbox := .dgram d :: inbox, sendFail := sf }).trace = [] ∧
    (∀ name ok, Event.opened name ok ∉
      (Initialize fs { inbox := .dgram d :: inbox, sendFail := sf }).trace) ∧
    Event.logError ∉ (Initialize fs { inbox := .dgram d :: inbox, sendFail := sf }).trace ∧
    mainLoop fs (n + 1) { inbox := .dgram d :: inbox, sendFail := sf } =
      (mainLoop fs n { inbox := inbox, sendFail := sf }).after [.request (.dgram d)] := by
  have e : Initialize fs { inbox := .dgram d :: inbox, sendFail := sf } =
      { trace := [.request (.dgram d)], out := .ret (),
        net := { inbox := inbox, sendFail := sf } } := by
    rw [initialize_dgram fs d inbox sf i hdec, if_neg (by rw [hop]; decide), if_pos hop]
  refine ⟨e, ?_, ?_, ?_, ?_⟩
  · rw [e]; rfl
  · intro name ok; rw [e]; simp
  · rw [e]; simp
  · rw [mainLoop_next fs n _ (by rw [e]), e]

set_option maxRecDepth 100000 in
/-- C11, amended, at the request `WRQ "a" "o"` followed by a read request. -/
theorem wrq_silently_ignored_witness :
    Initialize noFiles { inbox := .dgram wrqA :: [.dgram rrqA], sendFail := none } =
      { trace := [.request (.dgram wrqA)], out := .ret (),
        net := { inbox := [.dgram rrqA], sendFail := none } } ∧
    sendsOf (Initialize noFiles
      { inbox := .dgram wrqA :: [.dgram rrqA], sendFail := none }).trace = [] ∧
    (∀ name ok, Event.opened name ok ∉
      (Initialize noFiles { inbox := .dgram wrqA :: [.dgram rrqA], sendFail := none }).trace) ∧
    Event.logError ∉
      (Initialize noFiles { inbox := .dgram wrqA :: [.dgram rrqA], sendFail := none }).trace ∧
    mainLoop noFiles (1 + 1) { inbox := .dgram wrqA :: [.dgram rrqA], sendFail := none } =
      (mainLoop noFiles 1 { inbox := [.dgram rrqA], sendFail := none }).after
        [.request (.dgram wrqA)] :=
  wrq_silently_ignored noFiles wrqA [.dgram rrqA] none 1
    { Opcode := 2, Filename := [97, 0], Mode := [111, 0] } (by decide) rfl

/-- C12, the code at the wrap: the file has at least 65535 full blocks, read in full
reads, and the client acknowledges blocks 1 to 65535 in turn.  The next Data packet is
sent under block counter 65536 and carries wire block number 0.  No datagram has a block
number equal to 65536, so whatever arrives next, the acknowledgment with block number 0
included, is answered by sending that packet again: the call never gets past this block
and waits for ever. -/
theorem wrapped_block_never_acknowledged (fs : Bytes → Option File) (filename c : Bytes)
    (segs : List (List Bytes × Bytes)) (ds : List Bytes)
    (hname : filename ≠ [])
    (hopen : fs (filename.take (filename.length - 1)) = some (fullReads c))
    (hL : 65535 * 512 ≤ c.length) (hsegs : segs.length = 65535)
    (hack : Acknowledges 1 segs) :
    ProcessRRQRequest fs filename
        { inbox := ackInbox segs ++ ds.map .dgram, sendFail := none } =
      { trace := [.opened (filename.take (filename.length - 1)) true, .logInfo] ++
          ackedBlocks [0, 3] 1 (chunkReads 65535 c) segs ++
          [.read ((c.drop (512 * 65535)).take 512).length,
            .sent 65536 (dataPayload [0, 3] 65536 ((c.drop (512 * 65535)).take 512))] ++
          retransmissions 65536
            (dataPayload [0, 3] 65536 ((c.drop (512 * 65535)).take 512)) ds,
        out := .block, net := { inbox := [], sendFail := none } } ∧
    wireBlock (dataPayload [0, 3] 65536 ((c.drop (512 * 65535)).take 512)) = 0 ∧
    wireBlock (ackPacket 65536) = 0 ∧
    ∀ d : Bytes, wireBlock d ≠ 65536 := by
  have hne : ∀ d : Bytes, wireBlock d ≠ 65536 := fun d => Nat.ne_of_lt (wireBlock_lt d)
  refine ⟨?_, ?_, ?_, hne⟩
  · exact processRRQ_stuck fs filename c segs ds 65535 hname hopen hL hsegs hack
      (Nat.le_refl _) (fun d _ => hne d)
  · rw [wireBlock_dataPayload]
    rfl
  · rw [wireBlock_ackPacket]
    rfl

/-- C12 at a file of 65535 * 512 bytes whose blocks 1 to 65535 are acknowledged, followed
by the acknowledgment of block 0: the call waits. -/
theorem wrapped_block_never_acknowledged_witness :
    (ProcessRRQRequest (oneFile (List.replicate 33553920 7)) [97, 0]
        { inbox := ackInbox (ackAll 1 65535) ++ [ackPacket 65536].map .dgram,
          sendFail := none }).out = .block :=
  congrArg Run.out
    (wrapped_block_never_acknowledged (oneFile (List.replicate 33553920 7)) [97, 0]
      (List.replicate 33553920 7) (ackAll 1 65535) [ackPacket 65536] (by decide) rfl
      (by rw [List.length_replicate]) (ackAll_length 1 65535)
      (acknowledges_ackAll 1 65535)).1

set_option maxRecDepth 100000 in
/-- C13, the code at a failing read: the first `Read` of the open file fails with an
error other than `io.EOF` and delivers no bytes.  `ProcessRRQRequest` sends the empty
Data packet of block 1, waits for its acknowledgment and returns: the run of a
completed transfer of an empty file.  The error of a `Read` is never looked at: a read
that fails and the same read without error give the same run. -/
theorem read_error_sent_as_final_block :
    ProcessRRQRequest (fun _ => some [failedRead]) [97, 0]
        { inbox := [.dgram [0, 4, 0, 1]], sendFail := none } =
      { trace := [.opened [97] true, .logInfo, .read 0, .sent 1 [0, 3, 0, 1],
          .received (.dgram [0, 4, 0, 1]), .closed],
        out := .ret (), net := { inbox := [], sendFail := none } } ∧
    ProcessRRQRequest (fun _ => some [failedRead]) [97, 0]
        { inbox := [.dgram [0, 4, 0, 1]], sendFail := none } =
      ProcessRRQRequest (oneFile []) [97, 0]
        { inbox := [.dgram [0, 4, 0, 1]], sendFail := none } ∧
    ∀ (op data : Bytes) (rest : File) (b : Nat) (net : Net),
      blockLoop op ({ data := data, err := some .other } :: rest) b net =
        blockLoop op ({ data := data, err := none } :: rest) b net := by
  refine ⟨by decide, by decide, ?_⟩
  intro op data rest b net
  rfl

/-- C14: the opcode of a datagram received as acknowledgment is never looked at.  When
`ProcessRRQRequest` waits for the acknowledgment of block `b`, having sent the Data
packet `p` for it, a datagram whose bytes 2..3 give `b` is accepted whatever its other
bytes are: the transfer ends when `p` was short, and otherwise the next block is read and
sent; a datagram whose bytes 2..3 give another number makes it send `p` again.  For every
run, replacing each datagram received by the well-formed acknowledgment (opcode 4) of
the same block number changes nothing but the record of the datagrams received. -/
theorem ack_opcode_unchecked (fs : Bytes → Option File) (filename : Bytes)
    (pre : List Recv) (d : Bytes) (b : Nat) (p : Bytes)
    (hwait : (ProcessRRQRequest fs filename { inbox := pre, sendFail := none }).out = .block)
    (hcur : (sentOf (ProcessRRQRequest fs filename
      { inbox := pre, sendFail := none }).trace).getLast? = some (b, p)) :
    (wireBlock d = b →
      ((dataOf p).length < 512 ∧
        ProcessRRQRequest fs filename { inbox := pre ++ [.dgram d], sendFail := none } =
          { trace := (ProcessRRQRequest fs filename { inbox := pre, sendFail := none }).trace ++
              [.received (.dgram d), .closed],
            out := .ret (), net := { inbox := [], sendFail := none } }) ∨
      ((dataOf p).length = 512 ∧ ∃ next : Bytes,
        ProcessRRQRequest fs filename { inbox := pre ++ [.dgram d], sendFail := none } =
          { trace := (ProcessRRQRequest fs filename { inbox := pre, sendFail := none }).trace ++
              [.received (.dgram d), .read next.length,
                .sent (b + 1) (dataPayload [0, 3] (b + 1) next)],
            out := .block, net := { inbox := [], sendFail := none } })) ∧
    (wireBlock d ≠ b →
      ProcessRRQRequest fs filename { inbox := pre ++ [.dgram d], sendFail := none } =
        { trace := (ProcessRRQRequest fs filename { inbox := pre, sendFail := none }).trace ++
            [.received (.dgram d), .resent b p],
          out := .block, net := { inbox := [], sendFail := none } }) ∧
    (∀ (inbox : List Recv) (sf : Option Nat),
      ProcessRRQRequest fs filename { inbox := inbox.map ackOnlyRecv, sendFail := sf } =
        (ProcessRRQRequest fs filename { inbox := inbox, sendFail := sf }).ackOnly ∧
      sendsOf (ProcessRRQRequest fs filename
          { inbox := inbox.map ackOnlyRecv, sendFail := sf }).trace =
        sendsOf (ProcessRRQRequest fs filename { inbox := inbox, sendFail := sf }).trace ∧
      (ProcessRRQRequest fs filename { inbox := inbox.map ackOnlyRecv, sendFail := sf }).out =
        (ProcessRRQRequest fs filename { inbox := inbox, sendFail := sf }).out) := by
  obtain ⟨hne, file, hopen, hb⟩ := processRRQ_block fs filename _ hwait
  have hnr : ¬ (blockLoop [0, 3] file 0 { inbox := pre, sendFail := none }).out = .ret () := by
    rw [hb]; simp
  have e1 := processRRQ_open fs filename { inbox := pre, sendFail := none } file hne hopen
  rw [if_neg hnr] at e1
  have h0 : sentOf [Event.opened (filename.take (filename.length - 1)) true, Event.logInfo]
      = [] := rfl
  refine ⟨?_, ?_, ?_⟩
  · intro hd
    obtain ⟨k, data, next, hle, hlast, hext⟩ := blockLoop_block_ack [0, 3] file 0 pre hb
    rw [e1] at hcur ⊢
    simp only [after_trace, sentOf_append] at hcur
    rw [h0, List.nil_append, hlast] at hcur
    cases hcur
    have hx := hext d hd
    rw [dataOf_dataPayload, processRRQ_open fs filename _ file hne hopen, hx]
    by_cases hlt : data.length < 512
    · left
      refine ⟨hlt, ?_⟩
      simp [if_pos hlt, Run.after]
    · right
      refine ⟨by omega, next, ?_⟩
      simp [if_neg hlt, Run.after]
  · intro hd
    obtain ⟨k, q, hlast, hext⟩ := blockLoop_block_skip [0, 3] file 0 pre hb
    rw [e1] at hcur ⊢
    simp only [after_trace, sentOf_append] at hcur
    rw [h0, List.nil_append, hlast] at hcur
    cases hcur
    have hx := hext [d] (by simpa using hd)
    simp only [List.map_cons, List.map_nil] at hx
    rw [processRRQ_open fs filename _ file hne hopen, hx]
    simp [Run.after, retransmissions]
  · intro inbox sf
    have e := processRRQ_ackOnly fs filename inbox sf
    refine ⟨e, ?_, ?_⟩
    · rw [e]
      exact sendsOf_ackOnly _
    · rw [e]
      rfl

set_option maxRecDepth 100000 in
/-- C14, at a datagram with opcode 5 (ERROR) and block field 1 arriving while block 1 of
a one-byte file awaits its acknowledgment: the transfer completes. -/
theorem ack_opcode_unchecked_witness :
    ProcessRRQRequest (oneFile [7]) [97, 0]
        { inbox := [] ++ [.dgram [0, 5, 0, 1]], sendFail := none } =
      { trace := (ProcessRRQRequest (oneFile [7]) [97, 0]
            { inbox := [], sendFail := none }).trace ++
          [.received (.dgram [0, 5, 0, 1]), .closed],
        out := .ret (), net := { inbox := [], sendFail := none } } :=
  (((ack_opcode_unchecked (oneFile [7]) [97, 0] [] [0, 5, 0, 1] 1 [0, 3, 0, 1, 7]
    (by decide) (by decide)).1 (by decide)).resolve_right
      (fun h => absurd h.1 (by decide))).2

/-- C15: when the receive buffer of `Initialize` holds opcode 1, then bytes `fn` without
a NUL, then a NUL, the decoder returns `fn` with the NUL as `Filename`, and the name given
to the file-open call is `fn`: the bytes between the opcode and the first NUL, without
the terminator. -/
theorem rrq_opens_name_before_nul (fs : Bytes → Option File) (d : Bytes) (inbox : List Recv)
    (sf : Option Nat) (b0 b1 : Byte) (fn tl : Bytes)
    (hbuf : (ReadFromUDP (.dgram d) (make 1024)).1 = b0 :: b1 :: (fn ++ 0 :: tl))
    (hop : b0.val * 256 + b1.val = RRQ) (hfn : (0 : Byte) ∉ fn) :
    (∃ mode, decodeRRQWRQ (ReadFromUDP (.dgram d) (make 1024)).1 =
      some { Opcode := RRQ, Filename := fn ++ [0], Mode := mode }) ∧
    (fn ++ [0]).take ((fn ++ [0]).length - 1) = fn ∧
    Initialize fs { inbox := .dgram d :: inbox, sendFail := sf } =
      (ProcessRRQRequest fs (fn ++ [0]) { inbox := inbox, sendFail := sf }).after
        [.request (.dgram d)] ∧
    ∃ tail, (Initialize fs { inbox := .dgram d :: inbox, sendFail := sf }).trace =
      .request (.dgram d) :: .opened fn (fs fn).isSome :: tail := by
  have hdec : decodeRRQWRQ (ReadFromUDP (.dgram d) (make 1024)).1 =
      some { Opcode := RRQ, Filename := fn ++ [0],
             Mode := (ReadString 0 ((fn ++ 0 :: tl).drop (fn ++ [0]).length)).1 } := by
    rw [hbuf, decode_eq, readString_terminated fn tl hfn, hop]
  have htake : (fn ++ [0]).take ((fn ++ [0]).length - 1) = fn := by simp
  have hinit := initialize_dgram fs d inbox sf _ hdec
  rw [if_pos rfl] at hinit
  refine ⟨⟨_, hdec⟩, htake, hinit, ?_⟩
  obtain ⟨tail, ht⟩ := processRRQ_opened fs (fn ++ [0]) { inbox := inbox, sendFail := sf }
    (by simp)
  rw [htake] at ht
  exact ⟨tail, by rw [hinit]; simp [ht]⟩

set_option maxRecDepth 100000 in
/-- C15, at the request `RRQ "a" "o"`: the name opened is `a`. -/
theorem rrq_opens_name_before_nul_witness :
    (∃ mode, decodeRRQWRQ (ReadFromUDP (.dgram rrqA) (make 1024)).1 =
      some { Opcode := RRQ, Filename := [97] ++ [0], Mode := mode }) ∧
    (([97] : Bytes) ++ [0]).take ((([97] : Bytes) ++ [0]).length - 1) = [97] ∧
    Initialize noFiles { inbox := .dgram rrqA :: [], sendFail := none } =
      (ProcessRRQRequest noFiles ([97] ++ [0]) { inbox := [], sendFail := none }).after
        [.request (.dgram rrqA)] ∧
    ∃ tail, (Initialize noFiles { inbox := .dgram rrqA :: [], sendFail := none }).trace =
      .request (.dgram rrqA) :: .opened [97] (noFiles [97]).isSome :: tail :=
  rrq_opens_name_before_nul noFiles rrqA [] none 0 1 [97] (111 :: 0 :: make 1018)
    (by decide) (by decide) (by decide)

/-- C16: for a datagram whose opcode is neither 1 nor 2, `Initialize` writes one error
record and returns: no file is opened, no datagram is sent, the process does not exit,
and the server loop goes on with the next datagram. -/
theorem unknown_opcode_logged_and_dropped (fs : Bytes → Option File) (d : Bytes)
    (inbox : List Recv) (sf : Option Nat) (n : Nat) (i : Initial)
    (hdec : decodeRRQWRQ (ReadFromUDP (.dgram d) (make 1024)).1 = some i)
    (h1 : i.Opcode ≠ RRQ) (h2 : i.Opcode ≠ WRQ) :
    (Initialize fs { inbox := .dgram d :: inbox, sendFail := sf }).trace =
      [.request (.dgram d), .logError] ∧
    (Initialize fs { inbox := .dgram d :: inbox, sendFail := sf }).out = .ret () ∧
    (Initialize fs { inbox := .dgram d :: inbox, sendFail := sf }).net =
      { inbox := inbox, sendFail := sf } ∧
    sendsOf (Initialize fs { inbox := .dgram d :: inbox, sendFail := sf }).trace = [] ∧
    (∀ name ok, Event.opened name ok ∉
      (Initialize fs { inbox := .dgram d :: inbox, sendFail := sf }).trace) ∧
    Event.exited ∉ (Initialize fs { inbox := .dgram d :: inbox, sendFail := sf }).trace ∧
    mainLoop fs (n + 1) { inbox := .dgram d :: inbox, sendFail := sf } =
      (mainLoop fs n { inbox := inbox, sendFail := sf }).after
        [.request (.dgram d), .logError] := by
  have e : Initialize fs { inbox := .dgram d :: inbox, sendFail := sf } =
      { trace := [.request (.dgram d), .logError], out := .ret (),
        net := { inbox := inbox, sendFail := sf } } := by
    rw [initialize_dgram fs d inbox sf i hdec, if_neg h1, if_neg h2]
  refine ⟨by rw [e], by rw [e], by rw [e], ?_, ?_, ?_, ?_⟩
  · rw [e]; rfl
  · intro name ok; rw [e]; simp
  · rw [e]; simp
  · rw [mainLoop_next fs n _ (by rw [e]), e]

set_option maxRecDepth 100000 in
/-- C16, at a datagram with opcode 7 followed by a read request. -/
theorem unknown_opcode_logged_and_dropped_witness :
    (Initialize noFiles
      { inbox := .dgram [0, 7, 97, 0, 111, 0] :: [.dgram rrqA], sendFail := none }).trace =
      [.request (.dgram [0, 7, 97, 0, 111, 0]), .logError] ∧
    (Initialize noFiles
      { inbox := .dgram [0, 7, 97, 0, 111, 0] :: [.dgram rrqA], sendFail := none }).out
        = .ret () ∧
    (Initialize noFiles
      { inbox := .dgram [0, 7, 97, 0, 111, 0] :: [.dgram rrqA], sendFail := none }).net =
      { inbox := [.dgram rrqA], sendFail := none } ∧
    sendsOf (Initialize noFiles
      { inbox := .dgram [0, 7, 97, 0, 111, 0] :: [.dgram rrqA], sendFail := none }).trace
        = [] ∧
    (∀ name ok, Event.opened name ok ∉ (Initialize noFiles
      { inbox := .dgram [0, 7, 97, 0, 111, 0] :: [.dgram rrqA], sendFail := none }).trace) ∧
    Event.exited ∉ (Initialize noFiles
      { inbox := .dgram [0, 7, 97, 0, 111, 0] :: [.dgram rrqA], sendFail := none }).trace ∧
    mainLoop noFiles (1 + 1)
        { inbox := .dgram [0, 7, 97, 0, 111, 0] :: [.dgram rrqA], sendFail := none } =
      (mainLoop noFiles 1 { inbox := [.dgram rrqA], sendFail := none }).after
        [.request (.dgram [0, 7, 97, 0, 111, 0]), .logError] :=
  unknown_opcode_logged_and_dropped noFiles [0, 7, 97, 0, 111, 0] [.dgram rrqA] none 1
    { Opcode := 7, Filename := [97, 0], Mode := [111, 0] } (by decide) (by decide) (by decide)

set_option maxRecDepth 8192 in
/-- C17: `ListenForTransferACK` reads within its buffer whatever the length of the
datagram.  The buffer has 512 bytes after the receive, both 2-byte reads are in range,
the call never panics, and for a datagram `d` it returns the big-endian values of bytes
0..1 and 2..3 of `d` followed by zeros; a datagram shorter than 3 bytes gives block
number 0. -/
theorem listen_reads_in_range (r : Recv) (blocknum : Nat) :
    (ReadFromUDP r (make 512)).1.length = 512 ∧
    (slice (ReadFromUDP r (make 512)).1 0 2).isSome ∧
    (slice (ReadFromUDP r (make 512)).1 2 4).isSome ∧
    ListenForTransferACK r blocknum ≠ .panic ∧
    ∀ d, r = .dgram d →
      ListenForTransferACK r blocknum =
        .ret { Opcode := ((d ++ make 512).getD 0 0).val * 256 + ((d ++ make 512).getD 1 0).val,
               Blocknum :=
                 ((d ++ make 512).getD 2 0).val * 256 + ((d ++ make 512).getD 3 0).val } ∧
      (d.length < 3 →
        ListenForTransferACK r blocknum =
          .ret { Opcode := wireOpcode d, Blocknum := 0 }) := by
  have hl : (ReadFromUDP r (make 512)).1.length = 512 := by
    cases r with
    | dgram d => exact recvBuf_length d 512
    | error => exact make_length 512
  refine ⟨hl, ?_, ?_, ?_, ?_⟩
  · simp [slice, hl]
  · simp [slice, hl]
  · cases r with
    | dgram d => rw [listen_dgram]; simp
    | error => rw [listen_error]; simp
  · intro d hd
    subst hd
    rw [listen_dgram]
    refine ⟨?_, ?_⟩
    · simp only [make, getD_append_zeros, wireOpcode, wireBlock]
    · intro h3
      have : wireBlock d = 0 := by
        match d, h3 with
        | [], _ => rfl
        | [_], _ => rfl
        | [_, _], _ => rfl
      rw [this]

/-- C18: `decodeRRQWRQ` reads within its buffer.  On a buffer of at least 2 bytes it
returns an `Initial` (no panic), and the index at which the mode starts,
`len(Filename) + 2`, is at most `len(buf)`, with or without a NUL after the filename.  On
the 1024-byte buffer of `Initialize` the decoded `Filename` is not empty, so the slice
`filename[:len(filename)-1]` is in range: `ProcessRRQRequest` and `Initialize` never
panic. -/
theorem decode_reads_in_range (buf : Bytes) (h : 2 ≤ buf.length) :
    (∃ i, decodeRRQWRQ buf = some i ∧
      i.Filename = (ReadString 0 (buf.drop 2)).1 ∧
      i.Filename.length + 2 ≤ buf.length ∧
      (sliceFrom buf (i.Filename.length + 2)).isSome) ∧
    (∀ r : Recv, ∃ i, decodeRRQWRQ (ReadFromUDP r (make 1024)).1 = some i ∧
      i.Filename ≠ [] ∧
      ∀ fs net, (ProcessRRQRequest fs i.Filename net).out ≠ .panic) ∧
    ∀ fs net, (Initialize fs net).out ≠ .panic := by
  refine ⟨?_, ?_, initialize_no_panic⟩
  · match buf, h with
    | b0 :: b1 :: body, _ =>
      rw [decode_eq]
      have hle := readString_length_le 0 body
      refine ⟨_, rfl, rfl, ?_, ?_⟩
      · simp only [List.drop_succ_cons, List.drop_zero, List.length_cons]
        omega
      · simp only [sliceFrom, List.length_cons]
        rw [if_pos (by omega)]
        rfl
  · intro r
    obtain ⟨i, hdec, hne⟩ := decode_requestBuf_any r
    exact ⟨i, hdec, hne, fun fs net => processRRQ_no_panic fs i.Filename net hne⟩

/-- C18, at the 3-byte buffer `00 01 61`, whose filename has no NUL. -/
theorem decode_reads_in_range_witness :
    (∃ i, decodeRRQWRQ [0, 1, 97] = some i ∧
      i.Filename = (ReadString 0 (([0, 1, 97] : Bytes).drop 2)).1 ∧
      i.Filename.length + 2 ≤ ([0, 1, 97] : Bytes).length ∧
      (sliceFrom [0, 1, 97] (i.Filename.length + 2)).isSome) ∧
    (∀ r : Recv, ∃ i, decodeRRQWRQ (ReadFromUDP r (make 1024)).1 = some i ∧
      i.Filename ≠ [] ∧
      ∀ fs net, (ProcessRRQRequest fs i.Filename net).out ≠ .panic) ∧
    ∀ fs net, (Initialize fs net).out ≠ .panic :=
  decode_reads_in_range [0, 1, 97] (by decide)

/-- C19: `ProcessRRQRequest` returns only after a Data packet with fewer than 512
payload bytes has been acknowledged, and that packet is the first short one.  For every
file and socket behaviour, every new packet but the last carries 512 payload bytes, and
when the call returns, the last new packet is short and the last event before the
deferred close is the receive of a datagram with its block number.  When the reads of the
file are full ones (`pre`), then a short one (`r`), then whatever (`rest`), and each block
is acknowledged, the call returns after the packet of `r`: the file is read
`len(pre) + 1` times, the packets sent are those of `pre` and `r`, and `rest` is never
read nor sent. -/
theorem rrq_ends_at_first_short_block (fs : Bytes → Option File) (filename : Bytes)
    (pre : File) (r : ReadResult) (rest : File) (segs : List (List Bytes × Bytes))
    (tail : List Recv) (hname : filename ≠ [])
    (hopen : fs (filename.take (filename.length - 1)) = some (pre ++ r :: rest))
    (hfull : ∀ x ∈ pre, (readData x).length = 512) (hshort : (readData r).length < 512)
    (hlen : segs.length = pre.length + 1) (hack : Acknowledges 1 segs)
    (hb : pre.length + 1 ≤ 65535) :
    ProcessRRQRequest fs filename { inbox := ackInbox segs ++ tail, sendFail := none } =
      { trace := [.opened (filename.take (filename.length - 1)) true, .logInfo] ++
          ackedBlocks [0, 3] 1 (pre ++ [r]) segs ++ [.closed],
        out := .ret (), net := { inbox := tail, sendFail := none } } ∧
    sentOf (ProcessRRQRequest fs filename
        { inbox := ackInbox segs ++ tail, sendFail := none }).trace =
      readPackets [0, 3] 1 (pre ++ [r]) ∧
    readsOf (ProcessRRQRequest fs filename
        { inbox := ackInbox segs ++ tail, sendFail := none }).trace =
      (pre ++ [r]).map (fun x => (readData x).length) ∧
    ∀ net : Net,
      (∀ x ∈ (sentOf (ProcessRRQRequest fs filename net).trace).dropLast,
        (dataOf x.2).length = 512) ∧
      ((ProcessRRQRequest fs filename net).out = .ret () →
        ∃ t d k p, (ProcessRRQRequest fs filename net).trace =
            t ++ [.received (.dgram d), .closed] ∧
          (sentOf (ProcessRRQRequest fs filename net).trace).getLast? = some (k, p) ∧
          wireBlock d = k ∧ (dataOf p).length < 512) := by
  have hbl := blockLoop_acked_short [0, 3] pre r rest 0 segs tail hfull hshort hlen hack
    (by omega)
  have e : ProcessRRQRequest fs filename { inbox := ackInbox segs ++ tail, sendFail := none } =
      { trace := [.opened (filename.take (filename.length - 1)) true, .logInfo] ++
          ackedBlocks [0, 3] 1 (pre ++ [r]) segs ++ [.closed],
        out := .ret (), net := { inbox := tail, sendFail := none } } := by
    rw [processRRQ_open fs filename _ _ hname hopen, hbl]
    simp
  have hl2 : segs.length = (pre ++ [r]).length := by simp [hlen]
  refine ⟨e, ?_, ?_, fun net => processRRQ_ends_short fs filename net⟩
  · rw [e]
    simp only [sentOf_append, sentOf_ackedBlocks _ _ _ _ hl2]
    simp [sentOf]
  · rw [e]
    simp only [readsOf_append, readsOf_ackedBlocks _ _ _ _ hl2]
    simp [readsOf]

set_option maxRecDepth 100000 in
/-- C19, at a file whose first read delivers 3 bytes while 2 more bytes are unread: one
packet is sent and the call returns; the bytes `4, 5` are never read. -/
theorem rrq_ends_at_first_short_block_witness :
    ProcessRRQRequest
        (fun _ => some ([] ++ { data := [1, 2, 3], err := none } ::
          [{ data := [4, 5], err := none }]))
        [97, 0] { inbox := ackInbox [([], [0, 4, 0, 1])] ++ [], sendFail := none } =
      { trace := [.opened [97] true, .logInfo, .read 3, .sent 1 [0, 3, 0, 1, 1, 2, 3],
          .received (.dgram [0, 4, 0, 1]), .closed],
        out := .ret (), net := { inbox := [], sendFail := none } } :=
  (rrq_ends_at_first_short_block
    (fun _ => some ([] ++ { data := [1, 2, 3], err := none } ::
      [{ data := [4, 5], err := none }]))
    [97, 0] [] { data := [1, 2, 3], err := none } [{ data := [4, 5], err := none }]
    [([], [0, 4, 0, 1])] [] (by decide) rfl (by simp) (by decide) rfl
    (by simp [Acknowledges, wireBlock, uint16]) (by decide)).1

/-- C20: the mode of a read request has no effect.  For two requests with opcode 1 and
the same filename, whatever their modes, and the same files and socket behaviour,
`Initialize` does the same from the receive of the request on: the same events, among
them the same datagrams sent in the same order, the same outcome, the same socket left
over. -/
theorem rrq_mode_ignored (fs : Bytes → Option File) (fn mode mode' : Bytes)
    (inbox : List Recv) (sf : Option Nat) :
    (Initialize fs
        { inbox := .dgram (encodeRRQWRQ RRQ fn mode) :: inbox, sendFail := sf }).trace.tail =
      (Initialize fs
        { inbox := .dgram (encodeRRQWRQ RRQ fn mode') :: inbox, sendFail := sf }).trace.tail ∧
    sendsOf (Initialize fs
        { inbox := .dgram (encodeRRQWRQ RRQ fn mode) :: inbox, sendFail := sf }).trace =
      sendsOf (Initialize fs
        { inbox := .dgram (encodeRRQWRQ RRQ fn mode') :: inbox, sendFail := sf }).trace ∧
    (Initialize fs
        { inbox := .dgram (encodeRRQWRQ RRQ fn mode) :: inbox, sendFail := sf }).out =
      (Initialize fs
        { inbox := .dgram (encodeRRQWRQ RRQ fn mode') :: inbox, sendFail := sf }).out ∧
    (Initialize fs
        { inbox := .dgram (encodeRRQWRQ RRQ fn mode) :: inbox, sendFail := sf }).net =
      (Initialize fs
        { inbox := .dgram (encodeRRQWRQ RRQ fn mode') :: inbox, sendFail := sf }).net := by
  have key : ∀ m : Bytes,
      Initialize fs { inbox := .dgram (encodeRRQWRQ RRQ fn m) :: inbox, sendFail := sf } =
        (ProcessRRQRequest fs (ReadString 0 ((fn ++ [0]).take 1022)).1
          { inbox := inbox, sendFail := sf }).after [.request (.dgram (encodeRRQWRQ RRQ fn m))] := by
    intro m
    obtain ⟨x, hx⟩ := decode_requestBuf_encoded RRQ fn m
    rw [initialize_dgram fs _ inbox sf _ hx]
    exact if_pos (show uint16 RRQ = RRQ from rfl)
  rw [key mode, key mode']
  simp [Run.after, sendsOf_request]

end Tftpd
